import Mathlib

/-!
# Sparse clustering matrix (`sparseclusteringmatrix.cpp`)

A shallow embedding of `SparseClusteringMatrix`: the two constructors, the
accessors and `JoinCluster`, followed by the properties proved about them.

Modelling conventions.

* `t_value` (a C++ `double`) is modelled by the exact rationals `ℚ`; rounding
  is outside the model.  The quotient `1.0 / 0`, the floating-point infinity,
  is no rational: the initial value of a graph without edges is `none`, and
  so is the result of every statement that stores it or multiplies by it.
* `t_row_value_map` (a `std::unordered_map<int, t_value>`) is modelled by an
  association list with pairwise distinct keys.  The order of the list is the
  iteration order of the map; every statement below is proved for every
  order.
* The arrays `rows_` and `row_sums_` are modelled by functions on indices
  together with the allocation length `capacity`; an access at an index that
  is not below `capacity`, and an `erase` through an end iterator, have no
  defined behaviour in the source and make the embedded operation return
  `none`.
* A write that adds a key to a row while a loop traverses that row may
  rehash the map and invalidate the iterator of the loop, and otherwise
  leaves open whether the loop reaches the new entry: the embedded operation
  returns `none`.
-/

namespace CGGC

/-- The value type of the matrix (`double` in the source). -/
abbrev t_value := ℚ

/-- Vertex and cluster identifiers. -/
abbrev t_id := ℕ

/-! ## Association lists -/

/-- Keys of an association list, in list order. -/
def lkeys (l : List (t_id × t_value)) : List t_id := l.map Prod.fst

/-- Lookup of a key in an association list. -/
def lfind : List (t_id × t_value) → t_id → Option t_value
  | [], _ => none
  | (k, v) :: r, c => if k = c then some v else lfind r c

/-- Overwrite the value stored under a key, or add the key when absent. -/
def lassign : List (t_id × t_value) → t_id → t_value → List (t_id × t_value)
  | [], c, x => [(c, x)]
  | (k, v) :: r, c, x => if k = c then (k, x) :: r else (k, v) :: lassign r c x

/-- Remove the entry stored under a key, if any. -/
def lerase : List (t_id × t_value) → t_id → List (t_id × t_value)
  | [], _ => []
  | (k, v) :: r, c => if k = c then r else (k, v) :: lerase r c

/-- Sum of the stored values. -/
def lsum (l : List (t_id × t_value)) : t_value := (l.map Prod.snd).sum

theorem lkeys_lassign (l : List (t_id × t_value)) (c : t_id) (x : t_value) :
    lkeys (lassign l c x) = if c ∈ lkeys l then lkeys l else lkeys l ++ [c] := by
  induction l with
  | nil => simp [lassign, lkeys]
  | cons e r ih =>
    obtain ⟨k, v⟩ := e
    by_cases h : k = c
    · simp [lassign, lkeys, h]
    · have h2 : ¬ c = k := fun e => h e.symm
      simp only [lkeys] at ih
      simp only [lassign, lkeys, h, if_false, List.map_cons, List.mem_cons, h2, false_or, ih]
      split <;> simp

theorem nodup_lassign {l : List (t_id × t_value)} (h : (lkeys l).Nodup) (c : t_id)
    (x : t_value) : (lkeys (lassign l c x)).Nodup := by
  rw [lkeys_lassign]
  split
  · exact h
  · rename_i hc
    exact List.Nodup.append h (List.nodup_singleton c) (by simpa using hc)

theorem lkeys_lerase_sublist (l : List (t_id × t_value)) (c : t_id) :
    (lkeys (lerase l c)).Sublist (lkeys l) := by
  induction l with
  | nil => simp [lerase, lkeys]
  | cons e r ih =>
    obtain ⟨k, v⟩ := e
    by_cases h : k = c
    · simp [lerase, lkeys, h]
    · simp only [lkeys] at ih
      simpa [lerase, lkeys, h] using ih

theorem nodup_lerase {l : List (t_id × t_value)} (h : (lkeys l).Nodup) (c : t_id) :
    (lkeys (lerase l c)).Nodup :=
  List.Nodup.sublist (lkeys_lerase_sublist l c) h

/-! ## `t_row_value_map` -/

/-- One sparse row: `std::unordered_map<int, t_value>`, keys unique. -/
structure t_row_value_map where
  /-- The stored (column, value) pairs in iteration order. -/
  entries : List (t_id × t_value)
  /-- A map stores each key at most once. -/
  nodup : (lkeys entries).Nodup

namespace t_row_value_map

/-- A default-constructed (empty) map. -/
def empty : t_row_value_map := ⟨[], List.nodup_nil⟩

/-- The call `row.find(c)`: `none` stands for the end iterator, `some v` for an
iterator whose `second` is `v`. -/
def find (r : t_row_value_map) (c : t_id) : Option t_value := lfind r.entries c

/-- The assignment `row[c] = x`. -/
def assign (r : t_row_value_map) (c : t_id) (x : t_value) : t_row_value_map :=
  ⟨lassign r.entries c x, nodup_lassign r.nodup c x⟩

/-- The read `row[c]`: a missing key is first inserted with the value `0.0`.
Returns the row after the access and the value read. -/
def subscript (r : t_row_value_map) (c : t_id) : t_row_value_map × t_value :=
  match r.find c with
  | some v => (r, v)
  | none => (r.assign c 0, 0)

/-- The call `row.erase(c)`. -/
def erase (r : t_row_value_map) (c : t_id) : t_row_value_map :=
  ⟨lerase r.entries c, nodup_lerase r.nodup c⟩

/-- The call `row.size()`. -/
def size (r : t_row_value_map) : ℕ := r.entries.length

/-- The keys of the row in iteration order. -/
def keys (r : t_row_value_map) : List t_id := lkeys r.entries

/-- The sum of the entries stored in the row. -/
def entrySum (r : t_row_value_map) : t_value := lsum r.entries

end t_row_value_map

/-! ## Collaborators -/

/-- Modelled from the spec: the `Graph` collaborator, whose header `graph.h` is
not among the sources.  It exposes the vertex count, the edge count and, for a
vertex id, the list of its neighbor ids.  The edge count counts the edges that
the neighbor lists record, so a graph whose edge count is 0 has only empty
neighbor lists. -/
structure Graph where
  /-- Number of vertices. -/
  get_vertex_count : ℕ
  /-- Number of undirected edges. -/
  get_edge_count : ℕ
  /-- Neighbor list of a vertex. -/
  GetNeighbors : t_id → List t_id
  /-- A graph without edges has no neighbors. -/
  edgeless : get_edge_count = 0 → ∀ i, GetNeighbors i = []

/-- Modelled from the spec: the `Partition` collaborator, whose header
`partition.h` is not among the sources: a vector of groups, each an ordered
list of vertex ids. -/
structure Partition where
  /-- The groups, in vector order. -/
  get_partition_vector : List (List t_id)

/-! ## The matrix -/

/-- State of a `SparseClusteringMatrix`.  `capacity` is the length with which
both arrays were allocated (the vertex count of the graph). -/
structure SparseClusteringMatrix where
  /-- Allocation length of `rows_` and `row_sums_`. -/
  capacity : ℕ
  /-- The sparse rows. -/
  rows_ : ℕ → t_row_value_map
  /-- The maintained row sums. -/
  row_sums_ : ℕ → t_value
  /-- The dimension recorded at construction. -/
  dimension_ : ℕ

namespace SparseClusteringMatrix

/-- The statement `rows_[r][c] = x`. -/
def setCell (m : SparseClusteringMatrix) (r c : ℕ) (x : t_value) : SparseClusteringMatrix :=
  { m with rows_ := Function.update m.rows_ r ((m.rows_ r).assign c x) }

/-- Erasing column `c` from `rows_[r]`. -/
def eraseCell (m : SparseClusteringMatrix) (r c : ℕ) : SparseClusteringMatrix :=
  { m with rows_ := Function.update m.rows_ r ((m.rows_ r).erase c) }

/-- The cell `(r, c)` as a lookup: `rows_[r].find(c)`. -/
def cell (m : SparseClusteringMatrix) (r c : ℕ) : Option t_value := (m.rows_ r).find c

/-- The initial value `1.0 / (2 * graph->get_edge_count())`.  With an edge
count of 0 the quotient of the source is the floating-point infinity, which is
no value of `t_value`: `none`. -/
def initvalue (g : Graph) : Option t_value :=
  if g.get_edge_count = 0 then none
  else some (1 / (2 * (g.get_edge_count : t_value)))

/-- The member function `init`, called by the constructor from a graph alone.
Every statement that uses the initial value needs it to be a number: storing
it in a cell, and the product `initvalue * rows_[i].size()`, which the source
evaluates for every row, also for an empty one (infinity times 0 is not a
number).  The result is `none` when a statement has no value to use. -/
def init (g : Graph) : Option SparseClusteringMatrix :=
  let dimension := g.get_vertex_count
  let populated := (List.range dimension).foldlM
    (fun rows i =>
      match (g.GetNeighbors i).foldlM
          (fun row nb =>
            match initvalue g with
            | none => none
            | some iv => some (row.assign nb iv))
          (rows i) with
      | none => none
      | some row => some (Function.update rows i row))
    (fun _ => t_row_value_map.empty)
  match populated with
  | none => none
  | some rows =>
    let summed := (List.range dimension).foldlM
      (fun sums i =>
        match initvalue g with
        | none => none
        | some iv => some (Function.update sums i (iv * ((rows i).size : t_value))))
      (fun _ => 0)
    match summed with
    | none => none
    | some sums =>
      some { capacity := dimension, rows_ := rows, row_sums_ := sums, dimension_ := dimension }

/-- The first loop of the partition constructor: fills `clustermap`, the map
from a vertex id to the row of its cluster (the first vertex of the cluster).
An entry never written is `none`.  Dereferencing `begin()` of an empty cluster
or writing beyond the array gives `none` for the whole loop. -/
def buildClustermap (n : ℕ) (groups : List (List t_id)) : Option (ℕ → Option t_id) :=
  groups.foldlM
    (fun clustermap cluster =>
      match cluster with
      | [] => none
      | cluster_row :: _ =>
        cluster.foldlM
          (fun cm vertexid =>
            if vertexid < n then some (Function.update cm vertexid (some cluster_row))
            else none)
          clustermap)
    (fun _ => none)

/-- The body of the population loop of the partition constructor: add
`initvalue` to the cell `(cluster1, cluster2)`, creating it when absent. -/
def accumulate (rows : ℕ → t_row_value_map) (cluster1 cluster2 : t_id) (iv : t_value) :
    ℕ → t_row_value_map :=
  match (rows cluster1).find cluster2 with
  | some x => Function.update rows cluster1 ((rows cluster1).assign cluster2 (x + iv))
  | none => Function.update rows cluster1 ((rows cluster1).assign cluster2 iv)

/-- The population loop of the partition constructor.  Reading `clustermap` at
an unwritten or out-of-range index, or indexing `rows_` out of range, gives
`none`, and so does storing an initial value that is not a number. -/
def populate (g : Graph) (clustermap : ℕ → Option t_id) (iv : Option t_value) :
    Option (ℕ → t_row_value_map) :=
  (List.range g.get_vertex_count).foldlM
    (fun rows i =>
      match clustermap i with
      | none => none
      | some cluster1 =>
        if cluster1 < g.get_vertex_count then
          (g.GetNeighbors i).foldlM
            (fun rows nb =>
              if nb < g.get_vertex_count then
                match clustermap nb with
                | none => none
                | some cluster2 =>
                  match iv with
                  | none => none
                  | some x => some (accumulate rows cluster1 cluster2 x)
              else none)
            rows
        else none)
    (fun _ => t_row_value_map.empty)

/-- The inner summation loop of the partition constructor:
`sum += rows_[i][j->first]` over the entries `j` of the row. -/
def recomputeSum (row : t_row_value_map) : t_value :=
  if row.size > 0 then
    row.entries.foldl (fun sum j => sum + (row.subscript j.1).2) 0
  else 0

/-- The constructor from a graph and a partition. -/
def mkWithPartition (g : Graph) (clusters : Partition) : Option SparseClusteringMatrix :=
  let dimension := clusters.get_partition_vector.length
  match buildClustermap g.get_vertex_count clusters.get_partition_vector with
  | none => none
  | some clustermap =>
    match populate g clustermap (initvalue g) with
    | none => none
    | some rows =>
      let sums := (List.range g.get_vertex_count).foldl
        (fun sums i => Function.update sums i (recomputeSum (rows i)))
        (fun _ => 0)
      some { capacity := g.get_vertex_count, rows_ := rows, row_sums_ := sums,
             dimension_ := dimension }

/-- The accessor `GetRow`. -/
def GetRow (m : SparseClusteringMatrix) (rowIndex : ℕ) : t_row_value_map := m.rows_ rowIndex

/-- The accessor `GetRowSum`. -/
def GetRowSum (m : SparseClusteringMatrix) (rowIndex : ℕ) : t_value := m.row_sums_ rowIndex

/-- The accessor `GetRowEntries`. -/
def GetRowEntries (m : SparseClusteringMatrix) (rowIndex : ℕ) : ℕ := (m.rows_ rowIndex).size

/-- The accessor `Get`: dereferences the iterator returned by `find`; `none`
when that iterator is the end iterator. -/
def Get (m : SparseClusteringMatrix) (rowIndex columnIndex : ℕ) : Option t_value :=
  (m.rows_ rowIndex).find columnIndex

/-- One iteration of the loop of `JoinCluster`, at the entry of row `b` whose
key is `column`.  The value is read through the iterator, hence from the
current state of row `b`.  At `column = b` the statement
`rows_[column][a] = new_value` writes into the row under traversal: when that
row holds no entry for `a` the write inserts a key, which may rehash the row and
invalidate the iterator of the loop, and otherwise leaves open whether the
traversal reaches the new entry; the result is then `none`. -/
def joinStep (a b : ℕ) (m : SparseClusteringMatrix) (column : ℕ) :
    Option SparseClusteringMatrix :=
  match (m.rows_ b).find column with
  | none => none
  | some value =>
    let new_value :=
      match (m.rows_ a).find column with
      | some x => value + x
      | none => value
    let m1 := m.setCell a column new_value
    if column < m.capacity then
      if column = b ∧ (m1.rows_ b).find a = none then none
      else
        let m2 := m1.setCell column a new_value
        if column ≠ b then
          match (m2.rows_ column).find b with
          | none => none
          | some _ => some (m2.eraseCell column b)
        else some m2
    else none

/-- The loop of `JoinCluster` over the keys `columns` of row `b`. -/
def joinLoop (a b : ℕ) (m : SparseClusteringMatrix) (columns : List ℕ) :
    Option SparseClusteringMatrix :=
  columns.foldlM (joinStep a b) m

/-- The statements of `JoinCluster` after the loop. -/
def joinFinish (a b : ℕ) (m : SparseClusteringMatrix) : SparseClusteringMatrix :=
  let r1 := (m.rows_ a).subscript a
  let r2 := r1.1.subscript b
  let r3 := r2.1.assign a (r1.2 + r2.2)
  let r4 := r3.erase b
  let sums1 := Function.update m.row_sums_ a (m.row_sums_ a + m.row_sums_ b)
  let sums2 := Function.update sums1 b 0
  { m with rows_ := Function.update m.rows_ a r4, row_sums_ := sums2 }

/-- The member function `JoinCluster`.  The loop visits the keys of row `b` in
their iteration order and reads each value at the time of the visit.  The only
write into row `b` during the loop is `rows_[b][a] = new_value` at the visit of
column `b`: it overwrites the entry for `a` in place when row `b` has one, so
that the set of keys under traversal never changes in a run that returns; a
write that would add the key `a` to the row under traversal makes the visit,
and with it the call, `none`. -/
def JoinCluster (m : SparseClusteringMatrix) (a b : ℕ) : Option SparseClusteringMatrix :=
  if a < m.capacity ∧ b < m.capacity then
    match joinLoop a b m (m.rows_ b).keys with
    | none => none
    | some m1 => some (joinFinish a b m1)
  else none

/-- The recomputed sum of the entries of row `i`. -/
def rowEntrySum (m : SparseClusteringMatrix) (i : ℕ) : t_value := (m.rows_ i).entrySum

/-- The sum of the maintained row sums over all allocated rows. -/
def totalRowSum (m : SparseClusteringMatrix) : t_value :=
  ((List.range m.capacity).map m.row_sums_).sum

/-- The sum of all stored entries over all allocated rows. -/
def totalEntrySum (m : SparseClusteringMatrix) : t_value :=
  ((List.range m.capacity).map m.rowEntrySum).sum

/-- Symmetry: every entry `(i, j)` of an allocated row has a matching entry
`(j, i)` with the same value in an allocated row. -/
def Symmetric (m : SparseClusteringMatrix) : Prop :=
  ∀ i < m.capacity, ∀ e ∈ (m.rows_ i).entries,
    e.1 < m.capacity ∧ (m.rows_ e.1).find i = some e.2

instance (m : SparseClusteringMatrix) : Decidable (Symmetric m) := by
  unfold Symmetric; infer_instance

/-- Row-sum consistency: every maintained row sum is the sum of its row. -/
def RowSumsCorrect (m : SparseClusteringMatrix) : Prop :=
  ∀ i < m.capacity, m.row_sums_ i = m.rowEntrySum i

instance (m : SparseClusteringMatrix) : Decidable (RowSumsCorrect m) := by
  unfold RowSumsCorrect; infer_instance

/-! ### Notions used in the proofs -/

/-- The cell `(i, j)` is written by the iteration that visits column `c`. -/
def Touched (a b c i j : ℕ) : Prop :=
  (i = a ∧ j = c) ∨ (i = c ∧ j = a) ∨ (i = c ∧ j = b ∧ c ≠ b)

/-- Row `b` is locally symmetric: each of its columns is an allocated row that
holds an entry for column `b`. -/
def RowMirrored (m : SparseClusteringMatrix) (b : ℕ) : Prop :=
  ∀ c v, m.cell b c = some v → c < m.capacity ∧ ∃ w, m.cell c b = some w

/-- The visit of column `c` of row `b` is ready to return: the entry `(b, c)`
is there, `c` is an allocated row, the entry `(c, b)` that the visit erases is
there when `c` is not `b`, and the entry `(b, a)` that the visit overwrites is
there when `c` is `b`. -/
def VisitReady (a b : ℕ) (m : SparseClusteringMatrix) (c : ℕ) : Prop :=
  (∃ v, m.cell b c = some v) ∧ c < m.capacity ∧ (c ≠ b → ∃ w, m.cell c b = some w) ∧
    (c = b → ∃ u, m.cell b a = some u)

/-- The state that `init` builds when the initial value is the number `iv`. -/
def initWith (g : Graph) (iv : t_value) : SparseClusteringMatrix :=
  let dimension := g.get_vertex_count
  let rows := (List.range dimension).foldl
    (fun rows i => Function.update rows i
      ((g.GetNeighbors i).foldl (fun row nb => row.assign nb iv) (rows i)))
    (fun _ => t_row_value_map.empty)
  let sums := (List.range dimension).foldl
    (fun sums i => Function.update sums i (iv * ((rows i).size : t_value)))
    (fun _ => 0)
  { capacity := dimension, rows_ := rows, row_sums_ := sums, dimension_ := dimension }

/-- The rows after accumulating `iv` once for every pair of the list. -/
def accumulateAll (iv : t_value) (pairs : List (t_id × t_id)) : ℕ → t_row_value_map :=
  pairs.foldl (fun rows q => accumulate rows q.1 q.2 iv) (fun _ => t_row_value_map.empty)

/-- Every entry `(i, j)` of a row that is not retired has a column that is an
allocated row, not retired, holding the entry `(j, i)` with the same value. -/
def AliveSymmetric (m : SparseClusteringMatrix) (retired : List ℕ) : Prop :=
  ∀ i < m.capacity, i ∉ retired → ∀ j v, m.cell i j = some v →
    j < m.capacity ∧ j ∉ retired ∧ m.cell j i = some v

/-- The state after one iteration of the merge loop that reads the value `v`. -/
def joinStepResult (a b : ℕ) (m : SparseClusteringMatrix) (c : ℕ) (v : t_value) :
    SparseClusteringMatrix :=
  let nv := v + (m.cell a c).getD 0
  let m2 := (m.setCell a c nv).setCell c a nv
  if c ≠ b then m2.eraseCell c b else m2

end SparseClusteringMatrix

/-- A sequence of `JoinCluster` calls, one for each pair `(a, b)` of the list in
order. -/
def JoinClusters (m : SparseClusteringMatrix) (ops : List (ℕ × ℕ)) :
    Option SparseClusteringMatrix :=
  ops.foldlM (fun m1 q => SparseClusteringMatrix.JoinCluster m1 q.1 q.2) m

/-! ## Conditions on the inputs -/

/-- Every neighbor id is a vertex id. -/
def Graph.NeighborsInRange (g : Graph) : Prop :=
  ∀ i < g.get_vertex_count, ∀ j ∈ g.GetNeighbors i, j < g.get_vertex_count

instance (g : Graph) : Decidable g.NeighborsInRange := by
  unfold Graph.NeighborsInRange; infer_instance

/-- The graph is undirected: `j` occurs in the neighbor list of `i` exactly as
often as `i` occurs in the neighbor list of `j`. -/
def Graph.Undirected (g : Graph) : Prop :=
  ∀ i < g.get_vertex_count, ∀ j < g.get_vertex_count,
    (g.GetNeighbors i).count j = (g.GetNeighbors j).count i

instance (g : Graph) : Decidable g.Undirected := by
  unfold Graph.Undirected; infer_instance

/-- No neighbor list names a vertex twice. -/
def Graph.NoDuplicates (g : Graph) : Prop :=
  ∀ i < g.get_vertex_count, (g.GetNeighbors i).Nodup

instance (g : Graph) : Decidable g.NoDuplicates := by
  unfold Graph.NoDuplicates; infer_instance

/-- The sum of the lengths of the neighbor lists. -/
def Graph.degreeSum (g : Graph) : ℕ :=
  ((List.range g.get_vertex_count).map (fun i => (g.GetNeighbors i).length)).sum

/-- A valid partition of the vertex set of `g`: non-empty groups of vertex ids,
pairwise disjoint, covering every vertex. -/
def Partition.Valid (p : Partition) (g : Graph) : Prop :=
  (∀ c ∈ p.get_partition_vector, c ≠ []) ∧
  (∀ c ∈ p.get_partition_vector, ∀ v ∈ c, v < g.get_vertex_count) ∧
  p.get_partition_vector.Pairwise (fun c d => ∀ v ∈ c, v ∉ d) ∧
  (∀ v < g.get_vertex_count, ∃ c ∈ p.get_partition_vector, v ∈ c)

instance (p : Partition) (g : Graph) : Decidable (p.Valid g) := by
  unfold Partition.Valid; infer_instance

/-- The first listed id of the first group of the list that contains `v`. -/
def repOf (groups : List (List t_id)) (v : t_id) : t_id :=
  match groups.find? (fun c => decide (v ∈ c)) with
  | some c => c.headD 0
  | none => 0

/-- The representative of a vertex: the first listed id of its group. -/
def Partition.rep (p : Partition) (v : t_id) : t_id := repOf p.get_partition_vector v

/-- One pair `(rep i, rep j)` for every vertex `i` and every position of its
neighbor list, `j` being the id at that position. -/
def repPairs (g : Graph) (p : Partition) : List (t_id × t_id) :=
  (List.range g.get_vertex_count).flatMap
    (fun i => (g.GetNeighbors i).map (fun j => (p.rep i, p.rep j)))

/-! ## Reachable states -/

/-- The matrices `m` and `m1` differ only in the iteration order of their rows. -/
def SameUpToOrder (m m1 : SparseClusteringMatrix) : Prop :=
  m1.capacity = m.capacity ∧ m1.row_sums_ = m.row_sums_ ∧ m1.dimension_ = m.dimension_ ∧
    ∀ i, (m1.rows_ i).entries.Perm (m.rows_ i).entries

/-- The states reachable from either constructor on an undirected graph by
`JoinCluster` calls on distinct rows that no earlier call has retired, together
with the list of the rows retired so far.  The iteration order of a row is not
fixed by the source, so a reachable state may have its rows in any order. -/
inductive Reachable : SparseClusteringMatrix → List ℕ → Prop
  | plain (g : Graph) (m : SparseClusteringMatrix) :
      g.NeighborsInRange → g.Undirected →
      SparseClusteringMatrix.init g = some m → Reachable m []
  | withPartition (g : Graph) (p : Partition) (m : SparseClusteringMatrix) :
      g.NeighborsInRange → g.Undirected → p.Valid g →
      SparseClusteringMatrix.mkWithPartition g p = some m → Reachable m []
  | join (m : SparseClusteringMatrix) (retired : List ℕ) (a b : ℕ)
      (m1 : SparseClusteringMatrix) :
      Reachable m retired → a ≠ b → a < m.capacity → b < m.capacity →
      a ∉ retired → b ∉ retired →
      SparseClusteringMatrix.JoinCluster m a b = some m1 → Reachable m1 (b :: retired)
  | reorder (m m1 : SparseClusteringMatrix) (retired : List ℕ) :
      Reachable m retired → SameUpToOrder m m1 → Reachable m1 retired

/-- The partition into the singleton groups `{0}, {1}, ..., {n - 1}`. -/
def trivialPartition (n : ℕ) : Partition :=
  { get_partition_vector := (List.range n).map (fun v => [v]) }

/-- No vertex is its own neighbor. -/
def Graph.NoSelfLoops (g : Graph) : Prop :=
  ∀ i < g.get_vertex_count, i ∉ g.GetNeighbors i

instance (g : Graph) : Decidable g.NoSelfLoops := by
  unfold Graph.NoSelfLoops; infer_instance

/-- A simple undirected graph: neighbor ids are vertex ids, adjacency is
symmetric, no neighbor list has a duplicate or the vertex itself, and the edge
count is half the sum of the neighbor-list lengths. -/
def Graph.Simple (g : Graph) : Prop :=
  g.NeighborsInRange ∧ g.Undirected ∧ g.NoDuplicates ∧ g.NoSelfLoops ∧
    g.degreeSum = 2 * g.get_edge_count

instance (g : Graph) : Decidable g.Simple := by
  unfold Graph.Simple; infer_instance

/-- The states reachable from the constructor from the graph `g` alone by
`JoinCluster` calls on distinct rows that no earlier call has retired, with the
list of the rows retired so far; the rows may be in any iteration order. -/
inductive ReachablePlain (g : Graph) : SparseClusteringMatrix → List ℕ → Prop
  | start (m : SparseClusteringMatrix) :
      SparseClusteringMatrix.init g = some m → ReachablePlain g m []
  | join (m : SparseClusteringMatrix) (retired : List ℕ) (a b : ℕ)
      (m1 : SparseClusteringMatrix) :
      ReachablePlain g m retired → a ≠ b → a < m.capacity → b < m.capacity →
      a ∉ retired → b ∉ retired →
      SparseClusteringMatrix.JoinCluster m a b = some m1 →
      ReachablePlain g m1 (b :: retired)
  | reorder (m m1 : SparseClusteringMatrix) (retired : List ℕ) :
      ReachablePlain g m retired → SameUpToOrder m m1 → ReachablePlain g m1 retired

/-- The number of columns of row `i` whose stored value is nonzero. -/
def nonzeroColumns (m : SparseClusteringMatrix) (i : ℕ) : ℕ :=
  ((m.rows_ i).entries.filter (fun e => decide (e.2 ≠ 0))).length

/-- The number of columns of row `i` other than `i` whose stored value is
nonzero. -/
def offDiagonalNonzeroColumns (m : SparseClusteringMatrix) (i : ℕ) : ℕ :=
  ((m.rows_ i).entries.filter (fun e => decide (e.1 ≠ i ∧ e.2 ≠ 0))).length

/-- In the rows that are not retired every stored value is non-negative and
every stored value off the diagonal is positive. -/
def AlivePositive (m : SparseClusteringMatrix) (retired : List ℕ) : Prop :=
  ∀ i < m.capacity, i ∉ retired → ∀ j v, m.cell i j = some v →
    0 ≤ v ∧ (j ≠ i → 0 < v)

/-! ## Example inputs -/

/-- The 4-vertex cycle 0-1-2-3-0. -/
def cycle4 : Graph :=
  { get_vertex_count := 4, get_edge_count := 4,
    GetNeighbors := fun i => [[1, 3], [0, 2], [1, 3], [2, 0]].getD i [],
    edgeless := fun h => absurd h (by decide) }

/-- The triangle on the vertices 0, 1, 2. -/
def triangle : Graph :=
  { get_vertex_count := 3, get_edge_count := 3,
    GetNeighbors := fun i => [[1, 2], [0, 2], [0, 1]].getD i [],
    edgeless := fun h => absurd h (by decide) }

/-- The path 0-1-2. -/
def path3 : Graph :=
  { get_vertex_count := 3, get_edge_count := 2,
    GetNeighbors := fun i => [[1], [0, 2], [1]].getD i [],
    edgeless := fun h => absurd h (by decide) }

/-- Three vertices and two edges: a loop at vertex 1 and the edge 1-2; vertex 0
is isolated. -/
def loopGraph : Graph :=
  { get_vertex_count := 3, get_edge_count := 2,
    GetNeighbors := fun i => [[], [1, 2], [1]].getD i [],
    edgeless := fun h => absurd h (by decide) }

/-- One vertex and no edge. -/
def singleVertex : Graph :=
  { get_vertex_count := 1, get_edge_count := 0,
    GetNeighbors := fun _ => [],
    edgeless := fun _ _ => rfl }

/-- The partition of the path into the groups 0,1 and 2. -/
def path3Partition : Partition := { get_partition_vector := [[0, 1], [2]] }

/-- A symmetric 3-row matrix in which row 0 has a self-entry: the rows that the
partition constructor builds for the path 0-1-2 with the groups 0,1 and 2. -/
def selfLoopMatrix : SparseClusteringMatrix :=
  { capacity := 3,
    rows_ := fun i =>
      if i = 0 then ⟨[(0, 1 / 2), (2, 1 / 4)], by decide⟩
      else if i = 2 then ⟨[(0, 1 / 4)], by decide⟩
      else t_row_value_map.empty,
    row_sums_ := fun i => if i = 0 then 3 / 4 else if i = 2 then 1 / 4 else 0,
    dimension_ := 2 }

/-- The matrix `selfLoopMatrix` with the entries of row 0 in the other order. -/
def selfLoopMatrixReordered : SparseClusteringMatrix :=
  { capacity := 3,
    rows_ := fun i =>
      if i = 0 then ⟨[(2, 1 / 4), (0, 1 / 2)], by decide⟩
      else if i = 2 then ⟨[(0, 1 / 4)], by decide⟩
      else t_row_value_map.empty,
    row_sums_ := fun i => if i = 0 then 3 / 4 else if i = 2 then 1 / 4 else 0,
    dimension_ := 2 }

/-! ## Lookup, sum and size of association lists -/

theorem lfind_lassign (l : List (t_id × t_value)) (c k : t_id) (x : t_value) :
    lfind (lassign l c x) k = if k = c then some x else lfind l k := by
  induction l with
  | nil =>
    by_cases h : c = k
    · simp [lassign, lfind, h]
    · have h2 : ¬ k = c := fun e => h e.symm
      simp [lassign, lfind, h, h2]
  | cons e r ih =>
    obtain ⟨k0, v⟩ := e
    by_cases h : k0 = c
    · subst h
      by_cases hk : k0 = k
      · simp [lassign, lfind, hk]
      · have h2 : ¬ k = k0 := fun e => hk e.symm
        simp [lassign, lfind, hk, h2]
    · by_cases hk : k0 = k
      · subst hk
        simp [lassign, lfind, h]
      · simp [lassign, lfind, h, hk, ih]

theorem lfind_eq_none_iff (l : List (t_id × t_value)) (c : t_id) :
    lfind l c = none ↔ c ∉ lkeys l := by
  induction l with
  | nil => simp [lfind, lkeys]
  | cons e r ih =>
    obtain ⟨k0, v⟩ := e
    by_cases h : k0 = c
    · simp [lfind, lkeys, h]
    · have h2 : ¬ c = k0 := fun e => h e.symm
      simp only [lkeys] at ih
      simp [lfind, lkeys, h, h2, ih]

theorem lfind_lerase {l : List (t_id × t_value)} (hl : (lkeys l).Nodup) (c k : t_id) :
    lfind (lerase l c) k = if k = c then none else lfind l k := by
  induction l with
  | nil => simp [lerase, lfind]
  | cons e r ih =>
    obtain ⟨k0, v⟩ := e
    have hr : (lkeys r).Nodup := by
      simp only [lkeys, List.map_cons, List.nodup_cons] at hl
      exact hl.2
    have hk0 : k0 ∉ lkeys r := by
      simp only [lkeys, List.map_cons, List.nodup_cons] at hl
      exact hl.1
    by_cases h : k0 = c
    · subst h
      by_cases hk : k = k0
      · subst hk
        simpa [lerase, lfind] using (lfind_eq_none_iff r k).2 hk0
      · have h2 : ¬ k0 = k := fun e => hk e.symm
        simp [lerase, lfind, hk, h2]
    · by_cases hk : k0 = k
      · subst hk
        simp [lerase, lfind, h]
      · simp [lerase, lfind, h, hk, ih hr]

theorem mem_iff_lfind {l : List (t_id × t_value)} (hl : (lkeys l).Nodup) (k : t_id)
    (v : t_value) : (k, v) ∈ l ↔ lfind l k = some v := by
  induction l with
  | nil => simp [lfind]
  | cons e r ih =>
    obtain ⟨k0, v0⟩ := e
    have hr : (lkeys r).Nodup := by
      simp only [lkeys, List.map_cons, List.nodup_cons] at hl
      exact hl.2
    have hk0 : k0 ∉ lkeys r := by
      simp only [lkeys, List.map_cons, List.nodup_cons] at hl
      exact hl.1
    by_cases h : k0 = k
    · subst h
      have hno : ∀ w, (k0, w) ∉ r := by
        intro w hw
        exact hk0 (List.mem_map_of_mem Prod.fst hw)
      simp only [List.mem_cons, Prod.mk.injEq, true_and, lfind, if_true, Option.some.injEq]
      constructor
      · rintro (h1 | h1)
        · exact h1.symm
        · exact absurd h1 (hno v)
      · intro h1
        exact Or.inl h1.symm
    · have h2 : ¬ k = k0 := fun e => h e.symm
      simp [lfind, h, h2, ih hr]

theorem lsum_lassign (l : List (t_id × t_value)) (c : t_id) (x : t_value) :
    lsum (lassign l c x) = lsum l - (lfind l c).getD 0 + x := by
  induction l with
  | nil => simp [lassign, lfind, lsum]
  | cons e r ih =>
    obtain ⟨k0, v⟩ := e
    by_cases h : k0 = c
    · simp [lassign, lfind, lsum, h]
      ring
    · simp only [lsum] at ih
      simp [lassign, lfind, lsum, h, ih]
      ring

theorem lsum_lerase (l : List (t_id × t_value)) (c : t_id) :
    lsum (lerase l c) = lsum l - (lfind l c).getD 0 := by
  induction l with
  | nil => simp [lerase, lfind, lsum]
  | cons e r ih =>
    obtain ⟨k0, v⟩ := e
    by_cases h : k0 = c
    · simp [lerase, lfind, lsum, h]
    · simp only [lsum] at ih
      simp [lerase, lfind, lsum, h, ih]
      ring

theorem length_lassign (l : List (t_id × t_value)) (c : t_id) (x : t_value) :
    (lassign l c x).length = if lfind l c = none then l.length + 1 else l.length := by
  induction l with
  | nil => simp [lassign, lfind]
  | cons e r ih =>
    obtain ⟨k0, v⟩ := e
    by_cases h : k0 = c
    · simp [lassign, lfind, h]
    · simp only [lassign, lfind, h, if_false, List.length_cons, ih]
      split <;> rfl

namespace t_row_value_map

@[simp] theorem find_empty (k : t_id) : empty.find k = none := rfl

@[simp] theorem entrySum_empty : empty.entrySum = 0 := by
  simp [empty, entrySum, lsum]

theorem find_assign (r : t_row_value_map) (c k : t_id) (x : t_value) :
    (r.assign c x).find k = if k = c then some x else r.find k :=
  lfind_lassign r.entries c k x

theorem find_erase (r : t_row_value_map) (c k : t_id) :
    (r.erase c).find k = if k = c then none else r.find k :=
  lfind_lerase r.nodup c k

theorem mem_entries_iff (r : t_row_value_map) (e : t_id × t_value) :
    e ∈ r.entries ↔ r.find e.1 = some e.2 := by
  obtain ⟨k, v⟩ := e
  exact mem_iff_lfind r.nodup k v

theorem mem_keys_iff (r : t_row_value_map) (c : t_id) :
    c ∈ r.keys ↔ ∃ v, r.find c = some v := by
  have h := lfind_eq_none_iff r.entries c
  unfold keys find
  constructor
  · intro hc
    cases hf : lfind r.entries c with
    | none => exact absurd hc (h.1 hf)
    | some v => exact ⟨v, rfl⟩
  · rintro ⟨v, hv⟩
    by_contra hc
    rw [h.2 hc] at hv
    cases hv

theorem entrySum_assign (r : t_row_value_map) (c : t_id) (x : t_value) :
    (r.assign c x).entrySum = r.entrySum - (r.find c).getD 0 + x :=
  lsum_lassign r.entries c x

theorem entrySum_erase (r : t_row_value_map) (c : t_id) :
    (r.erase c).entrySum = r.entrySum - (r.find c).getD 0 :=
  lsum_lerase r.entries c

theorem subscript_snd (r : t_row_value_map) (c : t_id) :
    (r.subscript c).2 = (r.find c).getD 0 := by
  unfold subscript
  cases h : r.find c <;> simp

theorem find_subscript (r : t_row_value_map) (c k : t_id) :
    (r.subscript c).1.find k = if k = c then some ((r.find c).getD 0) else r.find k := by
  unfold subscript
  cases h : r.find c with
  | none => simp [find_assign]
  | some v =>
    by_cases hk : k = c
    · simp [hk, h]
    · simp [hk]

theorem entrySum_subscript (r : t_row_value_map) (c : t_id) :
    (r.subscript c).1.entrySum = r.entrySum := by
  unfold subscript
  cases h : r.find c with
  | none => simp [entrySum_assign, h]
  | some v => simp

end t_row_value_map

namespace SparseClusteringMatrix

@[simp] theorem capacity_setCell (m : SparseClusteringMatrix) (r c : ℕ) (x : t_value) :
    (m.setCell r c x).capacity = m.capacity := rfl

@[simp] theorem capacity_eraseCell (m : SparseClusteringMatrix) (r c : ℕ) :
    (m.eraseCell r c).capacity = m.capacity := rfl

@[simp] theorem row_sums_setCell (m : SparseClusteringMatrix) (r c : ℕ) (x : t_value) :
    (m.setCell r c x).row_sums_ = m.row_sums_ := rfl

@[simp] theorem row_sums_eraseCell (m : SparseClusteringMatrix) (r c : ℕ) :
    (m.eraseCell r c).row_sums_ = m.row_sums_ := rfl

theorem cell_setCell (m : SparseClusteringMatrix) (r c : ℕ) (x : t_value) (i j : ℕ) :
    (m.setCell r c x).cell i j = if i = r ∧ j = c then some x else m.cell i j := by
  unfold setCell cell
  by_cases hi : i = r
  · subst hi
    simp [t_row_value_map.find_assign]
  · simp [hi, Function.update_noteq hi]

theorem cell_eraseCell (m : SparseClusteringMatrix) (r c : ℕ) (i j : ℕ) :
    (m.eraseCell r c).cell i j = if i = r ∧ j = c then none else m.cell i j := by
  unfold eraseCell cell
  by_cases hi : i = r
  · subst hi
    simp [t_row_value_map.find_erase]
  · simp [hi, Function.update_noteq hi]

/-! ## One iteration of the merge loop -/

theorem joinStep_new_value (r : t_row_value_map) (c : ℕ) (value : t_value) :
    (match r.find c with
      | some x => value + x
      | none => value) = value + (r.find c).getD 0 := by
  cases r.find c <;> simp

theorem joinStep_frame {a b : ℕ} {m m1 : SparseClusteringMatrix} {c : ℕ}
    (h : joinStep a b m c = some m1) :
    m1.capacity = m.capacity ∧ m1.row_sums_ = m.row_sums_ ∧ m1.dimension_ = m.dimension_ := by
  unfold joinStep at h
  split at h
  · cases h
  · simp only at h
    split at h
    · split at h
      · cases h
      · split at h
        · split at h
          · cases h
          · cases h
            exact ⟨rfl, rfl, rfl⟩
        · cases h
          exact ⟨rfl, rfl, rfl⟩
    · cases h

theorem joinStep_result {a b : ℕ} {m m1 : SparseClusteringMatrix} {c : ℕ} {v : t_value}
    (hv : m.cell b c = some v) (h : joinStep a b m c = some m1) :
    m1 = joinStepResult a b m c v := by
  have hv2 : (m.rows_ b).find c = some v := hv
  unfold joinStep at h
  simp only [hv2, joinStep_new_value] at h
  unfold joinStepResult
  simp only [cell]
  split at h
  · split at h
    · cases h
    · split at h
      · rename_i hcb
        split at h
        · cases h
        · cases h
          simp [hcb]
      · rename_i hcb
        cases h
        simp [hcb]
  · cases h

theorem joinStepResult_cell {a b : ℕ} (hab : a ≠ b) (m : SparseClusteringMatrix) (c : ℕ)
    (v : t_value) (i j : ℕ) :
    (joinStepResult a b m c v).cell i j =
      if i = c ∧ j = b ∧ c ≠ b then none
      else if (i = a ∧ j = c) ∨ (i = c ∧ j = a) then some (v + (m.cell a c).getD 0)
      else m.cell i j := by
  unfold joinStepResult
  by_cases hcb : c = b
  · subst hcb
    simp only [ne_eq, not_true, if_false, cell_setCell, and_false]
    by_cases h1 : i = c ∧ j = a <;> by_cases h2 : i = a ∧ j = c <;> simp [h1, h2]
  · simp only [ne_eq, hcb, not_false_eq_true, if_true, cell_eraseCell, cell_setCell, and_true]
    by_cases h0 : i = c ∧ j = b <;> by_cases h1 : i = c ∧ j = a <;>
      by_cases h2 : i = a ∧ j = c <;> simp [h0, h1, h2]

theorem joinStep_some {a b : ℕ} {m m1 : SparseClusteringMatrix} {c : ℕ}
    (h : joinStep a b m c = some m1) :
    ∃ v, m.cell b c = some v ∧ m1 = joinStepResult a b m c v := by
  cases hv : m.cell b c with
  | none =>
    have hv2 : (m.rows_ b).find c = none := hv
    simp [joinStep, hv2] at h
  | some v => exact ⟨v, rfl, joinStep_result hv h⟩

theorem joinStep_ready {a b : ℕ} (hab : a ≠ b) (m : SparseClusteringMatrix) (c : ℕ)
    (v : t_value) (hv : m.cell b c = some v) (hr : VisitReady a b m c) :
    joinStep a b m c = some (joinStepResult a b m c v) := by
  obtain ⟨_, hc, hcb, hins⟩ := hr
  have hv2 : (m.rows_ b).find c = some v := hv
  have hba : ¬ b = a := fun e => hab e.symm
  by_cases hcb2 : c = b
  · subst hcb2
    obtain ⟨u, hu⟩ := hins rfl
    have hz : ((m.setCell a c (v + (m.cell a c).getD 0)).rows_ c).find a = some u := by
      show (m.setCell a c (v + (m.cell a c).getD 0)).cell c a = some u
      have e1 : ¬ (c = a ∧ a = c) := fun h => hba h.1
      rw [cell_setCell, if_neg e1]
      exact hu
    simp only [cell] at hz
    simp [joinStep, joinStepResult, hv2, joinStep_new_value, hc, cell, hz]
  · obtain ⟨w, hw⟩ := hcb hcb2
    have hw2 : (((m.setCell a c (v + (m.cell a c).getD 0)).setCell c a
        (v + (m.cell a c).getD 0)).rows_ c).find b = some w := by
      show ((m.setCell a c (v + (m.cell a c).getD 0)).setCell c a
        (v + (m.cell a c).getD 0)).cell c b = some w
      have e1 : ¬ (c = c ∧ b = a) := fun h => hba h.2
      have e2 : ¬ (c = a ∧ b = c) := fun h => hcb2 h.2.symm
      rw [cell_setCell, cell_setCell, if_neg e1, if_neg e2]
      exact hw
    simp only [cell] at hw2
    simp [joinStep, joinStepResult, hv2, joinStep_new_value, hc, cell, hw2, hcb2]

theorem joinStep_eq {a b : ℕ} (hab : a ≠ b) (m : SparseClusteringMatrix) (c : ℕ) (v : t_value)
    (hv : m.cell b c = some v) (hr : VisitReady a b m c) :
    ∃ m1, joinStep a b m c = some m1 ∧ m1.capacity = m.capacity ∧
      m1.row_sums_ = m.row_sums_ ∧ m1.dimension_ = m.dimension_ ∧
      ∀ i j, m1.cell i j =
        if i = c ∧ j = b ∧ c ≠ b then none
        else if (i = a ∧ j = c) ∨ (i = c ∧ j = a) then some (v + (m.cell a c).getD 0)
        else m.cell i j := by
  have hs := joinStep_ready hab m c v hv hr
  obtain ⟨h1, h2, h3⟩ := joinStep_frame hs
  exact ⟨_, hs, h1, h2, h3, fun i j => joinStepResult_cell hab m c v i j⟩

/-- The visit of column `b` returns nothing when row `b` holds no entry for
`a`: the write `rows_[b][a]` would add a key to the row under traversal. -/
theorem joinStep_hazard {a b : ℕ} (hab : a ≠ b) (m : SparseClusteringMatrix)
    (hna : m.cell b a = none) : joinStep a b m b = none := by
  have hba : ¬ b = a := fun e => hab e.symm
  cases hv : (m.rows_ b).find b with
  | none => simp [joinStep, hv]
  | some v =>
    have hz : ((m.setCell a b (v + (m.cell a b).getD 0)).rows_ b).find a = none := by
      show (m.setCell a b (v + (m.cell a b).getD 0)).cell b a = none
      have e1 : ¬ (b = a ∧ a = b) := fun h => hba h.1
      rw [cell_setCell, if_neg e1]
      exact hna
    simp only [cell] at hz
    simp [joinStep, hv, joinStep_new_value, hz]

theorem joinLoop_frame {a b : ℕ} (cols : List ℕ) : ∀ {m m1 : SparseClusteringMatrix},
    joinLoop a b m cols = some m1 →
    m1.capacity = m.capacity ∧ m1.row_sums_ = m.row_sums_ ∧ m1.dimension_ = m.dimension_ := by
  induction cols with
  | nil =>
    intro m m1 h
    simp only [joinLoop, List.foldlM_nil] at h
    cases h
    exact ⟨rfl, rfl, rfl⟩
  | cons c rest ih =>
    intro m m1 h
    simp only [joinLoop, List.foldlM_cons] at h
    cases hs : joinStep a b m c with
    | none => rw [hs] at h; cases h
    | some m2 =>
      rw [hs] at h
      obtain ⟨h1, h2, h3⟩ := joinStep_frame hs
      obtain ⟨k1, k2, k3⟩ := ih h
      exact ⟨k1.trans h1, k2.trans h2, k3.trans h3⟩

/-! ## The merge loop -/

theorem joinStep_untouched {a b c i j : ℕ} {m m1 : SparseClusteringMatrix} {v : t_value}
    (hcell : ∀ i j, m1.cell i j =
        if i = c ∧ j = b ∧ c ≠ b then none
        else if (i = a ∧ j = c) ∨ (i = c ∧ j = a) then some (v + (m.cell a c).getD 0)
        else m.cell i j)
    (h : ¬ Touched a b c i j) : m1.cell i j = m.cell i j := by
  unfold Touched at h
  rw [hcell]
  have h1 : ¬ (i = c ∧ j = b ∧ c ≠ b) := fun e => h (Or.inr (Or.inr e))
  have h2 : ¬ ((i = a ∧ j = c) ∨ (i = c ∧ j = a)) := by
    rintro (e | e)
    · exact h (Or.inl e)
    · exact h (Or.inr (Or.inl e))
  rw [if_neg h1, if_neg h2]

theorem visitReady_step {a b c0 c : ℕ} (hab : a ≠ b) {m m2 : SparseClusteringMatrix}
    {v : t_value} (hcap : m2.capacity = m.capacity)
    (hcell : ∀ i j, m2.cell i j =
        if i = c0 ∧ j = b ∧ c0 ≠ b then none
        else if (i = a ∧ j = c0) ∨ (i = c0 ∧ j = a) then some (v + (m.cell a c0).getD 0)
        else m.cell i j)
    (hne : c ≠ c0) (h : VisitReady a b m c) : VisitReady a b m2 c := by
  obtain ⟨⟨v1, hv1⟩, hc1, hcb1, hins1⟩ := h
  refine ⟨?_, hcap ▸ hc1, ?_, ?_⟩
  · rw [hcell]
    split_ifs with h1 h2
    · exact absurd h1.1.symm h1.2.2
    · exact ⟨_, rfl⟩
    · exact ⟨v1, hv1⟩
  · intro hcne
    obtain ⟨w1, hw1⟩ := hcb1 hcne
    rw [hcell]
    split_ifs with h1 h2
    · exact absurd h1.1 hne
    · exact ⟨_, rfl⟩
    · exact ⟨w1, hw1⟩
  · intro hcb
    obtain ⟨u, hu⟩ := hins1 hcb
    rw [hcell]
    split_ifs with h1 h2
    · exact absurd h1.2.1 hab
    · exact ⟨_, rfl⟩
    · exact ⟨u, hu⟩

theorem visitReady_of_mirrored {a b : ℕ} {m : SparseClusteringMatrix}
    (hmir : RowMirrored m b) (hsafe : m.cell b b = none ∨ ∃ u, m.cell b a = some u) :
    ∀ c ∈ (m.rows_ b).keys, VisitReady a b m c := by
  intro c hc
  obtain ⟨v, hv⟩ := (t_row_value_map.mem_keys_iff (m.rows_ b) c).1 hc
  refine ⟨⟨v, hv⟩, (hmir c v hv).1, fun _ => (hmir c v hv).2, ?_⟩
  intro hcb
  subst hcb
  rcases hsafe with h | h
  · have hv2 : m.cell c c = some v := hv
    rw [h] at hv2
    cases hv2
  · exact h

/-- A loop that visits column `b` while row `b` holds no entry for `a` returns
nothing. -/
theorem joinLoop_hazard {a b : ℕ} (hab : a ≠ b) (cols : List ℕ) :
    ∀ m : SparseClusteringMatrix, b ∈ cols → m.cell b a = none →
      joinLoop a b m cols = none := by
  induction cols with
  | nil =>
    intro m hb _
    cases hb
  | cons c0 rest ih =>
    intro m hb hna
    simp only [joinLoop, List.foldlM_cons]
    cases hs : joinStep a b m c0 with
    | none => rfl
    | some m2 =>
      by_cases hcb : c0 = b
      · subst hcb
        rw [joinStep_hazard hab m hna] at hs
        cases hs
      · have hb2 : b ∈ rest := by
          rcases List.mem_cons.1 hb with e | e
          · exact absurd e.symm hcb
          · exact e
        obtain ⟨v, _, hres⟩ := joinStep_some hs
        have hna2 : m2.cell b a = none := by
          rw [hres, joinStepResult_cell hab]
          have n1 : ¬ (b = c0 ∧ a = b ∧ c0 ≠ b) := fun e => hab e.2.1
          have n2 : ¬ ((b = a ∧ a = c0) ∨ (b = c0 ∧ a = a)) := by
            rintro (e | e)
            · exact hab e.1.symm
            · exact hcb e.1.symm
          rw [if_neg n1, if_neg n2]
          exact hna
        exact ih m2 hb2 hna2

theorem joinLoop_spec {a b : ℕ} (hab : a ≠ b) (cols : List ℕ) :
    ∀ m : SparseClusteringMatrix, cols.Nodup →
    (∀ c ∈ cols, VisitReady a b m c) →
    ∃ m1, joinLoop a b m cols = some m1 ∧
      (∀ i j, (∀ c ∈ cols, ¬ Touched a b c i j) → m1.cell i j = m.cell i j) ∧
      (∀ c ∈ cols, c ≠ a → c ≠ b →
        m1.cell a c = some ((m.cell b c).getD 0 + (m.cell a c).getD 0) ∧
        m1.cell c a = some ((m.cell b c).getD 0 + (m.cell a c).getD 0) ∧
        m1.cell c b = none) := by
  induction cols with
  | nil =>
    intro m _ _
    refine ⟨m, rfl, fun _ _ _ => rfl, ?_⟩
    intro c hc
    cases hc
  | cons c0 rest ih =>
    intro m hnd hpre
    have hc0 : c0 ∉ rest := (List.nodup_cons.1 hnd).1
    have hrest : rest.Nodup := (List.nodup_cons.1 hnd).2
    obtain ⟨v, hv⟩ := (hpre c0 (List.mem_cons_self c0 rest)).1
    obtain ⟨m2, hs, hcap, _, _, hcell⟩ :=
      joinStep_eq hab m c0 v hv (hpre c0 (List.mem_cons_self c0 rest))
    have hpre2 : ∀ c ∈ rest, VisitReady a b m2 c := fun c hcr =>
      visitReady_step hab hcap hcell (fun e => hc0 (e ▸ hcr))
        (hpre c (List.mem_cons_of_mem c0 hcr))
    obtain ⟨m1, hloop, hframe, hgen⟩ := ih m2 hrest hpre2
    refine ⟨m1, ?_, ?_, ?_⟩
    · simp only [joinLoop, List.foldlM_cons, hs] at hloop ⊢
      exact hloop
    · intro i j hij
      rw [hframe i j (fun c hcr => hij c (List.mem_cons_of_mem c0 hcr))]
      exact joinStep_untouched hcell (hij c0 (List.mem_cons_self c0 rest))
    · intro c hcm hca hcbn
      rcases List.mem_cons.1 hcm with rfl | hcr
      · have hfr : ∀ i j, (i = a ∧ j = c) ∨ (i = c ∧ j = a) ∨ (i = c ∧ j = b) →
            ∀ c1 ∈ rest, ¬ Touched a b c1 i j := by
          intro i j hij c1 hc1 ht
          have hne : c1 ≠ c := fun e => hc0 (e ▸ hc1)
          unfold Touched at ht
          rcases hij with ⟨rfl, rfl⟩ | ⟨rfl, rfl⟩ | ⟨rfl, rfl⟩
          · rcases ht with ⟨_, e⟩ | ⟨e, e2⟩ | ⟨e, e2, _⟩
            · exact hne e.symm
            · exact hca e2
            · exact hcbn e2
          · rcases ht with ⟨e, _⟩ | ⟨e, _⟩ | ⟨e, _, _⟩
            · exact hca e
            · exact hne e.symm
            · exact hne e.symm
          · rcases ht with ⟨e, _⟩ | ⟨_, e⟩ | ⟨e, _, _⟩
            · exact hca e
            · exact hab e.symm
            · exact hne e.symm
        have hvv : (m.cell b c).getD 0 = v := by rw [hv]; rfl
        rw [hframe a c (hfr a c (Or.inl ⟨rfl, rfl⟩)),
          hframe c a (hfr c a (Or.inr (Or.inl ⟨rfl, rfl⟩))),
          hframe c b (hfr c b (Or.inr (Or.inr ⟨rfl, rfl⟩))), hcell, hcell, hcell, hvv]
        have n1 : ¬ (a = c ∧ c = b ∧ c ≠ b) := fun e => hcbn e.2.1
        have n2 : ¬ (c = c ∧ a = b ∧ c ≠ b) := fun e => hab e.2.1
        have y1 : (a = a ∧ c = c) ∨ (a = c ∧ c = a) := Or.inl ⟨rfl, rfl⟩
        have y2 : (c = a ∧ a = c) ∨ (c = c ∧ a = a) := Or.inr ⟨rfl, rfl⟩
        have y3 : c = c ∧ b = b ∧ c ≠ b := ⟨rfl, rfl, hcbn⟩
        rw [if_neg n1, if_pos y1, if_neg n2, if_pos y2, if_pos y3]
        exact ⟨rfl, rfl, rfl⟩
      · have hne : c ≠ c0 := fun e => hc0 (e ▸ hcr)
        obtain ⟨g1, g2, g3⟩ := hgen c hcr hca hcbn
        have u1 : m2.cell b c = m.cell b c := by
          apply joinStep_untouched hcell
          unfold Touched
          rintro (⟨e, _⟩ | ⟨_, e⟩ | ⟨_, e, _⟩)
          · exact hab e.symm
          · exact hca e
          · exact hcbn e
        have u2 : m2.cell a c = m.cell a c := by
          apply joinStep_untouched hcell
          unfold Touched
          rintro (⟨_, e⟩ | ⟨_, e⟩ | ⟨_, e, _⟩)
          · exact hne e
          · exact hca e
          · exact hcbn e
        rw [u1, u2] at g1 g2
        exact ⟨g1, g2, g3⟩

/-! ## The statements after the loop, and the whole merge -/

theorem joinFinish_cell {a b : ℕ} (hab : a ≠ b) (m : SparseClusteringMatrix) (i j : ℕ) :
    (joinFinish a b m).cell i j =
      if i = a then
        (if j = b then none
         else if j = a then some ((m.cell a a).getD 0 + (m.cell a b).getD 0)
         else m.cell a j)
      else m.cell i j := by
  have hba : ¬ b = a := fun e => hab e.symm
  unfold joinFinish cell
  by_cases hi : i = a
  · subst hi
    simp only [Function.update_same, if_true, t_row_value_map.find_erase,
      t_row_value_map.find_assign, t_row_value_map.subscript_snd,
      t_row_value_map.find_subscript, hba, if_false]
    by_cases hjb : j = b
    · simp [hjb]
    · by_cases hja : j = i
      · simp [hja, hab]
      · simp [hjb, hja]
  · simp [hi, Function.update_noteq hi]

theorem joinFinish_row_sums (a b : ℕ) (m : SparseClusteringMatrix) (i : ℕ) :
    (joinFinish a b m).row_sums_ i =
      if i = b then 0 else if i = a then m.row_sums_ a + m.row_sums_ b else m.row_sums_ i := by
  unfold joinFinish
  by_cases hb : i = b
  · subst hb
    simp
  · by_cases ha : i = a
    · subst ha
      simp [hb, Function.update_noteq hb]
    · simp [hb, ha, Function.update_noteq hb, Function.update_noteq ha]

theorem JoinCluster_frame {m m1 : SparseClusteringMatrix} {a b : ℕ}
    (h : JoinCluster m a b = some m1) :
    a < m.capacity ∧ b < m.capacity ∧ m1.capacity = m.capacity ∧
      m1.dimension_ = m.dimension_ ∧
      ∀ i, m1.row_sums_ i =
        if i = b then 0 else if i = a then m.row_sums_ a + m.row_sums_ b
        else m.row_sums_ i := by
  unfold JoinCluster at h
  split at h
  · rename_i hlt
    cases hl : joinLoop a b m (m.rows_ b).keys with
    | none => rw [hl] at h; cases h
    | some m2 =>
      rw [hl] at h
      cases h
      obtain ⟨h1, h2, h3⟩ := joinLoop_frame _ hl
      refine ⟨hlt.1, hlt.2, h1, h3, ?_⟩
      intro i
      rw [joinFinish_row_sums, h2]
  · cases h

theorem JoinCluster_loop {m m1 : SparseClusteringMatrix} {a b : ℕ}
    (h : JoinCluster m a b = some m1) :
    ∃ m2, joinLoop a b m (m.rows_ b).keys = some m2 ∧ m1 = joinFinish a b m2 := by
  unfold JoinCluster at h
  split at h
  · cases hl : joinLoop a b m (m.rows_ b).keys with
    | none => rw [hl] at h; cases h
    | some m2 =>
      rw [hl] at h
      cases h
      exact ⟨m2, rfl, rfl⟩
  · cases h

/-- A merge that returns did not add a key to the row under traversal: row `b`
had no self-entry, or it had an entry for `a`. -/
theorem JoinCluster_safe {m m1 : SparseClusteringMatrix} {a b : ℕ} (hab : a ≠ b)
    (h : JoinCluster m a b = some m1) :
    m.cell b b = none ∨ ∃ u, m.cell b a = some u := by
  obtain ⟨m2, hl, _⟩ := JoinCluster_loop h
  cases hbb : m.cell b b with
  | none => exact Or.inl rfl
  | some vb =>
    cases hba : m.cell b a with
    | some u => exact Or.inr ⟨u, rfl⟩
    | none =>
      have hmem : b ∈ (m.rows_ b).keys :=
        (t_row_value_map.mem_keys_iff (m.rows_ b) b).2 ⟨vb, hbb⟩
      rw [joinLoop_hazard hab _ m hmem hba] at hl
      cases hl

theorem JoinCluster_spec {a b : ℕ} (hab : a ≠ b) (m : SparseClusteringMatrix)
    (ha : a < m.capacity) (hb : b < m.capacity) (hmir : RowMirrored m b)
    (hsafe : m.cell b b = none ∨ ∃ u, m.cell b a = some u) :
    ∃ m1, JoinCluster m a b = some m1 ∧
      m1.cell a b = none ∧
      (∀ c v, c ≠ a → c ≠ b → m.cell b c = some v →
        m1.cell a c = some (v + (m.cell a c).getD 0) ∧
        m1.cell c a = some (v + (m.cell a c).getD 0) ∧ m1.cell c b = none) ∧
      (∀ c, c ≠ a → c ≠ b → m.cell b c = none →
        m1.cell a c = m.cell a c ∧ m1.cell c a = m.cell c a ∧ m1.cell c b = m.cell c b) ∧
      (∀ i j, i ≠ a → i ≠ b → j ≠ a → j ≠ b → m1.cell i j = m.cell i j) ∧
      (∀ j, j ≠ a → m1.cell b j = m.cell b j) := by
  have hba : b ≠ a := fun e => hab e.symm
  have hnd : (m.rows_ b).keys.Nodup := (m.rows_ b).nodup
  have hmem : ∀ c, c ∈ (m.rows_ b).keys ↔ ∃ v, m.cell b c = some v :=
    fun c => t_row_value_map.mem_keys_iff (m.rows_ b) c
  have hpre : ∀ c ∈ (m.rows_ b).keys, VisitReady a b m c :=
    visitReady_of_mirrored hmir hsafe
  obtain ⟨m2, hloop, hframe, hgen⟩ := joinLoop_spec hab (m.rows_ b).keys m hnd hpre
  refine ⟨joinFinish a b m2, ?_, ?_, ?_, ?_, ?_, ?_⟩
  · simp only [JoinCluster, ha, hb, and_self, if_true, hloop]
  · rw [joinFinish_cell hab]
    simp
  · intro c v hca hcb hv
    obtain ⟨g1, g2, g3⟩ := hgen c ((hmem c).2 ⟨v, hv⟩) hca hcb
    have hvv : (m.cell b c).getD 0 = v := by rw [hv]; rfl
    rw [hvv] at g1 g2
    rw [joinFinish_cell hab, joinFinish_cell hab, joinFinish_cell hab]
    simp only [if_true, hcb, hca, if_false]
    exact ⟨g1, g2, g3⟩
  · intro c hca hcb hnone
    have hnot : c ∉ (m.rows_ b).keys := by
      intro hc
      obtain ⟨v, hv⟩ := (hmem c).1 hc
      rw [hnone] at hv
      cases hv
    have f1 : ∀ c1 ∈ (m.rows_ b).keys, ¬ Touched a b c1 a c := by
      intro c1 hc1
      unfold Touched
      rintro (⟨_, e⟩ | ⟨_, e⟩ | ⟨_, e, _⟩)
      · exact hnot (e ▸ hc1)
      · exact hca e
      · exact hcb e
    have f2 : ∀ c1 ∈ (m.rows_ b).keys, ¬ Touched a b c1 c a := by
      intro c1 hc1
      unfold Touched
      rintro (⟨e, _⟩ | ⟨e, _⟩ | ⟨e, _, _⟩)
      · exact hca e
      · exact hnot (e ▸ hc1)
      · exact hnot (e ▸ hc1)
    have f3 : ∀ c1 ∈ (m.rows_ b).keys, ¬ Touched a b c1 c b := by
      intro c1 hc1
      unfold Touched
      rintro (⟨e, _⟩ | ⟨e, _⟩ | ⟨e, _, _⟩)
      · exact hca e
      · exact hnot (e ▸ hc1)
      · exact hnot (e ▸ hc1)
    rw [joinFinish_cell hab, joinFinish_cell hab, joinFinish_cell hab]
    simp only [if_true, hcb, hca, if_false]
    exact ⟨hframe a c f1, hframe c a f2, hframe c b f3⟩
  · intro i j hia hib hja hjb
    rw [joinFinish_cell hab]
    simp only [hia, if_false]
    apply hframe
    intro c1 _
    unfold Touched
    rintro (⟨e, _⟩ | ⟨_, e⟩ | ⟨_, e, _⟩)
    · exact hia e
    · exact hja e
    · exact hjb e
  · intro j hja
    rw [joinFinish_cell hab]
    simp only [hba, if_false]
    apply hframe
    intro c1 _
    unfold Touched
    rintro (⟨e, _⟩ | ⟨_, e⟩ | ⟨e, _, e2⟩)
    · exact hba e
    · exact hja e
    · exact e2 e.symm

/-! ## Loops over an index range -/

theorem foldl_range_update {α : Type} (F : ℕ → α → α) (f0 : ℕ → α) (n : ℕ) (i : ℕ) :
    ((List.range n).foldl (fun f k => Function.update f k (F k (f k))) f0) i =
      if i < n then F i (f0 i) else f0 i := by
  induction n with
  | zero => simp
  | succ n ih =>
    rw [List.range_succ, List.foldl_append]
    simp only [List.foldl_cons, List.foldl_nil]
    by_cases hi : i = n
    · subst hi
      have h := ih
      simp only [lt_irrefl, if_false] at h
      simp [Function.update_same, h]
    · rw [Function.update_noteq hi, ih]
      by_cases h1 : i < n
      · have h2 : i < n + 1 := Nat.lt_succ_of_lt h1
        simp [h1, h2]
      · have h2 : ¬ i < n + 1 := by omega
        simp [h1, h2]

theorem foldl_range_const_update {α : Type} (F : ℕ → α) (f0 : ℕ → α) (n : ℕ) (i : ℕ) :
    ((List.range n).foldl (fun f k => Function.update f k (F k)) f0) i =
      if i < n then F i else f0 i :=
  foldl_range_update (fun k _ => F k) f0 n i

theorem sum_range_update (f : ℕ → t_value) (n k : ℕ) (hk : k < n) (x : t_value) :
    ((List.range n).map (Function.update f k x)).sum =
      ((List.range n).map f).sum - f k + x := by
  induction n with
  | zero => omega
  | succ n ih =>
    rw [List.range_succ, List.map_append, List.map_append, List.sum_append, List.sum_append]
    by_cases hkn : k = n
    · subst hkn
      have hsame : (List.range k).map (Function.update f k x) = (List.range k).map f := by
        apply List.map_congr_left
        intro i hi
        have : i ≠ k := by
          have := List.mem_range.1 hi
          omega
        exact Function.update_noteq this x f
      rw [hsame]
      simp
    · have hlt : k < n := by omega
      have hnk : n ≠ k := fun e => hkn e.symm
      rw [ih hlt]
      simp [Function.update_noteq hnk]
      ring

theorem sum_range_congr (f g : ℕ → t_value) (n : ℕ) (h : ∀ i < n, f i = g i) :
    ((List.range n).map f).sum = ((List.range n).map g).sum := by
  have : (List.range n).map f = (List.range n).map g := by
    apply List.map_congr_left
    intro i hi
    exact h i (List.mem_range.1 hi)
  rw [this]

theorem sum_map_mul_cast (l : List ℕ) (f : ℕ → ℕ) (c : t_value) :
    (l.map (fun i => c * (f i : t_value))).sum = c * (((l.map f).sum : ℕ) : t_value) := by
  induction l with
  | nil => simp
  | cons x r ih =>
    simp only [List.map_cons, List.sum_cons, ih, Nat.cast_add]
    ring

/-! ## The constructor from a graph alone -/

theorem foldlM_some_eq_foldl {α β : Type} (f : α → β → Option α) (g : α → β → α)
    (l : List β) : (∀ s, ∀ x ∈ l, f s x = some (g s x)) →
    ∀ s, l.foldlM f s = some (l.foldl g s) := by
  induction l with
  | nil => intro _ s; rfl
  | cons x rest ih =>
    intro h s
    rw [List.foldlM_cons, h s x (List.mem_cons_self x rest), List.foldl_cons]
    exact ih (fun s1 y hy => h s1 y (List.mem_cons_of_mem x hy)) (g s x)

theorem foldlM_none_of_ne_nil {α β : Type} (f : α → β → Option α) (l : List β)
    (hl : l ≠ []) (hf : ∀ s x, f s x = none) (s : α) : l.foldlM f s = none := by
  cases l with
  | nil => exact absurd rfl hl
  | cons x rest =>
    rw [List.foldlM_cons, hf s x]
    rfl

theorem find_foldl_assign (iv : t_value) (l : List t_id) :
    ∀ (r : t_row_value_map) (k : t_id),
      (l.foldl (fun row nb => row.assign nb iv) r).find k =
        if k ∈ l then some iv else r.find k := by
  induction l with
  | nil => intro r k; simp
  | cons nb rest ih =>
    intro r k
    rw [List.foldl_cons, ih, t_row_value_map.find_assign]
    by_cases h1 : k ∈ rest
    · simp [h1]
    · by_cases h2 : k = nb
      · simp [h2]
      · simp [h1, h2]

theorem size_foldl_assign (iv : t_value) (l : List t_id) :
    ∀ (r : t_row_value_map), l.Nodup → (∀ k ∈ l, r.find k = none) →
      (l.foldl (fun row nb => row.assign nb iv) r).size = r.size + l.length := by
  induction l with
  | nil => intro r _ _; simp
  | cons nb rest ih =>
    intro r hnd hnone
    have hnb : nb ∉ rest := (List.nodup_cons.1 hnd).1
    rw [List.foldl_cons, ih (r.assign nb iv) (List.nodup_cons.1 hnd).2]
    · have h0 : lfind r.entries nb = none := hnone nb (List.mem_cons_self nb rest)
      simp only [t_row_value_map.size, t_row_value_map.assign, length_lassign, h0, if_true,
        List.length_cons]
      omega
    · intro k hk
      have hne : k ≠ nb := fun e => hnb (e ▸ hk)
      rw [t_row_value_map.find_assign, if_neg hne]
      exact hnone k (List.mem_cons_of_mem nb hk)

theorem entrySum_of_const (r : t_row_value_map) (iv : t_value)
    (h : ∀ k v, r.find k = some v → v = iv) : r.entrySum = iv * (r.size : t_value) := by
  have h2 : ∀ e ∈ r.entries, e.2 = iv := by
    intro e he
    exact h e.1 e.2 ((t_row_value_map.mem_entries_iff r e).1 he)
  unfold t_row_value_map.entrySum t_row_value_map.size lsum
  generalize r.entries = l at h2
  induction l with
  | nil => simp
  | cons e rest ih =>
    have he : e.2 = iv := h2 e (List.mem_cons_self e rest)
    have hr := ih (fun e1 h1 => h2 e1 (List.mem_cons_of_mem e h1))
    simp only [List.map_cons, List.sum_cons, List.length_cons, hr, he, Nat.cast_add,
      Nat.cast_one]
    ring

theorem initvalue_eq (g : Graph) (hE : 1 ≤ g.get_edge_count) :
    initvalue g = some (1 / (2 * (g.get_edge_count : t_value))) := by
  unfold initvalue
  rw [if_neg (by omega)]

theorem initvalue_some (g : Graph) (iv : t_value) (h : initvalue g = some iv) :
    1 ≤ g.get_edge_count ∧ iv = 1 / (2 * (g.get_edge_count : t_value)) := by
  unfold initvalue at h
  split at h
  · cases h
  · rename_i hne
    cases h
    exact ⟨Nat.pos_of_ne_zero hne, rfl⟩

theorem init_eq (g : Graph) (iv : t_value) (h : initvalue g = some iv) :
    init g = some (initWith g iv) := by
  unfold init
  simp only [h]
  rw [foldlM_some_eq_foldl _
    (fun rows i => Function.update rows i
      ((g.GetNeighbors i).foldl (fun row nb => row.assign nb iv) (rows i)))]
  · simp only []
    rw [foldlM_some_eq_foldl _
      (fun sums i => Function.update sums i
        (iv * ((((List.range g.get_vertex_count).foldl
          (fun rows i => Function.update rows i
            ((g.GetNeighbors i).foldl (fun row nb => row.assign nb iv) (rows i)))
          (fun _ => t_row_value_map.empty)) i).size : t_value)))]
    · rfl
    · intro sums i _
      rfl
  · intro rows i _
    rw [foldlM_some_eq_foldl _ (fun row nb => row.assign nb iv)]
    intro row nb _
    rfl

theorem init_of_edges (g : Graph) (hE : 1 ≤ g.get_edge_count) :
    init g = some (initWith g (1 / (2 * (g.get_edge_count : t_value)))) :=
  init_eq g _ (initvalue_eq g hE)

theorem init_none (g : Graph) (hE : g.get_edge_count = 0) (hn : 0 < g.get_vertex_count) :
    init g = none := by
  have hiv : initvalue g = none := by
    unfold initvalue
    rw [if_pos hE]
  unfold init
  simp only [hiv]
  cases (List.range g.get_vertex_count).foldlM
      (fun rows i =>
        match (g.GetNeighbors i).foldlM (fun (row : t_row_value_map) (nb : t_id) =>
            (none : Option t_row_value_map)) (rows i) with
        | none => none
        | some row => some (Function.update rows i row))
      (fun _ => t_row_value_map.empty) with
  | none => rfl
  | some rows =>
    simp only []
    rw [foldlM_none_of_ne_nil]
    · intro hnil
      have := congrArg List.length hnil
      simp only [List.length_range, List.length_nil] at this
      omega
    · intro _ _
      rfl

theorem init_some (g : Graph) (m : SparseClusteringMatrix) (h : init g = some m) :
    ∃ iv, m = initWith g iv ∧
      (0 < g.get_vertex_count →
        1 ≤ g.get_edge_count ∧ iv = 1 / (2 * (g.get_edge_count : t_value))) := by
  cases hiv : initvalue g with
  | some iv =>
    rw [init_eq g iv hiv] at h
    cases h
    exact ⟨iv, rfl, fun _ => initvalue_some g iv hiv⟩
  | none =>
    have hE : g.get_edge_count = 0 := by
      unfold initvalue at hiv
      split at hiv
      · assumption
      · cases hiv
    by_cases hn : 0 < g.get_vertex_count
    · rw [init_none g hE hn] at h
      cases h
    · have hn0 : g.get_vertex_count = 0 := by omega
      refine ⟨0, ?_, fun h0 => absurd h0 hn⟩
      unfold init at h
      simp only [hn0, List.range_zero] at h
      cases h
      unfold initWith
      simp only [hn0, List.range_zero]
      rfl

theorem initWith_capacity (g : Graph) (iv : t_value) :
    (initWith g iv).capacity = g.get_vertex_count := rfl

theorem initWith_rows (g : Graph) (iv : t_value) (i : ℕ) :
    (initWith g iv).rows_ i =
      if i < g.get_vertex_count then
        (g.GetNeighbors i).foldl (fun row nb => row.assign nb iv)
          t_row_value_map.empty
      else t_row_value_map.empty := by
  unfold initWith
  exact foldl_range_update
    (fun i r => (g.GetNeighbors i).foldl (fun row nb => row.assign nb iv) r)
    (fun _ => t_row_value_map.empty) g.get_vertex_count i

theorem initWith_row_sums (g : Graph) (iv : t_value) (i : ℕ) :
    (initWith g iv).row_sums_ i =
      if i < g.get_vertex_count then iv * (((initWith g iv).rows_ i).size : t_value)
      else 0 := by
  have h := foldl_range_const_update
    (fun i => iv * (((initWith g iv).rows_ i).size : t_value)) (fun _ => 0)
    g.get_vertex_count i
  exact h

theorem initWith_cell (g : Graph) (iv : t_value) (i j : ℕ) :
    (initWith g iv).cell i j =
      if i < g.get_vertex_count ∧ j ∈ g.GetNeighbors i then some iv else none := by
  unfold cell
  rw [initWith_rows]
  by_cases hi : i < g.get_vertex_count
  · simp only [hi, if_true, true_and, find_foldl_assign, t_row_value_map.find_empty]
  · simp [hi]

/-! ## The cluster map of the partition constructor -/

theorem repOf_cons_mem (c : List t_id) (cs : List (List t_id)) (v : t_id) (h : v ∈ c) :
    repOf (c :: cs) v = c.headD 0 := by
  simp [repOf, List.find?_cons, h]

theorem repOf_cons_not_mem (c : List t_id) (cs : List (List t_id)) (v : t_id) (h : v ∉ c) :
    repOf (c :: cs) v = repOf cs v := by
  simp [repOf, List.find?_cons, h]

theorem repOf_of_mem (groups : List (List t_id))
    (hdis : groups.Pairwise (fun c d => ∀ v ∈ c, v ∉ d)) (c : List t_id) (hc : c ∈ groups)
    (v : t_id) (hv : v ∈ c) : repOf groups v = c.headD 0 := by
  induction groups with
  | nil => cases hc
  | cons c0 cs ih =>
    rcases List.mem_cons.1 hc with rfl | hcs
    · exact repOf_cons_mem c cs v hv
    · have hp := List.pairwise_cons.1 hdis
      have hv0 : v ∉ c0 := fun h0 => hp.1 c hcs v h0 hv
      rw [repOf_cons_not_mem c0 cs v hv0]
      exact ih hp.2 hcs

theorem clustermap_inner (n : ℕ) (r : t_id) (c : List t_id) :
    ∀ cm0 : ℕ → Option t_id, (∀ v ∈ c, v < n) →
      ∃ cm, c.foldlM (fun cm vertexid =>
          if vertexid < n then some (Function.update cm vertexid (some r)) else none) cm0
          = some cm ∧
        ∀ v, cm v = if v ∈ c then some r else cm0 v := by
  induction c with
  | nil =>
    intro cm0 _
    exact ⟨cm0, rfl, fun v => by simp⟩
  | cons v0 rest ih =>
    intro cm0 hlt
    have h0 : v0 < n := hlt v0 (List.mem_cons_self v0 rest)
    obtain ⟨cm, hcm, hval⟩ := ih (Function.update cm0 v0 (some r))
      (fun v hv => hlt v (List.mem_cons_of_mem v0 hv))
    refine ⟨cm, ?_, ?_⟩
    · simp only [List.foldlM_cons, h0, if_true]
      exact hcm
    · intro v
      rw [hval]
      by_cases h1 : v ∈ rest
      · simp [h1]
      · by_cases h2 : v = v0
        · subst h2
          simp
        · simp [h1, h2, Function.update_noteq h2]

theorem clustermap_outer (n : ℕ) (groups : List (List t_id)) :
    ∀ cm0 : ℕ → Option t_id, (∀ c ∈ groups, c ≠ []) → (∀ c ∈ groups, ∀ v ∈ c, v < n) →
      groups.Pairwise (fun c d => ∀ v ∈ c, v ∉ d) →
      ∃ cm, groups.foldlM (fun clustermap cluster =>
          match cluster with
          | [] => none
          | cluster_row :: _ =>
            cluster.foldlM (fun cm vertexid =>
              if vertexid < n then some (Function.update cm vertexid (some cluster_row))
              else none) clustermap) cm0 = some cm ∧
        ∀ v, cm v = if ∃ c ∈ groups, v ∈ c then some (repOf groups v) else cm0 v := by
  induction groups with
  | nil =>
    intro cm0 _ _ _
    exact ⟨cm0, rfl, fun v => by simp⟩
  | cons c cs ih =>
    intro cm0 hne hlt hdis
    have hp := List.pairwise_cons.1 hdis
    have hc : c ≠ [] := hne c (List.mem_cons_self c cs)
    obtain ⟨r, t, rfl⟩ : ∃ r t, c = r :: t := by
      cases c with
      | nil => exact absurd rfl hc
      | cons r t => exact ⟨r, t, rfl⟩
    obtain ⟨cm1, hcm1, hval1⟩ := clustermap_inner n r (r :: t) cm0
      (hlt (r :: t) (List.mem_cons_self _ cs))
    obtain ⟨cm, hcm, hval⟩ := ih cm1 (fun c hc => hne c (List.mem_cons_of_mem _ hc))
      (fun c hc => hlt c (List.mem_cons_of_mem _ hc)) hp.2
    refine ⟨cm, ?_, ?_⟩
    · rw [List.foldlM_cons]
      simp only [hcm1]
      exact hcm
    · intro v
      rw [hval]
      by_cases hv : v ∈ r :: t
      · have hnot : ¬ ∃ c ∈ cs, v ∈ c := by
          rintro ⟨c1, hc1, hvc1⟩
          exact hp.1 c1 hc1 v hv hvc1
        have hyes : ∃ c ∈ (r :: t) :: cs, v ∈ c := ⟨r :: t, List.mem_cons_self _ cs, hv⟩
        rw [if_neg hnot, if_pos hyes, hval1, if_pos hv, repOf_cons_mem _ _ _ hv]
        rfl
      · rw [repOf_cons_not_mem _ _ _ hv, hval1, if_neg hv]
        by_cases hex : ∃ c ∈ cs, v ∈ c
        · have hyes : ∃ c ∈ (r :: t) :: cs, v ∈ c := by
            obtain ⟨c1, hc1, hvc1⟩ := hex
            exact ⟨c1, List.mem_cons_of_mem _ hc1, hvc1⟩
          rw [if_pos hex, if_pos hyes]
        · have hno : ¬ ∃ c ∈ (r :: t) :: cs, v ∈ c := by
            rintro ⟨c1, hc1, hvc1⟩
            rcases List.mem_cons.1 hc1 with rfl | h2
            · exact hv hvc1
            · exact hex ⟨c1, h2, hvc1⟩
          rw [if_neg hex, if_neg hno]

theorem buildClustermap_valid (g : Graph) (p : Partition) (hp : p.Valid g) :
    ∃ cm, buildClustermap g.get_vertex_count p.get_partition_vector = some cm ∧
      ∀ v < g.get_vertex_count, cm v = some (p.rep v) := by
  obtain ⟨h1, h2, h3, h4⟩ := hp
  obtain ⟨cm, hcm, hval⟩ := clustermap_outer g.get_vertex_count p.get_partition_vector
    (fun _ => none) h1 h2 h3
  refine ⟨cm, hcm, ?_⟩
  intro v hv
  rw [hval, if_pos (h4 v hv)]
  rfl

theorem rep_lt (g : Graph) (p : Partition) (hp : p.Valid g) (v : t_id)
    (hv : v < g.get_vertex_count) : p.rep v < g.get_vertex_count := by
  obtain ⟨h1, h2, h3, h4⟩ := hp
  obtain ⟨c, hc, hvc⟩ := h4 v hv
  have hrep : p.rep v = c.headD 0 := repOf_of_mem _ h3 c hc v hvc
  rw [hrep]
  cases c with
  | nil => exact absurd rfl (h1 [] hc)
  | cons r t => exact h2 (r :: t) hc r (List.mem_cons_self r t)

/-! ## The population loop of the partition constructor -/

theorem foldl_flatMap_eq {α β ι : Type} (h : ι → List β) (f : α → β → α) (l : List ι) :
    ∀ s, (l.flatMap h).foldl f s = l.foldl (fun s i => (h i).foldl f s) s := by
  induction l with
  | nil => intro s; rfl
  | cons x rest ih =>
    intro s
    rw [List.flatMap_cons, List.foldl_append, List.foldl_cons, ih]

theorem initvalue_getD (g : Graph) (hE : 1 ≤ g.get_edge_count) :
    (initvalue g).getD 0 = 1 / (2 * (g.get_edge_count : t_value)) := by
  rw [initvalue_eq g hE]
  rfl

theorem initvalue_of_neighbor (g : Graph) (i nb : ℕ) (h : nb ∈ g.GetNeighbors i) :
    initvalue g = some ((initvalue g).getD 0) := by
  have hE : 1 ≤ g.get_edge_count := by
    by_contra hne
    have h0 : g.get_edge_count = 0 := by omega
    rw [g.edgeless h0 i] at h
    cases h
  rw [initvalue_eq g hE]
  rfl

theorem populate_valid (g : Graph) (p : Partition) (cm : ℕ → Option t_id)
    (hcm : ∀ v < g.get_vertex_count, cm v = some (p.rep v))
    (hrep : ∀ v < g.get_vertex_count, p.rep v < g.get_vertex_count)
    (hg : g.NeighborsInRange) :
    populate g cm (initvalue g) =
      some (accumulateAll ((initvalue g).getD 0) (repPairs g p)) := by
  unfold populate accumulateAll repPairs
  rw [foldl_flatMap_eq]
  apply foldlM_some_eq_foldl
  intro rows i hi
  have hi2 : i < g.get_vertex_count := List.mem_range.1 hi
  simp only [hcm i hi2, hrep i hi2, if_true]
  rw [List.foldl_map]
  apply foldlM_some_eq_foldl
  intro rows2 nb hnb
  have hnb2 : nb < g.get_vertex_count := hg i hi2 nb hnb
  simp only [hnb2, if_true, hcm nb hnb2]
  rw [initvalue_of_neighbor g i nb hnb]
  rfl

theorem accumulate_find (rows : ℕ → t_row_value_map) (r0 s0 : t_id) (iv : t_value)
    (r s : ℕ) :
    (accumulate rows r0 s0 iv r).find s =
      if r = r0 ∧ s = s0 then some (((rows r0).find s0).getD 0 + iv) else (rows r).find s := by
  unfold accumulate
  by_cases hr : r = r0
  · subst hr
    cases h : (rows r).find s0 with
    | none =>
      simp only [Function.update_same, t_row_value_map.find_assign, true_and]
      by_cases hs : s = s0 <;> simp [hs]
    | some x =>
      simp only [Function.update_same, t_row_value_map.find_assign, true_and]
      by_cases hs : s = s0 <;> simp [hs]
  · cases h : (rows r0).find s0 <;> simp [hr, Function.update_noteq hr]

theorem accumulate_entrySum (rows : ℕ → t_row_value_map) (r0 s0 : t_id) (iv : t_value) :
    (fun r => (accumulate rows r0 s0 iv r).entrySum) =
      Function.update (fun r => (rows r).entrySum) r0 ((rows r0).entrySum + iv) := by
  funext r
  unfold accumulate
  by_cases hr : r = r0
  · subst hr
    cases h : (rows r).find s0 with
    | none => simp [t_row_value_map.entrySum_assign, h]
    | some x =>
      simp only [Function.update_same, t_row_value_map.entrySum_assign, h, Option.getD_some]
      ring
  · cases h : (rows r0).find s0 <;> simp [hr, Function.update_noteq hr]

theorem accumulateAll_append (iv : t_value) (l : List (t_id × t_id)) (q : t_id × t_id) :
    accumulateAll iv (l ++ [q]) = accumulate (accumulateAll iv l) q.1 q.2 iv := by
  unfold accumulateAll
  rw [List.foldl_append]
  rfl

theorem accumulateAll_find (iv : t_value) (pairs : List (t_id × t_id)) (r s : ℕ) :
    (accumulateAll iv pairs r).find s =
      if pairs.count (r, s) = 0 then none
      else some ((pairs.count (r, s) : t_value) * iv) := by
  induction pairs using List.reverseRecOn with
  | nil => simp [accumulateAll]
  | append_singleton l q ih =>
    obtain ⟨r0, s0⟩ := q
    rw [accumulateAll_append, accumulate_find, List.count_append, List.count_singleton]
    by_cases hq : r = r0 ∧ s = s0
    · obtain ⟨rfl, rfl⟩ := hq
      simp only [and_self, if_true, beq_self_eq_true, ih]
      by_cases h0 : List.count (r, s) l = 0
      · simp [h0]
      · simp only [h0, if_false, Option.getD_some, Nat.add_eq_zero, one_ne_zero, and_false,
          Nat.cast_add, Nat.cast_one]
        congr 1
        ring
    · have hne : ((r0, s0) == (r, s)) = false := by
        rw [beq_eq_false_iff_ne]
        intro e
        cases e
        exact hq ⟨rfl, rfl⟩
      simp only [hq, if_false, hne, ih, Nat.add_zero]
      rfl

theorem accumulateAll_total (iv : t_value) (n : ℕ) (pairs : List (t_id × t_id))
    (h : ∀ q ∈ pairs, q.1 < n) :
    ((List.range n).map (fun r => (accumulateAll iv pairs r).entrySum)).sum =
      (pairs.length : t_value) * iv := by
  induction pairs using List.reverseRecOn with
  | nil => simp [accumulateAll]
  | append_singleton l q ih =>
    have hq : q.1 < n := h q (by simp)
    have hl := ih (fun q1 h1 => h q1 (by simp [h1]))
    rw [accumulateAll_append, accumulate_entrySum, sum_range_update _ _ _ hq, hl]
    simp only [List.length_append, List.length_singleton, Nat.cast_add, Nat.cast_one]
    ring

/-! ## The partition constructor as a whole -/

theorem recomputeSum_foldl (row : t_row_value_map) (l : List (t_id × t_value)) :
    (∀ e ∈ l, e ∈ row.entries) → ∀ s : t_value,
      l.foldl (fun sum j => sum + (row.subscript j.1).2) s = s + lsum l := by
  induction l with
  | nil => intro _ s; simp [lsum]
  | cons e rest ih =>
    intro h s
    have he : row.find e.1 = some e.2 :=
      (t_row_value_map.mem_entries_iff row e).1 (h e (List.mem_cons_self e rest))
    rw [List.foldl_cons, ih (fun e1 h1 => h e1 (List.mem_cons_of_mem e h1)),
      t_row_value_map.subscript_snd, he]
    simp only [lsum, List.map_cons, List.sum_cons, Option.getD_some]
    ring

theorem recomputeSum_eq (row : t_row_value_map) : recomputeSum row = row.entrySum := by
  unfold recomputeSum
  split
  · rw [recomputeSum_foldl row row.entries (fun _ h => h)]
    simp [t_row_value_map.entrySum]
  · rename_i h
    have h0 : row.entries = [] := by
      cases hl : row.entries with
      | nil => rfl
      | cons e rest =>
        exfalso
        apply h
        simp [t_row_value_map.size, hl]
    simp [t_row_value_map.entrySum, lsum, h0]

theorem mkWithPartition_some {g : Graph} {p : Partition} {m : SparseClusteringMatrix}
    (h : mkWithPartition g p = some m) :
    m.capacity = g.get_vertex_count ∧
      m.dimension_ = p.get_partition_vector.length ∧
      (∀ i, m.row_sums_ i = if i < g.get_vertex_count then (m.rows_ i).entrySum else 0) ∧
      ∃ cm, buildClustermap g.get_vertex_count p.get_partition_vector = some cm ∧
        populate g cm (initvalue g) = some m.rows_ := by
  unfold mkWithPartition at h
  cases hb : buildClustermap g.get_vertex_count p.get_partition_vector with
  | none => simp [hb] at h
  | some cm =>
    cases hp : populate g cm (initvalue g) with
    | none => simp [hb, hp] at h
    | some rows =>
      simp only [hb, hp, Option.some.injEq] at h
      subst h
      refine ⟨rfl, rfl, ?_, cm, rfl, hp⟩
      intro i
      have hf := foldl_range_const_update (fun i => recomputeSum (rows i)) (fun _ => 0)
        g.get_vertex_count i
      show List.foldl (fun sums i => Function.update sums i (recomputeSum (rows i)))
        (fun _ => 0) (List.range g.get_vertex_count) i = _
      rw [hf]
      simp only [recomputeSum_eq]

theorem mkWithPartition_valid (g : Graph) (p : Partition) (hg : g.NeighborsInRange)
    (hp : p.Valid g) :
    ∃ m, mkWithPartition g p = some m ∧
      m.rows_ = accumulateAll ((initvalue g).getD 0) (repPairs g p) := by
  obtain ⟨cm, hcm, hval⟩ := buildClustermap_valid g p hp
  have hpop := populate_valid g p cm hval (rep_lt g p hp) hg
  refine ⟨{ capacity := g.get_vertex_count,
            rows_ := accumulateAll ((initvalue g).getD 0) (repPairs g p),
            row_sums_ := (List.range g.get_vertex_count).foldl
              (fun sums i => Function.update sums i
                (recomputeSum (accumulateAll ((initvalue g).getD 0) (repPairs g p) i)))
              (fun _ => 0),
            dimension_ := p.get_partition_vector.length }, ?_, rfl⟩
  unfold mkWithPartition
  simp only [hcm, hpop]

theorem length_flatMap_eq {ι β : Type} (h : ι → List β) (l : List ι) :
    (l.flatMap h).length = (l.map (fun i => (h i).length)).sum := by
  induction l with
  | nil => rfl
  | cons x rest ih => simp [List.flatMap_cons, ih]

theorem length_repPairs (g : Graph) (p : Partition) :
    (repPairs g p).length = g.degreeSum := by
  unfold repPairs Graph.degreeSum
  rw [length_flatMap_eq]
  simp

theorem repPairs_fst_lt (g : Graph) (p : Partition) (hp : p.Valid g) :
    ∀ q ∈ repPairs g p, q.1 < g.get_vertex_count := by
  intro q hq
  unfold repPairs at hq
  obtain ⟨i, hi, hq2⟩ := List.mem_flatMap.1 hq
  obtain ⟨j, _, rfl⟩ := List.mem_map.1 hq2
  exact rep_lt g p hp i (List.mem_range.1 hi)

theorem mem_repPairs (g : Graph) (p : Partition) (r s : t_id) :
    (r, s) ∈ repPairs g p ↔
      ∃ i < g.get_vertex_count, p.rep i = r ∧ ∃ j ∈ g.GetNeighbors i, p.rep j = s := by
  unfold repPairs
  constructor
  · intro h
    obtain ⟨i, hi, hq2⟩ := List.mem_flatMap.1 h
    obtain ⟨j, hj, he⟩ := List.mem_map.1 hq2
    cases he
    exact ⟨i, List.mem_range.1 hi, rfl, j, hj, rfl⟩
  · rintro ⟨i, hi, rfl, j, hj, rfl⟩
    exact List.mem_flatMap.2 ⟨i, List.mem_range.2 hi, List.mem_map.2 ⟨j, hj, rfl⟩⟩

theorem initvalue_mul_degreeSum (g : Graph) (hE : 1 ≤ g.get_edge_count)
    (hdeg : g.degreeSum = 2 * g.get_edge_count) :
    (g.degreeSum : t_value) * (1 / (2 * (g.get_edge_count : t_value))) = 1 := by
  have hpos : (g.get_edge_count : t_value) ≠ 0 := by
    have : 0 < g.get_edge_count := hE
    exact_mod_cast this.ne'
  rw [hdeg]
  push_cast
  field_simp

/-! ## Symmetry in terms of cells -/

theorem symmetric_cell {m : SparseClusteringMatrix} (h : Symmetric m) {i j : ℕ} {v : t_value}
    (hi : i < m.capacity) (hc : m.cell i j = some v) :
    j < m.capacity ∧ m.cell j i = some v :=
  h i hi (j, v) ((t_row_value_map.mem_entries_iff (m.rows_ i) (j, v)).2 hc)

theorem symmetric_of_cell (m : SparseClusteringMatrix)
    (h : ∀ i < m.capacity, ∀ j v, m.cell i j = some v →
      j < m.capacity ∧ m.cell j i = some v) : Symmetric m := by
  intro i hi e he
  exact h i hi e.1 e.2 ((t_row_value_map.mem_entries_iff (m.rows_ i) e).1 he)

theorem rowMirrored_of_symmetric {m : SparseClusteringMatrix} (h : Symmetric m) {b : ℕ}
    (hb : b < m.capacity) : RowMirrored m b := by
  intro c v hv
  obtain ⟨h1, h2⟩ := symmetric_cell h hb hv
  exact ⟨h1, v, h2⟩

theorem initWith_rowSumsCorrect (g : Graph) (iv : t_value) :
    RowSumsCorrect (initWith g iv) := by
  intro i hi
  have hi2 : i < g.get_vertex_count := hi
  rw [initWith_row_sums, if_pos hi2]
  unfold rowEntrySum
  rw [entrySum_of_const ((initWith g iv).rows_ i) iv]
  intro k v hkv
  have h := initWith_cell g iv i k
  unfold cell at h
  rw [h] at hkv
  split at hkv
  · cases hkv
    rfl
  · cases hkv

theorem mkWithPartition_rowSumsCorrect {g : Graph} {p : Partition}
    {m : SparseClusteringMatrix} (h : mkWithPartition g p = some m) : RowSumsCorrect m := by
  obtain ⟨hcap, _, hsum, _⟩ := mkWithPartition_some h
  intro i hi
  rw [hsum, if_pos (hcap ▸ hi)]
  rfl

theorem initWith_size (g : Graph) (iv : t_value) (hnd : g.NoDuplicates) (i : ℕ)
    (hi : i < g.get_vertex_count) :
    ((initWith g iv).rows_ i).size = (g.GetNeighbors i).length := by
  rw [initWith_rows, if_pos hi, size_foldl_assign _ _ t_row_value_map.empty (hnd i hi)
    (fun _ _ => rfl)]
  simp [t_row_value_map.size, t_row_value_map.empty]

theorem initWith_totalRowSum (g : Graph) (iv : t_value) (hnd : g.NoDuplicates) :
    totalRowSum (initWith g iv) = (g.degreeSum : t_value) * iv := by
  unfold totalRowSum
  rw [initWith_capacity]
  rw [sum_range_congr _ (fun i => iv * ((g.GetNeighbors i).length : t_value))]
  · rw [sum_map_mul_cast]
    unfold Graph.degreeSum
    ring
  · intro i hi
    rw [initWith_row_sums, if_pos hi, initWith_size g iv hnd i hi]

theorem mkWithPartition_totalRowSum (g : Graph) (p : Partition) (hg : g.NeighborsInRange)
    (hp : p.Valid g) :
    ∃ m, mkWithPartition g p = some m ∧
      totalRowSum m = (g.degreeSum : t_value) * (initvalue g).getD 0 := by
  obtain ⟨m, hm, hrows⟩ := mkWithPartition_valid g p hg hp
  obtain ⟨hcap, _, hsum, _⟩ := mkWithPartition_some hm
  refine ⟨m, hm, ?_⟩
  unfold totalRowSum
  rw [hcap, sum_range_congr _ (fun r =>
    (accumulateAll ((initvalue g).getD 0) (repPairs g p) r).entrySum)]
  · rw [accumulateAll_total _ _ _ (repPairs_fst_lt g p hp), length_repPairs]
  · intro i hi
    rw [hsum, if_pos hi, hrows]

theorem JoinCluster_totalRowSum {m m1 : SparseClusteringMatrix} {a b : ℕ} (hab : a ≠ b)
    (h : JoinCluster m a b = some m1) : totalRowSum m1 = totalRowSum m := by
  obtain ⟨ha, hb, hcap, _, hsum⟩ := JoinCluster_frame h
  have hba : b ≠ a := fun e => hab e.symm
  unfold totalRowSum
  rw [hcap, sum_range_congr _
    (Function.update (Function.update m.row_sums_ a (m.row_sums_ a + m.row_sums_ b)) b 0)]
  · rw [sum_range_update _ _ _ hb, sum_range_update _ _ _ ha, Function.update_noteq hba]
    ring
  · intro i _
    rw [hsum]
    by_cases hib : i = b
    · subst hib
      simp
    · by_cases hia : i = a
      · subst hia
        simp [hib, Function.update_noteq hib]
      · simp [hib, hia, Function.update_noteq hib, Function.update_noteq hia]

theorem JoinClusters_totalRowSum (ops : List (ℕ × ℕ)) :
    ∀ m m1 : SparseClusteringMatrix, (∀ q ∈ ops, q.1 ≠ q.2) →
      JoinClusters m ops = some m1 → totalRowSum m1 = totalRowSum m := by
  induction ops with
  | nil =>
    intro m m1 _ h
    simp only [JoinClusters, List.foldlM_nil] at h
    cases h
    rfl
  | cons q rest ih =>
    intro m m1 hne h
    simp only [JoinClusters, List.foldlM_cons] at h
    cases hq : JoinCluster m q.1 q.2 with
    | none => rw [hq] at h; cases h
    | some m2 =>
      rw [hq] at h
      have h1 := JoinCluster_totalRowSum (hne q (List.mem_cons_self q rest)) hq
      have h2 := ih m2 m1 (fun q1 hq1 => hne q1 (List.mem_cons_of_mem q hq1)) h
      exact h2.trans h1

/-! ## Symmetry of the partition constructor -/

theorem count_flatMap_eq {ι β : Type} [BEq β] (h : ι → List β) (x : β) (l : List ι) :
    (l.flatMap h).count x = (l.map (fun i => (h i).count x)).sum := by
  induction l with
  | nil => rfl
  | cons y rest ih => simp [List.flatMap_cons, ih]

theorem count_map_pair (f : t_id → t_id) (ri r s : t_id) (l : List t_id) :
    (l.map (fun j => (ri, f j))).count (r, s) =
      if ri = r then l.countP (fun j => decide (f j = s)) else 0 := by
  induction l with
  | nil => simp
  | cons x rest ih =>
    rw [List.map_cons, List.count_cons, ih, List.countP_cons]
    by_cases h1 : ri = r
    · subst h1
      by_cases h2 : f x = s
      · simp [h2]
      · simp [h2]
    · simp [h1]

theorem countP_eq_sum_count (n : ℕ) (P : t_id → Bool) (l : List t_id) (hl : ∀ x ∈ l, x < n) :
    l.countP P = ∑ j in Finset.range n, if P j then l.count j else 0 := by
  induction l with
  | nil => simp
  | cons x rest ih =>
    have hx : x ∈ Finset.range n := Finset.mem_range.2 (hl x (List.mem_cons_self x rest))
    rw [List.countP_cons, ih (fun y hy => hl y (List.mem_cons_of_mem x hy))]
    have hsplit : ∀ j, (if P j then List.count j (x :: rest) else 0) =
        (if P j then List.count j rest else 0) + (if x = j then (if P x then 1 else 0) else 0) := by
      intro j
      rw [List.count_cons]
      by_cases hxj : x = j
      · subst hxj
        by_cases hp : P x <;> simp [hp]
      · by_cases hp : P j <;> simp [hp, hxj]
    simp only [hsplit, Finset.sum_add_distrib, Finset.sum_ite_eq, hx, if_true]

theorem list_sum_range_eq (f : ℕ → ℕ) (n : ℕ) :
    ((List.range n).map f).sum = ∑ i in Finset.range n, f i := by
  induction n with
  | zero => simp
  | succ n ih => rw [List.range_succ, List.map_append, List.sum_append, ih,
      Finset.sum_range_succ]; simp

theorem count_repPairs_eq (g : Graph) (p : Partition) (hg : g.NeighborsInRange)
    (r s : t_id) :
    (repPairs g p).count (r, s) =
      ∑ i in Finset.range g.get_vertex_count, ∑ j in Finset.range g.get_vertex_count,
        if p.rep i = r ∧ p.rep j = s then (g.GetNeighbors i).count j else 0 := by
  unfold repPairs
  rw [count_flatMap_eq, list_sum_range_eq]
  apply Finset.sum_congr rfl
  intro i hi
  rw [count_map_pair, countP_eq_sum_count g.get_vertex_count _ _
    (hg i (Finset.mem_range.1 hi))]
  by_cases h1 : p.rep i = r
  · simp [h1]
  · simp [h1]

theorem count_repPairs_symm (g : Graph) (p : Partition) (hg : g.NeighborsInRange)
    (hu : g.Undirected) (r s : t_id) :
    (repPairs g p).count (r, s) = (repPairs g p).count (s, r) := by
  rw [count_repPairs_eq g p hg r s, count_repPairs_eq g p hg s r, Finset.sum_comm]
  apply Finset.sum_congr rfl
  intro j hj
  apply Finset.sum_congr rfl
  intro i hi
  rw [hu i (Finset.mem_range.1 hi) j (Finset.mem_range.1 hj)]
  by_cases h1 : p.rep i = r <;> by_cases h2 : p.rep j = s <;> simp [h1, h2]

theorem initWith_symmetric (g : Graph) (iv : t_value) (hg : g.NeighborsInRange)
    (hu : g.Undirected) : Symmetric (initWith g iv) := by
  apply symmetric_of_cell
  intro i hi j v hc
  have hi2 : i < g.get_vertex_count := hi
  rw [initWith_cell] at hc
  split at hc
  · rename_i h
    cases hc
    have hj : j < g.get_vertex_count := hg i hi2 j h.2
    have hcount : 0 < (g.GetNeighbors j).count i := by
      rw [← hu i hi2 j hj]
      exact List.count_pos_iff.2 h.2
    refine ⟨hj, ?_⟩
    rw [initWith_cell, if_pos ⟨hj, List.count_pos_iff.1 hcount⟩]
  · cases hc

theorem mkWithPartition_symmetric (g : Graph) (p : Partition) (hg : g.NeighborsInRange)
    (hu : g.Undirected) (hp : p.Valid g) {m : SparseClusteringMatrix}
    (hm : mkWithPartition g p = some m) : Symmetric m := by
  obtain ⟨m2, hm2, hrows⟩ := mkWithPartition_valid g p hg hp
  rw [hm] at hm2
  cases hm2
  obtain ⟨hcap, _, _, _⟩ := mkWithPartition_some hm
  apply symmetric_of_cell
  intro i _ j v hc
  unfold cell at hc ⊢
  rw [hrows, accumulateAll_find] at hc
  rw [hrows, accumulateAll_find, ← count_repPairs_symm g p hg hu i j]
  split at hc
  · cases hc
  · rename_i hne
    refine ⟨?_, ?_⟩
    · have hmem : (i, j) ∈ repPairs g p := List.count_pos_iff.1 (Nat.pos_of_ne_zero hne)
      obtain ⟨i0, hi0, _, j0, hj0, hrj⟩ := (mem_repPairs g p i j).1 hmem
      rw [hcap, ← hrj]
      exact rep_lt g p hp j0 (hg i0 hi0 j0 hj0)
    · rw [if_neg hne]
      exact hc

/-! ## Symmetry on the rows that are not retired -/

theorem aliveSymmetric_of_symmetric {m : SparseClusteringMatrix} (h : Symmetric m) :
    AliveSymmetric m [] := by
  intro i hi _ j v hc
  obtain ⟨h1, h2⟩ := symmetric_cell h hi hc
  exact ⟨h1, List.not_mem_nil j, h2⟩

theorem aliveSymmetric_join {m : SparseClusteringMatrix} {retired : List ℕ} {a b : ℕ}
    (hinv : AliveSymmetric m retired) (hab : a ≠ b) (ha : a < m.capacity)
    (hb : b < m.capacity) (har : a ∉ retired) (hbr : b ∉ retired)
    (hsafe : m.cell b b = none ∨ ∃ u, m.cell b a = some u) :
    ∃ m1, JoinCluster m a b = some m1 ∧ AliveSymmetric m1 (b :: retired) := by
  have hmir : RowMirrored m b := by
    intro c v hv
    obtain ⟨h1, _, h3⟩ := hinv b hb hbr c v hv
    exact ⟨h1, v, h3⟩
  obtain ⟨m1, hm1, hA, hB, hC, hD, _⟩ := JoinCluster_spec hab m ha hb hmir hsafe
  obtain ⟨_, _, hcap, _, _⟩ := JoinCluster_frame hm1
  refine ⟨m1, hm1, ?_⟩
  intro i hi hir j v hc
  rw [hcap] at hi ⊢
  have hib : i ≠ b := fun e => hir (e ▸ List.mem_cons_self b retired)
  have hir2 : i ∉ retired := fun e => hir (List.mem_cons_of_mem b e)
  have alive : ∀ k, k ≠ b → k ∉ retired → k ∉ b :: retired := by
    intro k h1 h2 h3
    rcases List.mem_cons.1 h3 with e | e
    · exact h1 e
    · exact h2 e
  by_cases hia : i = a
  · subst hia
    by_cases hjb : j = b
    · subst hjb
      rw [hA] at hc
      cases hc
    · by_cases hji : j = i
      · subst hji
        exact ⟨hi, hir, hc⟩
      · cases hbj : m.cell b j with
        | some w =>
          obtain ⟨g1, g2, _⟩ := hB j w hji hjb hbj
          obtain ⟨k1, k2, _⟩ := hinv b hb hbr j w hbj
          rw [g1] at hc
          rw [g2]
          exact ⟨k1, alive j hjb k2, hc⟩
        | none =>
          obtain ⟨g1, g2, _⟩ := hC j hji hjb hbj
          rw [g1] at hc
          obtain ⟨k1, k2, k3⟩ := hinv i hi hir2 j v hc
          rw [g2]
          exact ⟨k1, alive j hjb k2, k3⟩
  · by_cases hjb : j = b
    · subst hjb
      exfalso
      cases hbi : m.cell j i with
      | some w =>
        obtain ⟨_, _, g3⟩ := hB i w hia hib hbi
        rw [g3] at hc
        cases hc
      | none =>
        obtain ⟨_, _, g3⟩ := hC i hia hib hbi
        rw [g3] at hc
        obtain ⟨_, _, k3⟩ := hinv i hi hir2 j v hc
        rw [hbi] at k3
        cases k3
    · by_cases hja : j = a
      · subst hja
        cases hbi : m.cell b i with
        | some w =>
          obtain ⟨g1, g2, _⟩ := hB i w hia hib hbi
          rw [g2] at hc
          rw [g1]
          exact ⟨ha, alive j hab har, hc⟩
        | none =>
          obtain ⟨g1, g2, _⟩ := hC i hia hib hbi
          rw [g2] at hc
          obtain ⟨_, _, k3⟩ := hinv i hi hir2 j v hc
          rw [g1]
          exact ⟨ha, alive j hab har, k3⟩
      · rw [hD i j hia hib hja hjb] at hc
        obtain ⟨k1, k2, k3⟩ := hinv i hi hir2 j v hc
        rw [hD j i hja hjb hia hib]
        exact ⟨k1, alive j hjb k2, k3⟩

theorem cell_of_sameUpToOrder {m m1 : SparseClusteringMatrix} (h : SameUpToOrder m m1)
    (i j : ℕ) (v : t_value) : m1.cell i j = some v ↔ m.cell i j = some v := by
  obtain ⟨_, _, _, hperm⟩ := h
  unfold cell
  rw [← t_row_value_map.mem_entries_iff (m1.rows_ i) (j, v),
    ← t_row_value_map.mem_entries_iff (m.rows_ i) (j, v)]
  exact (hperm i).mem_iff

theorem cell_eq_of_sameUpToOrder {m m1 : SparseClusteringMatrix} (h : SameUpToOrder m m1)
    (i j : ℕ) : m1.cell i j = m.cell i j := by
  cases h1 : m.cell i j with
  | some v => exact (cell_of_sameUpToOrder h i j v).2 h1
  | none =>
    cases h2 : m1.cell i j with
    | none => rfl
    | some w =>
      have := (cell_of_sameUpToOrder h i j w).1 h2
      rw [h1] at this
      cases this

theorem aliveSymmetric_reorder {m m1 : SparseClusteringMatrix} {retired : List ℕ}
    (hinv : AliveSymmetric m retired) (h : SameUpToOrder m m1) :
    AliveSymmetric m1 retired := by
  intro i hi hir j v hc
  rw [h.1] at hi ⊢
  rw [cell_eq_of_sameUpToOrder h] at hc ⊢
  exact hinv i hi hir j v hc

theorem reachable_aliveSymmetric {m : SparseClusteringMatrix} {retired : List ℕ}
    (h : Reachable m retired) : AliveSymmetric m retired := by
  induction h with
  | plain g m hg hu hm =>
    obtain ⟨iv, rfl, _⟩ := init_some g m hm
    exact aliveSymmetric_of_symmetric (initWith_symmetric g iv hg hu)
  | withPartition g p m hg hu hp hm =>
    exact aliveSymmetric_of_symmetric (mkWithPartition_symmetric g p hg hu hp hm)
  | join m retired a b m1 _ hab ha hb har hbr hj ih =>
    obtain ⟨m2, hm2, hinv⟩ :=
      aliveSymmetric_join ih hab ha hb har hbr (JoinCluster_safe hab hj)
    rw [hj] at hm2
    cases hm2
    exact hinv
  | reorder m m1 retired _ hsame ih => exact aliveSymmetric_reorder ih hsame

/-! ## Entry sums through a merge -/

theorem rowEntrySum_setCell (m : SparseClusteringMatrix) (r c : ℕ) (x : t_value) (i : ℕ) :
    (m.setCell r c x).rowEntrySum i =
      if i = r then m.rowEntrySum r - (m.cell r c).getD 0 + x else m.rowEntrySum i := by
  unfold setCell rowEntrySum cell
  by_cases hi : i = r
  · subst hi
    simp [t_row_value_map.entrySum_assign]
  · simp [hi, Function.update_noteq hi]

theorem rowEntrySum_eraseCell (m : SparseClusteringMatrix) (r c : ℕ) (i : ℕ) :
    (m.eraseCell r c).rowEntrySum i =
      if i = r then m.rowEntrySum r - (m.cell r c).getD 0 else m.rowEntrySum i := by
  unfold eraseCell rowEntrySum cell
  by_cases hi : i = r
  · subst hi
    simp [t_row_value_map.entrySum_erase]
  · simp [hi, Function.update_noteq hi]

theorem joinStepResult_sum_a {a b : ℕ} (hab : a ≠ b) (m : SparseClusteringMatrix) (c : ℕ)
    (v : t_value) :
    (joinStepResult a b m c v).rowEntrySum a =
      m.rowEntrySum a + v - (if c = a then (m.cell a b).getD 0 else 0) := by
  have hba : ¬ b = a := fun e => hab e.symm
  unfold joinStepResult
  by_cases hca : c = a
  · subst hca
    simp only [ne_eq, hab, not_false_eq_true, if_true, rowEntrySum_eraseCell,
      rowEntrySum_setCell, cell_setCell, and_self, Option.getD_some, hba, and_false, if_false]
    ring
  · have hac : ¬ a = c := fun e => hca e.symm
    by_cases hcb : c = b
    · subst hcb
      simp only [ne_eq, not_true, if_false, rowEntrySum_setCell, hac, if_true, hca]
      ring
    · simp only [ne_eq, hcb, not_false_eq_true, if_true, rowEntrySum_eraseCell,
        rowEntrySum_setCell, hac, if_false, hca]
      ring

theorem joinStepResult_sum_other {a b : ℕ} (hab : a ≠ b) (m : SparseClusteringMatrix)
    (c : ℕ) (v : t_value) (i : ℕ) (hia : i ≠ a) (hib : i ≠ b) :
    (joinStepResult a b m c v).rowEntrySum i =
      if i = c then
        m.rowEntrySum i - (m.cell i a).getD 0 + (v + (m.cell a i).getD 0) -
          (m.cell i b).getD 0
      else m.rowEntrySum i := by
  have hba : ¬ b = a := fun e => hab e.symm
  unfold joinStepResult
  by_cases hic : i = c
  · subst hic
    simp only [ne_eq, hib, not_false_eq_true, if_true, rowEntrySum_eraseCell,
      rowEntrySum_setCell, cell_setCell, hia, false_and, if_false, hba, and_false]
  · by_cases hcb : c = b
    · simp only [ne_eq, hcb, not_true, if_false, rowEntrySum_setCell, hib, hia, hic]
    · simp only [ne_eq, hcb, not_false_eq_true, if_true, rowEntrySum_eraseCell,
        rowEntrySum_setCell, hic, if_false, hia]

theorem joinLoop_sum_a {a b : ℕ} (hab : a ≠ b) (cols : List ℕ) :
    ∀ m m1 : SparseClusteringMatrix, cols.Nodup →
    (∀ c ∈ cols, VisitReady a b m c) →
    (a ∈ cols → m.cell a b = m.cell b a) →
    joinLoop a b m cols = some m1 →
    m1.rowEntrySum a =
      m.rowEntrySum a + (cols.map (fun c => if c = a then 0 else (m.cell b c).getD 0)).sum := by
  induction cols with
  | nil =>
    intro m m1 _ _ _ h
    simp only [joinLoop, List.foldlM_nil] at h
    cases h
    simp
  | cons c0 rest ih =>
    intro m m1 hnd hpre hsym h
    have hc0 : c0 ∉ rest := (List.nodup_cons.1 hnd).1
    have hrest : rest.Nodup := (List.nodup_cons.1 hnd).2
    obtain ⟨v, hv⟩ := (hpre c0 (List.mem_cons_self c0 rest)).1
    obtain ⟨m2, hs, hcap, _, _, hcell⟩ :=
      joinStep_eq hab m c0 v hv (hpre c0 (List.mem_cons_self c0 rest))
    have hres := joinStep_result hv hs
    simp only [joinLoop, List.foldlM_cons, hs] at h
    have hpre2 : ∀ c ∈ rest, VisitReady a b m2 c := fun c hcr =>
      visitReady_step hab hcap hcell (fun e => hc0 (e ▸ hcr))
        (hpre c (List.mem_cons_of_mem c0 hcr))
    have hsym2 : a ∈ rest → m2.cell a b = m2.cell b a := by
      intro har
      have hne : a ≠ c0 := fun e => hc0 (e ▸ har)
      rw [hcell, hcell]
      by_cases hcb0 : c0 = b
      · subst hcb0
        have n1 : ¬ (a = c0 ∧ c0 = c0 ∧ c0 ≠ c0) := fun e => e.2.2 rfl
        have n2 : ¬ (c0 = c0 ∧ a = c0 ∧ c0 ≠ c0) := fun e => e.2.2 rfl
        have y1 : (a = a ∧ c0 = c0) ∨ (a = c0 ∧ c0 = a) := Or.inl ⟨rfl, rfl⟩
        have y2 : (c0 = a ∧ a = c0) ∨ (c0 = c0 ∧ a = a) := Or.inr ⟨rfl, rfl⟩
        rw [if_neg n1, if_pos y1, if_neg n2, if_pos y2]
      · have n1 : ¬ (a = c0 ∧ b = b ∧ c0 ≠ b) := fun e => hne e.1
        have n2 : ¬ ((a = a ∧ b = c0) ∨ (a = c0 ∧ b = a)) := by
          rintro (e | e)
          · exact hcb0 e.2.symm
          · exact hne e.1
        have n3 : ¬ (b = c0 ∧ a = b ∧ c0 ≠ b) := fun e => hab e.2.1
        have n4 : ¬ ((b = a ∧ a = c0) ∨ (b = c0 ∧ a = a)) := by
          rintro (e | e)
          · exact hne e.2
          · exact hcb0 e.1.symm
        rw [if_neg n1, if_neg n2, if_neg n3, if_neg n4]
        exact hsym (List.mem_cons_of_mem c0 har)
    have hih := ih m2 m1 hrest hpre2 hsym2 h
    have hsame : rest.map (fun c => if c = a then 0 else (m2.cell b c).getD 0) =
        rest.map (fun c => if c = a then 0 else (m.cell b c).getD 0) := by
      apply List.map_congr_left
      intro c hcr
      by_cases hca : c = a
      · simp [hca]
      · have hne : c ≠ c0 := fun e => hc0 (e ▸ hcr)
        have hu : m2.cell b c = m.cell b c := by
          apply joinStep_untouched hcell
          unfold Touched
          rintro (⟨e, _⟩ | ⟨_, e⟩ | ⟨e, _, e2⟩)
          · exact hab e.symm
          · exact hca e
          · exact e2 e.symm
        simp [hca, hu]
    rw [hih, hsame, hres, joinStepResult_sum_a hab, List.map_cons, List.sum_cons, hv]
    by_cases hca0 : c0 = a
    · subst hca0
      have e1 : m.cell c0 b = some v := (hsym (List.mem_cons_self c0 rest)).trans hv
      simp [e1]
    · simp [hca0]
      ring

theorem joinLoop_sum_other {a b : ℕ} (hab : a ≠ b) (r : ℕ) (hra : r ≠ a) (hrb : r ≠ b)
    (cols : List ℕ) :
    ∀ m m1 : SparseClusteringMatrix, cols.Nodup →
    (∀ c ∈ cols, VisitReady a b m c) →
    (r ∈ cols → (m.cell r a).getD 0 = (m.cell a r).getD 0 ∧ m.cell r b = m.cell b r) →
    joinLoop a b m cols = some m1 →
    m1.rowEntrySum r = m.rowEntrySum r := by
  induction cols with
  | nil =>
    intro m m1 _ _ _ h
    simp only [joinLoop, List.foldlM_nil] at h
    cases h
    rfl
  | cons c0 rest ih =>
    intro m m1 hnd hpre hsym h
    have hc0 : c0 ∉ rest := (List.nodup_cons.1 hnd).1
    have hrest : rest.Nodup := (List.nodup_cons.1 hnd).2
    obtain ⟨v, hv⟩ := (hpre c0 (List.mem_cons_self c0 rest)).1
    obtain ⟨m2, hs, hcap, _, _, hcell⟩ :=
      joinStep_eq hab m c0 v hv (hpre c0 (List.mem_cons_self c0 rest))
    have hres := joinStep_result hv hs
    simp only [joinLoop, List.foldlM_cons, hs] at h
    have hpre2 : ∀ c ∈ rest, VisitReady a b m2 c := fun c hcr =>
      visitReady_step hab hcap hcell (fun e => hc0 (e ▸ hcr))
        (hpre c (List.mem_cons_of_mem c0 hcr))
    have hsym2 : r ∈ rest →
        (m2.cell r a).getD 0 = (m2.cell a r).getD 0 ∧ m2.cell r b = m2.cell b r := by
      intro hrr
      have hne : r ≠ c0 := fun e => hc0 (e ▸ hrr)
      have u1 : m2.cell r a = m.cell r a := by
        apply joinStep_untouched hcell
        unfold Touched
        rintro (⟨e, _⟩ | ⟨e, _⟩ | ⟨e, _, _⟩)
        · exact hra e
        · exact hne e
        · exact hne e
      have u2 : m2.cell a r = m.cell a r := by
        apply joinStep_untouched hcell
        unfold Touched
        rintro (⟨_, e⟩ | ⟨_, e⟩ | ⟨_, e, _⟩)
        · exact hne e
        · exact hra e
        · exact hrb e
      have u3 : m2.cell r b = m.cell r b := by
        apply joinStep_untouched hcell
        unfold Touched
        rintro (⟨e, _⟩ | ⟨e, _⟩ | ⟨e, _, _⟩)
        · exact hra e
        · exact hne e
        · exact hne e
      have u4 : m2.cell b r = m.cell b r := by
        apply joinStep_untouched hcell
        unfold Touched
        rintro (⟨e, _⟩ | ⟨_, e⟩ | ⟨_, e, _⟩)
        · exact hab e.symm
        · exact hra e
        · exact hrb e
      rw [u1, u2, u3, u4]
      exact hsym (List.mem_cons_of_mem c0 hrr)
    rw [ih m2 m1 hrest hpre2 hsym2 h, hres, joinStepResult_sum_other hab m c0 v r hra hrb]
    by_cases hrc : r = c0
    · subst hrc
      obtain ⟨e1, e2⟩ := hsym (List.mem_cons_self r rest)
      rw [if_pos rfl, e1, e2, hv]
      simp
    · rw [if_neg hrc]

theorem joinFinish_rowEntrySum {a b : ℕ} (hab : a ≠ b) (m : SparseClusteringMatrix) (i : ℕ) :
    (joinFinish a b m).rowEntrySum i = m.rowEntrySum i := by
  have hba : ¬ b = a := fun e => hab e.symm
  unfold joinFinish rowEntrySum
  by_cases hi : i = a
  · subst hi
    simp only [Function.update_same, t_row_value_map.entrySum_erase,
      t_row_value_map.find_assign, t_row_value_map.entrySum_assign,
      t_row_value_map.find_subscript, t_row_value_map.entrySum_subscript,
      t_row_value_map.subscript_snd, hba, if_false, if_true, Option.getD_some,
      (show ¬ i = b from hab)]
    ring
  · simp [hi, Function.update_noteq hi]

theorem sum_keys_except (l : List (t_id × t_value)) (hnd : (lkeys l).Nodup) (a : t_id) :
    ((lkeys l).map (fun c => if c = a then 0 else (lfind l c).getD 0)).sum =
      lsum l - (lfind l a).getD 0 := by
  induction l with
  | nil => simp [lkeys, lfind, lsum]
  | cons e r ih =>
    obtain ⟨k, v⟩ := e
    have hr : (lkeys r).Nodup := by
      simp only [lkeys, List.map_cons, List.nodup_cons] at hnd
      exact hnd.2
    have hk : k ∉ lkeys r := by
      simp only [lkeys, List.map_cons, List.nodup_cons] at hnd
      exact hnd.1
    have htail : (lkeys r).map (fun c => if c = a then 0 else (lfind ((k, v) :: r) c).getD 0) =
        (lkeys r).map (fun c => if c = a then 0 else (lfind r c).getD 0) := by
      apply List.map_congr_left
      intro c hc
      have hne : ¬ k = c := fun e => hk (e ▸ hc)
      simp [lfind, hne]
    have hkeys : lkeys ((k, v) :: r) = k :: lkeys r := rfl
    rw [hkeys, List.map_cons, List.sum_cons, htail, ih hr]
    by_cases hka : k = a
    · subst hka
      have hnone : lfind r k = none := (lfind_eq_none_iff r k).2 hk
      simp [lfind, lsum, hnone]
    · simp only [lfind, lsum, hka, if_false, List.map_cons, List.sum_cons, if_true,
        Option.getD_some]
      ring

theorem symmetric_cell_eq {m : SparseClusteringMatrix} (h : Symmetric m) {i j : ℕ}
    (hi : i < m.capacity) (hj : j < m.capacity) : m.cell i j = m.cell j i := by
  cases h1 : m.cell i j with
  | some v => exact ((symmetric_cell h hi h1).2).symm
  | none =>
    cases h2 : m.cell j i with
    | none => rfl
    | some w =>
      have := (symmetric_cell h hj h2).2
      rw [h1] at this
      cases this

theorem JoinCluster_rowEntrySum {a b : ℕ} (hab : a ≠ b) (m : SparseClusteringMatrix)
    (hs : Symmetric m) (ha : a < m.capacity) (hb : b < m.capacity)
    (hsafe : m.cell b b = none ∨ ∃ u, m.cell b a = some u) :
    ∃ m1, JoinCluster m a b = some m1 ∧
      (∀ i < m.capacity, i ≠ a → i ≠ b → m1.rowEntrySum i = m.rowEntrySum i) ∧
      m1.rowEntrySum a = m.rowEntrySum a + m.rowEntrySum b - (m.cell a b).getD 0 := by
  have hmir := rowMirrored_of_symmetric hs hb
  obtain ⟨m1, hm1, _⟩ := JoinCluster_spec hab m ha hb hmir hsafe
  have hnd : (m.rows_ b).keys.Nodup := (m.rows_ b).nodup
  have hmem : ∀ c, c ∈ (m.rows_ b).keys ↔ ∃ v, m.cell b c = some v :=
    fun c => t_row_value_map.mem_keys_iff (m.rows_ b) c
  have hpre : ∀ c ∈ (m.rows_ b).keys, VisitReady a b m c :=
    visitReady_of_mirrored hmir hsafe
  have hm1b := hm1
  simp only [JoinCluster, ha, hb, and_self, if_true] at hm1b
  cases hl : joinLoop a b m (m.rows_ b).keys with
  | none => rw [hl] at hm1b; cases hm1b
  | some m2 =>
    rw [hl] at hm1b
    cases hm1b
    refine ⟨_, hm1, ?_, ?_⟩
    · intro i hi hia hib
      rw [joinFinish_rowEntrySum hab]
      apply joinLoop_sum_other hab i hia hib _ m m2 hnd hpre _ hl
      intro _
      rw [symmetric_cell_eq hs hi ha, symmetric_cell_eq hs hi hb]
      exact ⟨rfl, rfl⟩
    · rw [joinFinish_rowEntrySum hab,
        joinLoop_sum_a hab _ m m2 hnd hpre (fun _ => symmetric_cell_eq hs ha hb) hl]
      have hk := sum_keys_except (m.rows_ b).entries (m.rows_ b).nodup a
      have hk2 : ((m.rows_ b).keys.map
          (fun c => if c = a then 0 else (m.cell b c).getD 0)).sum =
          m.rowEntrySum b - (m.cell b a).getD 0 := hk
      rw [hk2, symmetric_cell_eq hs ha hb]
      ring

/-- The law of the maintained row sums through a merge: on a symmetric matrix
with correct row sums, in which row `b` has no self-entry or has an entry for
`a`, the merge returns, the rows other than `a` and `b` keep a correct row sum,
and the row sum of `a` exceeds the sum of the entries of row `a` by the former
value of the cell `(a, b)`. -/
theorem JoinCluster_row_sum_law {a b : ℕ} (hab : a ≠ b) (m : SparseClusteringMatrix)
    (hs : Symmetric m) (hrs : RowSumsCorrect m) (ha : a < m.capacity)
    (hb : b < m.capacity) (hsafe : m.cell b b = none ∨ ∃ u, m.cell b a = some u) :
    ∃ m1, JoinCluster m a b = some m1 ∧
      (∀ i < m.capacity, i ≠ a → i ≠ b → m1.row_sums_ i = m1.rowEntrySum i) ∧
      m1.row_sums_ a = m1.rowEntrySum a + (m.cell a b).getD 0 := by
  obtain ⟨m1, hm1, hother, hrow⟩ := JoinCluster_rowEntrySum hab m hs ha hb hsafe
  obtain ⟨_, _, _, _, hsum⟩ := JoinCluster_frame hm1
  refine ⟨m1, hm1, ?_, ?_⟩
  · intro i hi hia hib
    rw [hsum i, if_neg hib, if_neg hia, hother i hi hia hib]
    exact hrs i hi
  · rw [hsum a, if_neg hab, if_pos rfl, hrow, hrs a ha, hrs b hb]
    ring

/-- The law of the stored mass through a merge: on a symmetric matrix in which
row `b` has no self-entry or has an entry for `a`, the merge returns and the
entries of the rows other than the retired row `b` sum, after the merge, to the
former sum of all entries less the former value of the cell `(a, b)`. -/
theorem JoinCluster_entry_mass_law {a b : ℕ} (hab : a ≠ b) (m : SparseClusteringMatrix)
    (hs : Symmetric m) (ha : a < m.capacity) (hb : b < m.capacity)
    (hsafe : m.cell b b = none ∨ ∃ u, m.cell b a = some u) :
    ∃ m1, JoinCluster m a b = some m1 ∧
      ((List.range m.capacity).map (fun i => if i = b then 0 else m1.rowEntrySum i)).sum =
        totalEntrySum m - (m.cell a b).getD 0 := by
  obtain ⟨m1, hm1, hother, hrow⟩ := JoinCluster_rowEntrySum hab m hs ha hb hsafe
  have hba : b ≠ a := fun e => hab e.symm
  refine ⟨m1, hm1, ?_⟩
  unfold totalEntrySum
  rw [sum_range_congr _ (Function.update (Function.update m.rowEntrySum a
    (m.rowEntrySum a + m.rowEntrySum b - (m.cell a b).getD 0)) b 0)]
  · rw [sum_range_update _ _ _ hb, sum_range_update _ _ _ ha, Function.update_noteq hba]
    ring
  · intro i hi
    by_cases hib : i = b
    · subst hib
      simp
    · by_cases hia : i = a
      · subst hia
        simp [hib, Function.update_noteq hib, hrow]
      · simp [hib, hia, Function.update_noteq hib, Function.update_noteq hia,
          hother i hi hia hib]

/-! ## What a returning merge leaves in place -/

theorem joinStepResult_rows (a b : ℕ) (m : SparseClusteringMatrix) (c : ℕ) (v : t_value)
    (r : ℕ) (hra : r ≠ a) (hrc : r ≠ c) : (joinStepResult a b m c v).rows_ r = m.rows_ r := by
  unfold joinStepResult
  by_cases hcb : c = b
  · simp [hcb, setCell, Function.update_noteq hra, Function.update_noteq (hcb ▸ hrc)]
  · simp [hcb, setCell, eraseCell, Function.update_noteq hra, Function.update_noteq hrc]

theorem joinLoop_rows {a b : ℕ} (cols : List ℕ) :
    ∀ m m1 : SparseClusteringMatrix, joinLoop a b m cols = some m1 →
      ∀ r, r ≠ a → r ∉ cols → m1.rows_ r = m.rows_ r := by
  induction cols with
  | nil =>
    intro m m1 h r _ _
    simp only [joinLoop, List.foldlM_nil] at h
    cases h
    rfl
  | cons c0 rest ih =>
    intro m m1 h r hra hr
    simp only [joinLoop, List.foldlM_cons] at h
    cases hs : joinStep a b m c0 with
    | none => rw [hs] at h; cases h
    | some m2 =>
      rw [hs] at h
      obtain ⟨v, _, hres⟩ := joinStep_some hs
      have hrc : r ≠ c0 := fun e => hr (e ▸ List.mem_cons_self c0 rest)
      have hrr : r ∉ rest := fun e => hr (List.mem_cons_of_mem c0 e)
      rw [ih m2 m1 h r hra hrr, hres, joinStepResult_rows a b m c0 v r hra hrc]

theorem joinLoop_row_b_kept {a b : ℕ} (hab : a ≠ b) (cols : List ℕ) :
    ∀ m m1 : SparseClusteringMatrix, joinLoop a b m cols = some m1 →
      ∀ j, (∃ v, m.cell b j = some v) → ∃ w, m1.cell b j = some w := by
  induction cols with
  | nil =>
    intro m m1 h j hj
    simp only [joinLoop, List.foldlM_nil] at h
    cases h
    exact hj
  | cons c0 rest ih =>
    intro m m1 h j hj
    simp only [joinLoop, List.foldlM_cons] at h
    cases hs : joinStep a b m c0 with
    | none => rw [hs] at h; cases h
    | some m2 =>
      rw [hs] at h
      obtain ⟨v, _, hres⟩ := joinStep_some hs
      apply ih m2 m1 h j
      rw [hres, joinStepResult_cell hab]
      split_ifs with h1 h2
      · exact absurd h1.1.symm h1.2.2
      · exact ⟨_, rfl⟩
      · exact hj

theorem joinFinish_rows (a b : ℕ) (m : SparseClusteringMatrix) (r : ℕ) (hra : r ≠ a) :
    (joinFinish a b m).rows_ r = m.rows_ r := by
  unfold joinFinish
  simp [Function.update_noteq hra]

theorem JoinCluster_rows {m m1 : SparseClusteringMatrix} {a b : ℕ}
    (h : JoinCluster m a b = some m1) (r : ℕ) (hra : r ≠ a) (hr : r ∉ (m.rows_ b).keys) :
    m1.rows_ r = m.rows_ r := by
  obtain ⟨m2, hl, rfl⟩ := JoinCluster_loop h
  rw [joinFinish_rows a b m2 r hra]
  exact joinLoop_rows _ m m2 hl r hra hr

theorem JoinCluster_row_b_kept {m m1 : SparseClusteringMatrix} {a b : ℕ} (hab : a ≠ b)
    (h : JoinCluster m a b = some m1) (j : ℕ) (hj : ∃ v, m.cell b j = some v) :
    ∃ w, m1.cell b j = some w := by
  obtain ⟨m2, hl, rfl⟩ := JoinCluster_loop h
  obtain ⟨w, hw⟩ := joinLoop_row_b_kept hab _ m m2 hl j hj
  refine ⟨w, ?_⟩
  rw [joinFinish_cell hab, if_neg (fun e => hab e.symm)]
  exact hw

theorem size_le_of_keys_subset (r r1 : t_row_value_map)
    (h : ∀ j, (∃ v, r.find j = some v) → ∃ w, r1.find j = some w) : r.size ≤ r1.size := by
  have hsub : r.keys ⊆ r1.keys := by
    intro j hj
    exact (t_row_value_map.mem_keys_iff r1 j).2 (h j ((t_row_value_map.mem_keys_iff r j).1 hj))
  have hle := (List.subperm_of_subset r.nodup hsub).length_le
  simpa [t_row_value_map.keys, t_row_value_map.size, lkeys] using hle

/-! ## The diagonal cell of the surviving row -/

theorem joinLoop_diag {a b : ℕ} (hab : a ≠ b) (cols : List ℕ) :
    ∀ m m1 : SparseClusteringMatrix, cols.Nodup →
    (a ∈ cols → m.cell a b = m.cell b a) →
    joinLoop a b m cols = some m1 →
    (m1.cell a a).getD 0 + (m1.cell a b).getD 0 =
      (m.cell a a).getD 0 + (m.cell a b).getD 0 +
        (if b ∈ cols then (m.cell b b).getD 0 else 0) := by
  have hba : b ≠ a := fun e => hab e.symm
  induction cols with
  | nil =>
    intro m m1 _ _ h
    simp only [joinLoop, List.foldlM_nil] at h
    cases h
    simp
  | cons c0 rest ih =>
    intro m m1 hnd hsym h
    have hc0 : c0 ∉ rest := (List.nodup_cons.1 hnd).1
    have hrest : rest.Nodup := (List.nodup_cons.1 hnd).2
    simp only [joinLoop, List.foldlM_cons] at h
    cases hs : joinStep a b m c0 with
    | none => rw [hs] at h; cases h
    | some m2 =>
      rw [hs] at h
      obtain ⟨v, hv, hres⟩ := joinStep_some hs
      have hcell := fun i j => joinStepResult_cell hab m c0 v i j
      rw [← hres] at hcell
      have hsym2 : a ∈ rest → m2.cell a b = m2.cell b a := by
        intro har
        have hne : a ≠ c0 := fun e => hc0 (e ▸ har)
        rw [hcell, hcell]
        by_cases hcb0 : c0 = b
        · subst hcb0
          have n1 : ¬ (a = c0 ∧ c0 = c0 ∧ c0 ≠ c0) := fun e => e.2.2 rfl
          have n2 : ¬ (c0 = c0 ∧ a = c0 ∧ c0 ≠ c0) := fun e => e.2.2 rfl
          have y1 : (a = a ∧ c0 = c0) ∨ (a = c0 ∧ c0 = a) := Or.inl ⟨rfl, rfl⟩
          have y2 : (c0 = a ∧ a = c0) ∨ (c0 = c0 ∧ a = a) := Or.inr ⟨rfl, rfl⟩
          rw [if_neg n1, if_pos y1, if_neg n2, if_pos y2]
        · have n1 : ¬ (a = c0 ∧ b = b ∧ c0 ≠ b) := fun e => hne e.1
          have n2 : ¬ ((a = a ∧ b = c0) ∨ (a = c0 ∧ b = a)) := by
            rintro (e | e)
            · exact hcb0 e.2.symm
            · exact hne e.1
          have n3 : ¬ (b = c0 ∧ a = b ∧ c0 ≠ b) := fun e => hab e.2.1
          have n4 : ¬ ((b = a ∧ a = c0) ∨ (b = c0 ∧ a = a)) := by
            rintro (e | e)
            · exact hba e.1
            · exact hcb0 e.1.symm
          rw [if_neg n1, if_neg n2, if_neg n3, if_neg n4]
          exact hsym (List.mem_cons_of_mem c0 har)
      have hbb : m2.cell b b = m.cell b b := by
        rw [hcell]
        have n1 : ¬ (b = c0 ∧ b = b ∧ c0 ≠ b) := fun e => e.2.2 e.1.symm
        have n2 : ¬ ((b = a ∧ b = c0) ∨ (b = c0 ∧ b = a)) := by
          rintro (e | e)
          · exact hba e.1
          · exact hba e.2
        rw [if_neg n1, if_neg n2]
      rw [ih m2 m1 hrest hsym2 h, hbb]
      by_cases hca : c0 = a
      · subst hca
        have e1 : m.cell c0 b = some v := (hsym (List.mem_cons_self c0 rest)).trans hv
        have haa : m2.cell c0 c0 = some (v + (m.cell c0 c0).getD 0) := by
          rw [hcell]
          have n1 : ¬ (c0 = c0 ∧ c0 = b ∧ c0 ≠ b) := fun e => e.2.2 e.2.1
          rw [if_neg n1, if_pos (Or.inl ⟨rfl, rfl⟩)]
        have hab2 : m2.cell c0 b = none := by
          rw [hcell, if_pos ⟨rfl, rfl, hab⟩]
        have hmem : (b ∈ c0 :: rest) ↔ (b ∈ rest) := by
          simp [List.mem_cons, hba]
        rw [haa, hab2, e1]
        simp only [Option.getD_some, Option.getD_none, hmem]
        ring
      · have hac : a ≠ c0 := fun e => hca e.symm
        have haa : m2.cell a a = m.cell a a := by
          rw [hcell]
          have n1 : ¬ (a = c0 ∧ a = b ∧ c0 ≠ b) := fun e => hac e.1
          have n2 : ¬ ((a = a ∧ a = c0) ∨ (a = c0 ∧ a = a)) := by
            rintro (e | e)
            · exact hac e.2
            · exact hac e.1
          rw [if_neg n1, if_neg n2]
        by_cases hcb : c0 = b
        · subst hcb
          have hab2 : m2.cell a c0 = some (v + (m.cell a c0).getD 0) := by
            rw [hcell]
            have n1 : ¬ (a = c0 ∧ c0 = c0 ∧ c0 ≠ c0) := fun e => hac e.1
            rw [if_neg n1, if_pos (Or.inl ⟨rfl, rfl⟩)]
          rw [haa, hab2, hv]
          simp only [Option.getD_some, List.mem_cons, true_or, if_true, hc0, if_false]
          ring
        · have hab2 : m2.cell a b = m.cell a b := by
            rw [hcell]
            have n1 : ¬ (a = c0 ∧ b = b ∧ c0 ≠ b) := fun e => hac e.1
            have n2 : ¬ ((a = a ∧ b = c0) ∨ (a = c0 ∧ b = a)) := by
              rintro (e | e)
              · exact hcb e.2.symm
              · exact hac e.1
            rw [if_neg n1, if_neg n2]
          have hmem : (b ∈ c0 :: rest) ↔ (b ∈ rest) := by
            have hbc : ¬ b = c0 := fun e => hcb e.symm
            simp [List.mem_cons, hbc]
          rw [haa, hab2]
          simp only [hmem]

theorem JoinCluster_diag {a b : ℕ} (hab : a ≠ b) (m : SparseClusteringMatrix)
    (hs : Symmetric m) (ha : a < m.capacity) (hb : b < m.capacity)
    (hsafe : m.cell b b = none ∨ ∃ u, m.cell b a = some u) :
    ∃ m1, JoinCluster m a b = some m1 ∧
      m1.cell a a = some ((m.cell a a).getD 0 + (m.cell a b).getD 0 + (m.cell b b).getD 0) := by
  obtain ⟨m1, hm1, _⟩ :=
    JoinCluster_spec hab m ha hb (rowMirrored_of_symmetric hs hb) hsafe
  obtain ⟨m2, hl, hfin⟩ := JoinCluster_loop hm1
  refine ⟨m1, hm1, ?_⟩
  have hd := joinLoop_diag hab (m.rows_ b).keys m m2 (m.rows_ b).nodup
    (fun _ => symmetric_cell_eq hs ha hb) hl
  rw [hfin, joinFinish_cell hab, if_pos rfl, if_neg hab, if_pos rfl, hd]
  by_cases hmem : b ∈ (m.rows_ b).keys
  · rw [if_pos hmem]
  · rw [if_neg hmem]
    have hnone : m.cell b b = none := by
      cases hbb : m.cell b b with
      | none => rfl
      | some w =>
        exact absurd ((t_row_value_map.mem_keys_iff (m.rows_ b) b).2 ⟨w, hbb⟩) hmem
    rw [hnone]
    simp

theorem symmetric_of_sameUpToOrder {m m1 : SparseClusteringMatrix} (hs : Symmetric m)
    (h : SameUpToOrder m m1) : Symmetric m1 := by
  apply symmetric_of_cell
  intro i hi j v hc
  rw [h.1] at hi ⊢
  rw [cell_eq_of_sameUpToOrder h] at hc ⊢
  exact symmetric_cell hs hi hc

/-! ## Every lookup of the merge loop finds its entry -/

theorem joinLoop_prefix {a b : ℕ} (hab : a ≠ b) (pre : List ℕ) :
    ∀ (rest : List ℕ) (m : SparseClusteringMatrix), (pre ++ rest).Nodup →
    (∀ c ∈ pre ++ rest, VisitReady a b m c) →
    ∃ m1, joinLoop a b m pre = some m1 ∧ m1.capacity = m.capacity ∧
      ∀ c ∈ rest, VisitReady a b m1 c := by
  induction pre with
  | nil =>
    intro rest m _ hpre
    exact ⟨m, rfl, rfl, fun c hc => hpre c (by simpa using hc)⟩
  | cons c0 pre1 ih =>
    intro rest m hnd hpre
    rw [List.cons_append] at hnd hpre
    have hc0 : c0 ∉ pre1 ++ rest := (List.nodup_cons.1 hnd).1
    have hnd1 : (pre1 ++ rest).Nodup := (List.nodup_cons.1 hnd).2
    obtain ⟨v, hv⟩ := (hpre c0 (List.mem_cons_self c0 _)).1
    obtain ⟨m2, hs, hcap, _, _, hcell⟩ :=
      joinStep_eq hab m c0 v hv (hpre c0 (List.mem_cons_self c0 _))
    have hpre2 : ∀ c ∈ pre1 ++ rest, VisitReady a b m2 c := fun c hcr =>
      visitReady_step hab hcap hcell (fun e => hc0 (e ▸ hcr))
        (hpre c (List.mem_cons_of_mem c0 hcr))
    obtain ⟨m1, hl, hcap1, hrest⟩ := ih rest m2 hnd1 hpre2
    refine ⟨m1, ?_, hcap1.trans hcap, hrest⟩
    simp only [joinLoop, List.foldlM_cons, hs] at hl ⊢
    exact hl

/-! ## Representatives, and the partition into singletons -/

theorem rep_is_head (g : Graph) (p : Partition) (hp : p.Valid g) (v : t_id)
    (hv : v < g.get_vertex_count) :
    ∃ c ∈ p.get_partition_vector, c.head? = some (p.rep v) := by
  obtain ⟨h1, _, h3, h4⟩ := hp
  obtain ⟨c, hc, hvc⟩ := h4 v hv
  have hrep : p.rep v = c.headD 0 := repOf_of_mem _ h3 c hc v hvc
  refine ⟨c, hc, ?_⟩
  rw [hrep]
  cases c with
  | nil => exact absurd rfl (h1 [] hc)
  | cons r t => rfl

theorem entries_eq_nil_of_find (r : t_row_value_map) (h : ∀ k, r.find k = none) :
    r.entries = [] := by
  cases hl : r.entries with
  | nil => rfl
  | cons e rest =>
    exfalso
    have hmem : e ∈ r.entries := by rw [hl]; exact List.mem_cons_self e rest
    have := (t_row_value_map.mem_entries_iff r e).1 hmem
    rw [h e.1] at this
    cases this

theorem entries_perm_of_find_eq (r r1 : t_row_value_map) (h : ∀ k, r.find k = r1.find k) :
    r.entries.Perm r1.entries := by
  have hd : r.entries.Nodup := List.Nodup.of_map Prod.fst r.nodup
  have hd1 : r1.entries.Nodup := List.Nodup.of_map Prod.fst r1.nodup
  apply (List.perm_ext_iff_of_nodup hd hd1).2
  intro e
  rw [t_row_value_map.mem_entries_iff, t_row_value_map.mem_entries_iff, h]

theorem entrySum_eq_of_find_eq (r r1 : t_row_value_map) (h : ∀ k, r.find k = r1.find k) :
    r.entrySum = r1.entrySum := by
  unfold t_row_value_map.entrySum lsum
  exact ((entries_perm_of_find_eq r r1 h).map Prod.snd).sum_eq

theorem trivialPartition_valid (g : Graph) :
    (trivialPartition g.get_vertex_count).Valid g := by
  refine ⟨?_, ?_, ?_, ?_⟩
  · intro c hc
    obtain ⟨i, _, rfl⟩ := List.mem_map.1 hc
    simp
  · intro c hc v hv
    obtain ⟨i, hi, rfl⟩ := List.mem_map.1 hc
    rw [List.mem_singleton.1 hv]
    exact List.mem_range.1 hi
  · show ((List.range g.get_vertex_count).map (fun v => [v])).Pairwise _
    rw [List.pairwise_map]
    have hne : (List.range g.get_vertex_count).Pairwise (fun x y => x ≠ y) :=
      List.nodup_range g.get_vertex_count
    apply hne.imp
    intro x y hxy v hv hv2
    rw [List.mem_singleton.1 hv] at hv2
    exact hxy (List.mem_singleton.1 hv2)
  · intro v hv
    exact ⟨[v], List.mem_map.2 ⟨v, List.mem_range.2 hv, rfl⟩, List.mem_singleton.2 rfl⟩

theorem trivialPartition_rep (g : Graph) (v : t_id) (hv : v < g.get_vertex_count) :
    (trivialPartition g.get_vertex_count).rep v = v := by
  obtain ⟨_, _, h3, _⟩ := trivialPartition_valid g
  exact repOf_of_mem _ h3 [v] (List.mem_map.2 ⟨v, List.mem_range.2 hv, rfl⟩) v
    (List.mem_singleton.2 rfl)

theorem sum_range_ite_eq (n i : ℕ) (F : ℕ → ℕ) :
    ((List.range n).map (fun k => if k = i then F k else 0)).sum =
      if i < n then F i else 0 := by
  rw [list_sum_range_eq, Finset.sum_ite_eq']
  simp

theorem count_repPairs_trivial (g : Graph) (hg : g.NeighborsInRange) (i j : t_id) :
    (repPairs g (trivialPartition g.get_vertex_count)).count (i, j) =
      if i < g.get_vertex_count then (g.GetNeighbors i).count j else 0 := by
  unfold repPairs
  rw [count_flatMap_eq, ← sum_range_ite_eq g.get_vertex_count i
    (fun k => (g.GetNeighbors k).count j)]
  congr 1
  apply List.map_congr_left
  intro k hk
  have hk2 : k < g.get_vertex_count := List.mem_range.1 hk
  have hsame : (g.GetNeighbors k).map (fun x =>
      ((trivialPartition g.get_vertex_count).rep k,
        (trivialPartition g.get_vertex_count).rep x)) =
      (g.GetNeighbors k).map (fun x => (k, id x)) := by
    apply List.map_congr_left
    intro x hx
    rw [trivialPartition_rep g k hk2, trivialPartition_rep g x (hg k hk2 x hx)]
    rfl
  rw [hsame, count_map_pair]
  by_cases hki : k = i
  · subst hki
    have hcount : (g.GetNeighbors k).countP (fun x => decide (id x = j)) =
        (g.GetNeighbors k).count j := by
      rw [List.count]
      congr 1
    rw [if_pos rfl, if_pos rfl]
    exact hcount
  · simp [hki]

theorem mkWithPartition_trivial_cell (g : Graph) (hg : g.NeighborsInRange)
    (hnd : g.NoDuplicates) :
    ∃ m, mkWithPartition g (trivialPartition g.get_vertex_count) = some m ∧
      ∀ i j, m.cell i j = (initWith g ((initvalue g).getD 0)).cell i j := by
  obtain ⟨m, hm, hrows⟩ := mkWithPartition_valid g _ hg (trivialPartition_valid g)
  refine ⟨m, hm, ?_⟩
  intro i j
  rw [initWith_cell]
  unfold cell
  rw [hrows, accumulateAll_find, count_repPairs_trivial g hg]
  by_cases hi : i < g.get_vertex_count
  · by_cases hj : j ∈ g.GetNeighbors i
    · have hone : (g.GetNeighbors i).count j = 1 := List.count_eq_one_of_mem (hnd i hi) hj
      simp [hi, hj, hone]
    · have hzero : (g.GetNeighbors i).count j = 0 := List.count_eq_zero_of_not_mem hj
      simp [hi, hj, hzero]
  · simp [hi]

/-! ## Stored values in the states reached from a simple graph -/

theorem reachablePlain_reachable {g : Graph} (hg : g.Simple) {m : SparseClusteringMatrix}
    {retired : List ℕ} (h : ReachablePlain g m retired) : Reachable m retired := by
  induction h with
  | start m hm => exact Reachable.plain g m hg.1 hg.2.1 hm
  | join m retired a b m1 _ hab ha hb har hbr hj ih =>
    exact Reachable.join m retired a b m1 ih hab ha hb har hbr hj
  | reorder m m1 retired _ hsame ih => exact Reachable.reorder m m1 retired ih hsame

theorem degreeSum_pos (g : Graph) (i j : ℕ) (hi : i < g.get_vertex_count)
    (hj : j ∈ g.GetNeighbors i) : 0 < g.degreeSum := by
  unfold Graph.degreeSum
  rw [list_sum_range_eq]
  have hlen : 0 < (g.GetNeighbors i).length := List.length_pos_of_mem hj
  have hle : (g.GetNeighbors i).length ≤
      ∑ k in Finset.range g.get_vertex_count, (g.GetNeighbors k).length :=
    Finset.single_le_sum (f := fun k => (g.GetNeighbors k).length)
      (fun _ _ => Nat.zero_le _) (Finset.mem_range.2 hi)
  omega

theorem initvalue_pos (g : Graph) (hE : 1 ≤ g.get_edge_count) :
    (0 : t_value) < 1 / (2 * (g.get_edge_count : t_value)) := by
  have : (0 : t_value) < (g.get_edge_count : t_value) := by exact_mod_cast hE
  positivity

theorem initWith_alivePositive (g : Graph) (iv : t_value)
    (hiv : 0 < g.get_vertex_count → 0 < iv) : AlivePositive (initWith g iv) [] := by
  intro i hi _ j v hc
  have hi2 : i < g.get_vertex_count := hi
  rw [initWith_cell] at hc
  split at hc
  · cases hc
    have := hiv (by omega)
    exact ⟨this.le, fun _ => this⟩
  · cases hc

theorem alivePositive_getD {m : SparseClusteringMatrix} {retired : List ℕ}
    (h : AlivePositive m retired) {i : ℕ} (hi : i < m.capacity) (hir : i ∉ retired) (j : ℕ) :
    0 ≤ (m.cell i j).getD 0 := by
  cases hc : m.cell i j with
  | none => simp
  | some v => exact (h i hi hir j v hc).1

theorem JoinCluster_diag_alive {a b : ℕ} (hab : a ≠ b) (m : SparseClusteringMatrix)
    (hmir : RowMirrored m b) (hsym : m.cell a b = m.cell b a) (ha : a < m.capacity)
    (hb : b < m.capacity) (hsafe : m.cell b b = none ∨ ∃ u, m.cell b a = some u) :
    ∃ m1, JoinCluster m a b = some m1 ∧
      m1.cell a a = some ((m.cell a a).getD 0 + (m.cell a b).getD 0 + (m.cell b b).getD 0) := by
  obtain ⟨m1, hm1, _⟩ := JoinCluster_spec hab m ha hb hmir hsafe
  obtain ⟨m2, hl, hfin⟩ := JoinCluster_loop hm1
  refine ⟨m1, hm1, ?_⟩
  have hd := joinLoop_diag hab (m.rows_ b).keys m m2 (m.rows_ b).nodup (fun _ => hsym) hl
  rw [hfin, joinFinish_cell hab, if_pos rfl, if_neg hab, if_pos rfl, hd]
  by_cases hmem : b ∈ (m.rows_ b).keys
  · rw [if_pos hmem]
  · rw [if_neg hmem]
    have hnone : m.cell b b = none := by
      cases hbb : m.cell b b with
      | none => rfl
      | some w =>
        exact absurd ((t_row_value_map.mem_keys_iff (m.rows_ b) b).2 ⟨w, hbb⟩) hmem
    rw [hnone]
    simp

theorem alivePositive_join {m m1 : SparseClusteringMatrix} {retired : List ℕ} {a b : ℕ}
    (hinv : AliveSymmetric m retired) (hpos : AlivePositive m retired) (hab : a ≠ b)
    (ha : a < m.capacity) (hb : b < m.capacity) (har : a ∉ retired) (hbr : b ∉ retired)
    (hj : JoinCluster m a b = some m1) : AlivePositive m1 (b :: retired) := by
  have hmir : RowMirrored m b := by
    intro c v hv
    obtain ⟨h1, _, h3⟩ := hinv b hb hbr c v hv
    exact ⟨h1, v, h3⟩
  have hsym : m.cell a b = m.cell b a := by
    cases h1 : m.cell a b with
    | some v => exact ((hinv a ha har b v h1).2.2).symm
    | none =>
      cases h2 : m.cell b a with
      | none => rfl
      | some w =>
        have := (hinv b hb hbr a w h2).2.2
        rw [h1] at this
        cases this
  have hsafe := JoinCluster_safe hab hj
  obtain ⟨m2, hm2, hA, hB, hC, hD, _⟩ := JoinCluster_spec hab m ha hb hmir hsafe
  rw [hj] at hm2
  cases hm2
  obtain ⟨m3, hm3, hdiag⟩ := JoinCluster_diag_alive hab m hmir hsym ha hb hsafe
  rw [hj] at hm3
  cases hm3
  obtain ⟨m4, hm4, hinv1⟩ := aliveSymmetric_join hinv hab ha hb har hbr hsafe
  rw [hj] at hm4
  cases hm4
  obtain ⟨_, _, hcap, _, _⟩ := JoinCluster_frame hj
  intro i hi hir j v hc
  rw [hcap] at hi
  have hib : i ≠ b := fun e => hir (e ▸ List.mem_cons_self b retired)
  have hir2 : i ∉ retired := fun e => hir (List.mem_cons_of_mem b e)
  have hjb : j ≠ b := by
    intro e
    have := (hinv1 i (hcap ▸ hi) hir j v hc).2.1
    exact this (e ▸ List.mem_cons_self b retired)
  by_cases hia : i = a
  · subst hia
    by_cases hji : j = i
    · subst hji
      rw [hdiag] at hc
      cases hc
      have h1 := alivePositive_getD hpos hi hir2 j
      have h2 := alivePositive_getD hpos hi hir2 b
      have h3 := alivePositive_getD hpos hb hbr b
      exact ⟨by linarith, fun h => absurd rfl h⟩
    · cases hbj : m.cell b j with
      | some w =>
        rw [(hB j w hji hjb hbj).1] at hc
        cases hc
        have h1 := (hpos b hb hbr j w hbj).2 hjb
        have h2 := alivePositive_getD hpos hi hir2 j
        exact ⟨by linarith, fun _ => by linarith⟩
      | none =>
        rw [(hC j hji hjb hbj).1] at hc
        exact hpos i hi hir2 j v hc
  · by_cases hja : j = a
    · subst hja
      cases hbi : m.cell b i with
      | some w =>
        rw [(hB i w hia hib hbi).2.1] at hc
        cases hc
        have h1 := (hpos b hb hbr i w hbi).2 hib
        have h2 := alivePositive_getD hpos ha har i
        exact ⟨by linarith, fun _ => by linarith⟩
      | none =>
        rw [(hC i hia hib hbi).2.1] at hc
        exact hpos i hi hir2 j v hc
    · rw [hD i j hia hib hja hjb] at hc
      exact hpos i hi hir2 j v hc

theorem reachablePlain_alivePositive {g : Graph} (hg : g.Simple)
    {m : SparseClusteringMatrix} {retired : List ℕ} (h : ReachablePlain g m retired) :
    AlivePositive m retired := by
  induction h with
  | start m hm =>
    obtain ⟨iv, rfl, hiv⟩ := init_some g m hm
    apply initWith_alivePositive
    intro hn
    obtain ⟨hE, rfl⟩ := hiv hn
    exact initvalue_pos g hE
  | join m retired a b m1 hr hab ha hb har hbr hj ih =>
    exact alivePositive_join (reachable_aliveSymmetric (reachablePlain_reachable hg hr)) ih
      hab ha hb har hbr hj
  | reorder m m1 retired _ hsame ih =>
    intro i hi hir j v hc
    rw [hsame.1] at hi
    rw [cell_eq_of_sameUpToOrder hsame] at hc
    exact ih i hi hir j v hc

theorem length_eq_offDiagonal_add (i : t_id) (l : List (t_id × t_value))
    (hnd : (lkeys l).Nodup) (hnz : ∀ e ∈ l, e.1 ≠ i → e.2 ≠ 0) :
    l.length = (l.filter (fun e => decide (e.1 ≠ i ∧ e.2 ≠ 0))).length +
      (if (lfind l i).isSome then 1 else 0) := by
  induction l with
  | nil => simp [lfind]
  | cons e r ih =>
    obtain ⟨k, v⟩ := e
    have hr : (lkeys r).Nodup := by
      simp only [lkeys, List.map_cons, List.nodup_cons] at hnd
      exact hnd.2
    have hk : k ∉ lkeys r := by
      simp only [lkeys, List.map_cons, List.nodup_cons] at hnd
      exact hnd.1
    have hih := ih hr (fun e he => hnz e (List.mem_cons_of_mem _ he))
    by_cases hki : k = i
    · subst hki
      have hnone : lfind r k = none := (lfind_eq_none_iff r k).2 hk
      rw [hnone] at hih
      simp only [Option.isSome_none, Bool.false_eq_true, if_false, add_zero] at hih
      simp [List.filter_cons, lfind, hih]
    · have hv : v ≠ 0 := hnz (k, v) (List.mem_cons_self _ r) hki
      simp only [List.length_cons, List.filter_cons, lfind, hki, if_false, ne_eq,
        not_false_eq_true, hv, and_self, decide_True, if_true]
      rw [hih]
      ring

/-! ## A merge that would add a key to the row under traversal -/

/-- A merge into `a` of a row `b` that has a self-entry and no entry for `a`
has no result. -/
theorem JoinCluster_hazard {a b : ℕ} (hab : a ≠ b) (m : SparseClusteringMatrix)
    {v : t_value} (hbb : m.cell b b = some v) (hna : m.cell b a = none) :
    JoinCluster m a b = none := by
  cases h : JoinCluster m a b with
  | none => rfl
  | some m1 =>
    rcases JoinCluster_safe hab h with h1 | ⟨u, hu⟩
    · rw [hbb] at h1
      cases h1
    · rw [hna] at hu
      cases hu

/-- The matrix that the constructor from a graph alone builds for the graph
with a loop at vertex 1 and the edge 1-2. -/
theorem loopGraph_matrix :
    ∃ m, init loopGraph = some m ∧ Symmetric m ∧ RowSumsCorrect m ∧
      m.capacity = 3 ∧
      (m.GetRow 1).find 1 = some (1 / 4) ∧ (m.GetRow 1).find 2 = some (1 / 4) ∧
      (m.GetRow 1).find 0 = none ∧ (m.GetRow 2).find 1 = some (1 / 4) := by
  decide!

/-! ## The claims -/

/-- C1: symmetry is an invariant of every reachable state.  In every state
reachable from either constructor on an undirected graph by `JoinCluster` calls
on distinct rows not yet retired, for all rows `i` and `j` that are not retired,
row `i` holds column `j` with the value `v` exactly when row `j` holds column
`i` with the value `v`; and every further such call, on rows `a` and `b` such
that row `b` has no self-entry or has an entry for `a`, returns a state, which
is again reachable. -/
theorem symmetry_of_reachable_states (m : SparseClusteringMatrix) (retired : List ℕ)
    (h : Reachable m retired) :
    (∀ i < m.capacity, ∀ j < m.capacity, i ∉ retired → j ∉ retired →
      ∀ v, (m.GetRow i).find j = some v ↔ (m.GetRow j).find i = some v) ∧
    (∀ a b, a ≠ b → a < m.capacity → b < m.capacity → a ∉ retired → b ∉ retired →
      ((m.GetRow b).find b = none ∨ ∃ u, (m.GetRow b).find a = some u) →
      ∃ m1, JoinCluster m a b = some m1 ∧ Reachable m1 (b :: retired)) := by
  have hinv := reachable_aliveSymmetric h
  constructor
  · intro i hi j hj hir hjr v
    constructor
    · intro hc
      exact (hinv i hi hir j v hc).2.2
    · intro hc
      exact (hinv j hj hjr i v hc).2.2
  · intro a b hab ha hb har hbr hsafe
    obtain ⟨m1, hm1, _⟩ := aliveSymmetric_join hinv hab ha hb har hbr hsafe
    exact ⟨m1, hm1, Reachable.join m retired a b m1 h hab ha hb har hbr hm1⟩

/-- Witness for C1: the state reached from the 4-cycle by `JoinCluster(0, 1)`;
row 1 has no self-entry. -/
theorem symmetry_of_reachable_states_witness :
    ∃ m0 m1, init cycle4 = some m0 ∧ JoinCluster m0 0 1 = some m1 ∧ Reachable m1 [1] ∧
      ∀ i < m1.capacity, ∀ j < m1.capacity, i ∉ [1] → j ∉ [1] →
        ∀ v, (m1.GetRow i).find j = some v ↔ (m1.GetRow j).find i = some v := by
  have hm0 := init_of_edges cycle4 (by decide)
  have h0 : Reachable _ [] := Reachable.plain cycle4 _ (by decide) (by decide) hm0
  obtain ⟨m1, hm1, hr⟩ := (symmetry_of_reachable_states _ [] h0).2 0 1
    (by decide) (by decide) (by decide) (by decide) (by decide) (Or.inl (by decide!))
  exact ⟨_, m1, hm0, hm1, hr, (symmetry_of_reachable_states m1 [1] hr).1⟩

/-- C2 (evaluation at the failing input): on the 4-cycle, which is symmetric and
has correct row sums after construction, `JoinCluster(0, 1)` leaves the
maintained row sum of the surviving row 0 at 1/2 while the entries of row 0 sum
to 3/8.  The difference 1/8 is the former value of the cell `(0, 1)`, as
`JoinCluster_row_sum_law` states for every merge that returns. -/
theorem joinCluster_cycle4_row_sum_mismatch :
    ∃ m, init cycle4 = some m ∧ Symmetric m ∧ RowSumsCorrect m ∧
    ∃ m1, JoinCluster m 0 1 = some m1 ∧
      m1.GetRowSum 0 = 1 / 2 ∧ m1.rowEntrySum 0 = 3 / 8 ∧
      (m1.GetRow 0).entries = [(3, 1 / 8), (0, 1 / 8), (2, 1 / 8)] := by
  decide!

/-- C3 (counterexample): the graph with one vertex and no edge.  Its initial
value is the quotient `1.0 / 0`, and the constructor from the graph alone
multiplies it by the entry count 0 of the empty row 0: the row sum it stores is
not a number, so it is not the sum 0 of the entries of the row, and `init`
yields no state. -/
theorem init_without_edges :
    singleVertex.get_edge_count = 0 ∧ initvalue singleVertex = none ∧
    init singleVertex = none ∧
    ¬ ∃ m, init singleVertex = some m ∧
      ∀ i < singleVertex.get_vertex_count, m.GetRowSum i = m.rowEntrySum i := by
  have h : init singleVertex = none := init_none singleVertex rfl (by decide)
  refine ⟨rfl, rfl, h, ?_⟩
  rintro ⟨m, hm, _⟩
  rw [h] at hm
  cases hm

/-- C3 (amended): row-sum correctness holds after construction.  For every
graph with at least one edge (duplicates in neighbor lists included) the
constructor from the graph alone returns a matrix in which the maintained row
sum of every row equals the sum of the entries of that row; for every graph
with a valid partition the partition constructor returns a matrix with the same
property; and so has every matrix that either constructor returns at all. -/
theorem row_sums_correct_after_construction (g : Graph) :
    (1 ≤ g.get_edge_count →
      ∃ m, init g = some m ∧
        ∀ i < g.get_vertex_count, m.GetRowSum i = m.rowEntrySum i) ∧
    (∀ p : Partition, g.NeighborsInRange → p.Valid g →
      ∃ m, mkWithPartition g p = some m ∧
        ∀ i < g.get_vertex_count, m.GetRowSum i = m.rowEntrySum i) ∧
    (∀ (p : Partition) (m : SparseClusteringMatrix), mkWithPartition g p = some m →
      ∀ i < g.get_vertex_count, m.GetRowSum i = m.rowEntrySum i) ∧
    (∀ m : SparseClusteringMatrix, init g = some m →
      ∀ i < g.get_vertex_count, m.GetRowSum i = m.rowEntrySum i) := by
  have hany : ∀ (p : Partition) (m : SparseClusteringMatrix), mkWithPartition g p = some m →
      ∀ i < g.get_vertex_count, m.GetRowSum i = m.rowEntrySum i := by
    intro p m hm i hi
    obtain ⟨hcap, _, _, _⟩ := mkWithPartition_some hm
    exact mkWithPartition_rowSumsCorrect hm i (hcap ▸ hi)
  have hplain : ∀ m : SparseClusteringMatrix, init g = some m →
      ∀ i < g.get_vertex_count, m.GetRowSum i = m.rowEntrySum i := by
    intro m hm i hi
    obtain ⟨iv, rfl, _⟩ := init_some g m hm
    exact initWith_rowSumsCorrect g iv i hi
  refine ⟨?_, ?_, hany, hplain⟩
  · intro hE
    exact ⟨_, init_of_edges g hE, hplain _ (init_of_edges g hE)⟩
  · intro p hg hp
    obtain ⟨m, hm, _⟩ := mkWithPartition_valid g p hg hp
    exact ⟨m, hm, hany p m hm⟩

/-- Witness for C3 (amended): the 4-cycle built from the graph alone, and the
path 0-1-2 with the groups 0,1 and 2. -/
theorem row_sums_correct_after_construction_witness :
    (1 ≤ cycle4.get_edge_count ∧
      ∃ m, init cycle4 = some m ∧
        ∀ i < cycle4.get_vertex_count, m.GetRowSum i = m.rowEntrySum i) ∧
    path3.NeighborsInRange ∧ path3Partition.Valid path3 ∧
    ∃ m, mkWithPartition path3 path3Partition = some m ∧
      ∀ i < path3.get_vertex_count, m.GetRowSum i = m.rowEntrySum i :=
  ⟨⟨by decide, (row_sums_correct_after_construction cycle4).1 (by decide)⟩,
    by decide, by decide,
    (row_sums_correct_after_construction path3).2.1 path3Partition (by decide) (by decide)⟩

/-- C4: the total mass is 1 after construction.  For a graph with at least one
edge whose neighbor-list lengths sum to twice the edge count, the maintained row
sums add up to exactly 1 after the constructor from the graph alone when no
neighbor list has duplicates, and after the partition constructor for every
valid partition; both constructors return. -/
theorem total_mass_one_after_construction (g : Graph) (hE : 1 ≤ g.get_edge_count)
    (hdeg : g.degreeSum = 2 * g.get_edge_count) :
    (g.NoDuplicates → ∃ m, init g = some m ∧ totalRowSum m = 1) ∧
    (∀ p : Partition, g.NeighborsInRange → p.Valid g →
      ∃ m, mkWithPartition g p = some m ∧ totalRowSum m = 1) := by
  constructor
  · intro hnd
    refine ⟨_, init_of_edges g hE, ?_⟩
    rw [initWith_totalRowSum g _ hnd]
    exact initvalue_mul_degreeSum g hE hdeg
  · intro p hg hp
    obtain ⟨m, hm, htot⟩ := mkWithPartition_totalRowSum g p hg hp
    rw [initvalue_getD g hE] at htot
    exact ⟨m, hm, htot.trans (initvalue_mul_degreeSum g hE hdeg)⟩

/-- Witness for C4: the triangle, and the path 0-1-2 with the groups 0,1 and 2. -/
theorem total_mass_one_after_construction_witness :
    (∃ m, init triangle = some m ∧ totalRowSum m = 1) ∧
    ∃ m, mkWithPartition path3 path3Partition = some m ∧ totalRowSum m = 1 :=
  ⟨(total_mass_one_after_construction triangle (by decide) (by decide)).1 (by decide),
    (total_mass_one_after_construction path3 (by decide) (by decide)).2 path3Partition
      (by decide) (by decide)⟩

/-- C5: a merge conserves the total of the row sums.  For every matrix state
and distinct `a` and `b`, a returning `JoinCluster(a, b)` leaves the sum of the
maintained row sums unchanged and sets the row sum of `a` to the former row sum
of `a` plus that of `b`; hence every returning sequence of merges of distinct
rows leaves the total unchanged. -/
theorem merge_conserves_total_row_sum (m : SparseClusteringMatrix) :
    (∀ a b m1, a ≠ b → JoinCluster m a b = some m1 →
      totalRowSum m1 = totalRowSum m ∧
      m1.GetRowSum a = m.GetRowSum a + m.GetRowSum b) ∧
    (∀ ops m1, (∀ q ∈ ops, q.1 ≠ q.2) → JoinClusters m ops = some m1 →
      totalRowSum m1 = totalRowSum m) := by
  constructor
  · intro a b m1 hab h
    refine ⟨JoinCluster_totalRowSum hab h, ?_⟩
    obtain ⟨_, _, _, _, hsum⟩ := JoinCluster_frame h
    show m1.row_sums_ a = _
    rw [hsum a, if_neg hab, if_pos rfl]
    rfl
  · intro ops m1 hne h
    exact JoinClusters_totalRowSum ops m m1 hne h

/-- Witness for C5: two successive merges on the 4-cycle return a state whose
total is the total after construction, which is 1. -/
theorem merge_conserves_total_row_sum_witness :
    ∃ m0 m1, init cycle4 = some m0 ∧ JoinClusters m0 [(0, 1), (0, 2)] = some m1 ∧
      totalRowSum m1 = totalRowSum m0 ∧ totalRowSum m0 = 1 := by
  have hsome : ∃ m0, init cycle4 = some m0 ∧ totalRowSum m0 = 1 ∧
      (JoinClusters m0 [(0, 1), (0, 2)]).isSome = true := by decide!
  obtain ⟨m0, hm0, htot, hjoin⟩ := hsome
  obtain ⟨m1, hm1⟩ := Option.isSome_iff_exists.1 hjoin
  exact ⟨m0, m1, hm0, hm1,
    (merge_conserves_total_row_sum m0).2 [(0, 1), (0, 2)] m1 (by decide) hm1, htot⟩

/-- C6 (evaluation at the failing input): on the 4-cycle the stored entries sum
to 1 before `JoinCluster(0, 1)` and the entries of the rows other than the
retired row 1 sum to 7/8 after it.  The partition constructor, on the path
0-1-2 with the groups 0,1 and 2, stores 1/2 on the diagonal of row 0, whereas
`JoinCluster(0, 1)` on the same path built without a partition stores 1/4. -/
theorem joinCluster_cycle4_entry_mass_lost :
    (∃ m, init cycle4 = some m ∧ Symmetric m ∧ totalEntrySum m = 1 ∧
      ∃ m1, JoinCluster m 0 1 = some m1 ∧
        m1.rowEntrySum 0 + m1.rowEntrySum 2 + m1.rowEntrySum 3 = 7 / 8) ∧
    (∃ m2, mkWithPartition path3 path3Partition = some m2 ∧
      (m2.GetRow 0).find 0 = some (1 / 2)) ∧
    (∃ m, init path3 = some m ∧ ∃ m3, JoinCluster m 0 1 = some m3 ∧
      (m3.GetRow 0).find 0 = some (1 / 4)) := by
  decide!

/-- C7: the constructor from a graph alone fills every adjacency cell with
`1 / (2 |E|)`.  For a graph with at least one edge and no duplicate in any
neighbor list, the constructor returns a matrix in which row `i` holds exactly
the columns of the neighbor list of `i`, each with the value `1 / (2 |E|)`; its
entry count is the number of neighbors of `i` and its row sum is that number
divided by `2 |E|`. -/
theorem plain_construction_cells (g : Graph) (hE : 1 ≤ g.get_edge_count)
    (hnd : g.NoDuplicates) (i : ℕ) (hi : i < g.get_vertex_count) :
    ∃ m, init g = some m ∧
      (∀ j, (m.GetRow i).find j =
        if j ∈ g.GetNeighbors i then some (1 / (2 * (g.get_edge_count : t_value)))
        else none) ∧
      m.GetRowEntries i = (g.GetNeighbors i).length ∧
      m.GetRowSum i =
        ((g.GetNeighbors i).length : t_value) / (2 * (g.get_edge_count : t_value)) := by
  refine ⟨_, init_of_edges g hE, ?_, initWith_size g _ hnd i hi, ?_⟩
  · intro j
    have h := initWith_cell g (1 / (2 * (g.get_edge_count : t_value))) i j
    simp only [hi, true_and] at h
    exact h
  · show (initWith g (1 / (2 * (g.get_edge_count : t_value)))).row_sums_ i = _
    rw [initWith_row_sums, if_pos hi, initWith_size g _ hnd i hi]
    ring

/-- Witness for C7: row 0 of the triangle has two entries of 1/6 and row sum
1/3. -/
theorem plain_construction_cells_witness :
    ∃ m, init triangle = some m ∧
      (m.GetRow 0).find 1 = some (1 / 6) ∧ (m.GetRow 0).find 2 = some (1 / 6) ∧
      m.GetRowEntries 0 = 2 ∧ m.GetRowSum 0 = 1 / 3 := by
  obtain ⟨m, hm, h1, h2, h3⟩ := plain_construction_cells triangle (by decide) (by decide) 0
    (by decide)
  refine ⟨m, hm, ?_, ?_, h2, ?_⟩
  · rw [h1 1]
    decide!
  · rw [h1 2]
    decide!
  · rw [h3]
    decide!

/-- C8: the partition constructor accumulates one initial value per directed
adjacency.  For a graph with at least one edge and a valid partition, the cell
`(r, s)` is present exactly when some vertex `i` with representative `r` has a
neighbor-list element `j` with representative `s`, and a present cell holds the
number of such pairs of a vertex and a neighbor-list position, divided by
`2 |E|`. -/
theorem partition_construction_cells (g : Graph) (p : Partition)
    (hE : 1 ≤ g.get_edge_count) (hg : g.NeighborsInRange) (hp : p.Valid g) :
    ∃ m, mkWithPartition g p = some m ∧ ∀ r s,
      ((∃ v, (m.GetRow r).find s = some v) ↔
        ∃ i < g.get_vertex_count, p.rep i = r ∧ ∃ j ∈ g.GetNeighbors i, p.rep j = s) ∧
      (∀ v, (m.GetRow r).find s = some v →
        v = ((repPairs g p).count (r, s) : t_value) / (2 * (g.get_edge_count : t_value))) := by
  obtain ⟨m, hm, hrows⟩ := mkWithPartition_valid g p hg hp
  rw [initvalue_getD g hE] at hrows
  refine ⟨m, hm, ?_⟩
  intro r s
  have hfind : (m.GetRow r).find s =
      if (repPairs g p).count (r, s) = 0 then none
      else some (((repPairs g p).count (r, s) : t_value) *
        (1 / (2 * (g.get_edge_count : t_value)))) := by
    show (m.rows_ r).find s = _
    rw [hrows, accumulateAll_find]
  constructor
  · rw [← mem_repPairs, hfind]
    constructor
    · rintro ⟨v, hv⟩
      split at hv
      · cases hv
      · rename_i hne
        exact List.count_pos_iff.1 (Nat.pos_of_ne_zero hne)
    · intro hmem
      have hne : (repPairs g p).count (r, s) ≠ 0 :=
        Nat.pos_iff_ne_zero.1 (List.count_pos_iff.2 hmem)
      rw [if_neg hne]
      exact ⟨_, rfl⟩
  · intro v hv
    rw [hfind] at hv
    split at hv
    · cases hv
    · cases hv
      ring

/-- Witness for C8: the path 0-1-2 with the groups 0,1 and 2 gives
`E[0][0] = 1/2` and `E[0][2] = E[2][0] = 1/4`, with row sums 3/4 and 1/4. -/
theorem partition_construction_cells_witness :
    ∃ m, mkWithPartition path3 path3Partition = some m ∧
      (m.GetRow 0).find 0 = some (1 / 2) ∧ (m.GetRow 0).find 2 = some (1 / 4) ∧
      (m.GetRow 2).find 0 = some (1 / 4) ∧ m.GetRowSum 0 = 3 / 4 ∧ m.GetRowSum 2 = 1 / 4 := by
  obtain ⟨m, hm, hcells⟩ := partition_construction_cells path3 path3Partition (by decide)
    (by decide) (by decide)
  have key : ∀ r s (x : t_value),
      (∃ i < path3.get_vertex_count, path3Partition.rep i = r ∧
        ∃ j ∈ path3.GetNeighbors i, path3Partition.rep j = s) →
      ((repPairs path3 path3Partition).count (r, s) : t_value) /
        (2 * (path3.get_edge_count : t_value)) = x →
      (m.GetRow r).find s = some x := by
    intro r s x hex hval
    obtain ⟨v, hv⟩ := (hcells r s).1.2 hex
    rw [hv, (hcells r s).2 v hv, hval]
  have hsums : ∀ m1, mkWithPartition path3 path3Partition = some m1 →
      m1.GetRowSum 0 = 3 / 4 ∧ m1.GetRowSum 2 = 1 / 4 := by decide!
  refine ⟨m, hm, key 0 0 _ (by decide) (by decide!), key 0 2 _ (by decide) (by decide!),
    key 2 0 _ (by decide) (by decide!), hsums m hm⟩

/-- C9 (evaluation at the failing input, and the law on the other inputs).  The
constructor from a graph alone, on the graph with a loop at vertex 1 and the
edge 1-2, returns a symmetric matrix in which row 1 has a self-entry and no
entry for column 0; `JoinCluster(0, 1)` on it has no result, because the visit
of column 1 writes `rows_[1][0]` into the row under traversal.  For every symmetric
matrix and distinct rows `a` and `b` such that row `b` has no self-entry or has
an entry for `a`, `JoinCluster(a, b)` returns a state in which the maintained
row sum of `b` is 0 and row `a` holds no entry for column `b`. -/
theorem retired_row_postcondition :
    (∃ m, init loopGraph = some m ∧ Symmetric m ∧
      (m.GetRow 1).find 1 = some (1 / 4) ∧ (m.GetRow 1).find 0 = none ∧
      JoinCluster m 0 1 = none) ∧
    ∀ (m : SparseClusteringMatrix) (a b : ℕ), Symmetric m → a ≠ b →
      a < m.capacity → b < m.capacity →
      ((m.GetRow b).find b = none ∨ ∃ u, (m.GetRow b).find a = some u) →
      ∃ m1, JoinCluster m a b = some m1 ∧ m1.GetRowSum b = 0 ∧
        (m1.GetRow a).find b = none := by
  refine ⟨?_, ?_⟩
  · obtain ⟨m, hm, hs, _, _, h00, _, h03, _⟩ := loopGraph_matrix
    exact ⟨m, hm, hs, h00, h03, JoinCluster_hazard (by decide) m h00 h03⟩
  intro m a b hs hab ha hb hsafe
  obtain ⟨m1, hm1, hA, _⟩ :=
    JoinCluster_spec hab m ha hb (rowMirrored_of_symmetric hs hb) hsafe
  obtain ⟨_, _, _, _, hsum⟩ := JoinCluster_frame hm1
  refine ⟨m1, hm1, ?_, hA⟩
  show m1.row_sums_ b = 0
  rw [hsum b, if_pos rfl]

/-- Witness for C9: `JoinCluster(0, 1)` on the 4-cycle, where row 1 has no
self-entry. -/
theorem retired_row_postcondition_witness :
    ∃ m, init cycle4 = some m ∧ Symmetric m ∧
      ∃ m1, JoinCluster m 0 1 = some m1 ∧ m1.GetRowSum 1 = 0 ∧
        (m1.GetRow 0).find 1 = none := by
  have hm := init_of_edges cycle4 (by decide)
  exact ⟨_, hm, by decide!, retired_row_postcondition.2 _ 0 1 (by decide!) (by decide)
    (by decide) (by decide) (Or.inl (by decide!))⟩

/-- C10 (evaluation at the failing input, and the law on the other inputs).
The constructor from a graph alone, on the graph with a loop at vertex 1 and
the edge 1-2, returns a symmetric matrix in which row 2 holds column 1;
`JoinCluster(0, 1)` on it has no result, because the visit of column 1 writes
`rows_[1][0]` into the row under traversal.  For every symmetric matrix and distinct rows `a` and
`b` such that row `b` has no self-entry or has an entry for `a`,
`JoinCluster(a, b)` returns a state in which no row other than `b` holds an
entry for column `b`. -/
theorem retired_column_removed :
    (∃ m, init loopGraph = some m ∧ Symmetric m ∧
      (m.GetRow 2).find 1 = some (1 / 4) ∧ JoinCluster m 0 1 = none) ∧
    ∀ (m : SparseClusteringMatrix) (a b : ℕ), Symmetric m → a ≠ b →
      a < m.capacity → b < m.capacity →
      ((m.GetRow b).find b = none ∨ ∃ u, (m.GetRow b).find a = some u) →
      ∃ m1, JoinCluster m a b = some m1 ∧
        ∀ i < m1.capacity, i ≠ b → (m1.GetRow i).find b = none := by
  refine ⟨?_, ?_⟩
  · obtain ⟨m, hm, hs, _, _, h00, _, h03, h20⟩ := loopGraph_matrix
    exact ⟨m, hm, hs, h20, JoinCluster_hazard (by decide) m h00 h03⟩
  intro m a b hs hab ha hb hsafe
  obtain ⟨m1, hm1, hA, hB, hC, _⟩ :=
    JoinCluster_spec hab m ha hb (rowMirrored_of_symmetric hs hb) hsafe
  obtain ⟨_, _, hcap, _, _⟩ := JoinCluster_frame hm1
  refine ⟨m1, hm1, ?_⟩
  intro i hi hib
  rw [hcap] at hi
  by_cases hia : i = a
  · subst hia
    exact hA
  · cases hbi : m.cell b i with
    | some w => exact (hB i w hia hib hbi).2.2
    | none =>
      have h3 : m1.cell i b = m.cell i b := (hC i hia hib hbi).2.2
      show m1.cell i b = none
      rw [h3]
      cases hib2 : m.cell i b with
      | none => rfl
      | some v =>
        have := (symmetric_cell hs hi hib2).2
        rw [hbi] at this
        cases this

/-- Witness for C10: on the 4-cycle, after `JoinCluster(0, 1)` column 1 appears
in none of the rows 0, 2 and 3. -/
theorem retired_column_removed_witness :
    ∃ m, init cycle4 = some m ∧ Symmetric m ∧
      ∃ m1, JoinCluster m 0 1 = some m1 ∧
        ∀ i < m1.capacity, i ≠ 1 → (m1.GetRow i).find 1 = none := by
  have hm := init_of_edges cycle4 (by decide)
  exact ⟨_, hm, by decide!, retired_column_removed.2 _ 0 1 (by decide!) (by decide)
    (by decide) (by decide) (Or.inl (by decide!))⟩

/-- C11 (evaluation at the failing input, and the law on the other inputs).
The constructor from a graph alone, on the graph with a loop at vertex 1 and
the edge 1-2, returns a symmetric matrix in which row 1 holds column 2 with the
value 1/4; `JoinCluster(0, 1)` on it has no result, because the visit of column
1 writes `rows_[1][0]` into the row under traversal.  For a symmetric matrix, distinct
rows `a` and `b` such that row `b` has no self-entry or has an entry for `a`,
and a column `c` other than `a` and `b` that row `b` holds with the value `v`,
`JoinCluster(a, b)` returns a state in which the cells `(a, c)` and `(c, a)` are
both present and hold `v` plus the former value of `(a, c)` when row `a` had
that entry, and `v` otherwise. -/
theorem surviving_row_absorbs :
    (∃ m, init loopGraph = some m ∧ Symmetric m ∧
      (m.GetRow 1).find 2 = some (1 / 4) ∧ JoinCluster m 0 1 = none) ∧
    ∀ (m : SparseClusteringMatrix) (a b c : ℕ) (v : t_value), Symmetric m → a ≠ b →
      a < m.capacity → b < m.capacity →
      ((m.GetRow b).find b = none ∨ ∃ u, (m.GetRow b).find a = some u) →
      c ≠ a → c ≠ b → (m.GetRow b).find c = some v →
      ∃ m1, JoinCluster m a b = some m1 ∧
        (∀ x, (m.GetRow a).find c = some x →
          (m1.GetRow a).find c = some (v + x) ∧ (m1.GetRow c).find a = some (v + x)) ∧
        ((m.GetRow a).find c = none →
          (m1.GetRow a).find c = some v ∧ (m1.GetRow c).find a = some v) := by
  refine ⟨?_, ?_⟩
  · obtain ⟨m, hm, hs, _, _, h00, h02, h03, _⟩ := loopGraph_matrix
    exact ⟨m, hm, hs, h02, JoinCluster_hazard (by decide) m h00 h03⟩
  intro m a b c v hs hab ha hb hsafe hca hcb hv
  obtain ⟨m1, hm1, _, hB, _⟩ :=
    JoinCluster_spec hab m ha hb (rowMirrored_of_symmetric hs hb) hsafe
  obtain ⟨g1, g2, _⟩ := hB c v hca hcb hv
  refine ⟨m1, hm1, ?_, ?_⟩
  · intro x hx
    have hx2 : m.cell a c = some x := hx
    rw [hx2] at g1 g2
    exact ⟨g1, g2⟩
  · intro hx
    have hx2 : m.cell a c = none := hx
    rw [hx2] at g1 g2
    simp only [Option.getD_none, add_zero] at g1 g2
    exact ⟨g1, g2⟩

/-- Witness for C11: on the triangle, `JoinCluster(0, 1)` adds the entry 1/6 of
row 1 for column 2 to the entry 1/6 of row 0, giving 1/3 in both `(0, 2)` and
`(2, 0)`. -/
theorem surviving_row_absorbs_witness :
    ∃ m m1, init triangle = some m ∧ JoinCluster m 0 1 = some m1 ∧
      (m1.GetRow 0).find 2 = some (1 / 6 + 1 / 6) ∧
      (m1.GetRow 2).find 0 = some (1 / 6 + 1 / 6) := by
  have h0 : ∃ m, init triangle = some m ∧ Symmetric m ∧ 0 < m.capacity ∧ 1 < m.capacity ∧
      (m.GetRow 1).find 1 = none ∧ (m.GetRow 1).find 2 = some (1 / 6) ∧
      (m.GetRow 0).find 2 = some (1 / 6) := by decide!
  obtain ⟨m, hm, hs, ha, hb, h11, h12, h02⟩ := h0
  obtain ⟨m1, hm1, hpresent, _⟩ := surviving_row_absorbs.2 m 0 1 2 (1 / 6)
    hs (by decide) ha hb (Or.inl h11) (by decide) (by decide) h12
  exact ⟨m, m1, hm, hm1, hpresent (1 / 6) h02⟩

/-- C13 (evaluation at the failing input, and the law on the other inputs).
The constructor from a graph alone, on the graph with a loop at vertex 1 and
the edge 1-2, returns a symmetric matrix in which row 1 has a self-entry and no
entry for column 0; `JoinCluster(0, 1)` on it has no result, because the visit
of column 1 writes `rows_[1][0]`, which adds a key to the row under traversal.  For a
symmetric matrix and distinct rows `a` and `b` such that row `b` has no
self-entry or has an entry for `a`, `JoinCluster(a, b)` returns a state in
which every column that row `b` held before is still held by row `b`, the row
sum of `b` is 0, and the entry count of row `b` is at least what it was. -/
theorem retired_row_keeps_entries :
    (∃ m, init loopGraph = some m ∧ Symmetric m ∧
      (m.GetRow 1).find 1 = some (1 / 4) ∧ (m.GetRow 1).find 0 = none ∧
      JoinCluster m 0 1 = none) ∧
    ∀ (m : SparseClusteringMatrix) (a b : ℕ), Symmetric m → a ≠ b →
      a < m.capacity → b < m.capacity →
      ((m.GetRow b).find b = none ∨ ∃ u, (m.GetRow b).find a = some u) →
      ∃ m1, JoinCluster m a b = some m1 ∧
        (∀ j, (∃ v, (m.GetRow b).find j = some v) → ∃ w, (m1.GetRow b).find j = some w) ∧
        m1.GetRowSum b = 0 ∧ m.GetRowEntries b ≤ m1.GetRowEntries b := by
  refine ⟨?_, ?_⟩
  · obtain ⟨m, hm, hs, _, _, h00, _, h03, _⟩ := loopGraph_matrix
    exact ⟨m, hm, hs, h00, h03, JoinCluster_hazard (by decide) m h00 h03⟩
  intro m a b hs hab ha hb hsafe
  obtain ⟨m1, hm1, _⟩ :=
    JoinCluster_spec hab m ha hb (rowMirrored_of_symmetric hs hb) hsafe
  obtain ⟨_, _, _, _, hsum⟩ := JoinCluster_frame hm1
  have hkept : ∀ j, (∃ v, (m.GetRow b).find j = some v) →
      ∃ w, (m1.GetRow b).find j = some w :=
    fun j hj => JoinCluster_row_b_kept hab hm1 j hj
  refine ⟨m1, hm1, hkept, ?_, size_le_of_keys_subset _ _ hkept⟩
  show m1.row_sums_ b = 0
  rw [hsum b, if_pos rfl]

/-- Witness for C13: on the 4-cycle, after `JoinCluster(0, 1)` row 1 still
holds its two entries. -/
theorem retired_row_keeps_entries_witness :
    ∃ m, init cycle4 = some m ∧ Symmetric m ∧ (m.GetRow 1).find 1 = none ∧
      ∃ m1, JoinCluster m 0 1 = some m1 ∧
        (∀ j, (∃ v, (m.GetRow 1).find j = some v) → ∃ w, (m1.GetRow 1).find j = some w) ∧
        m1.GetRowSum 1 = 0 ∧ m.GetRowEntries 1 ≤ m1.GetRowEntries 1 := by
  have h0 : ∃ m, init cycle4 = some m ∧ Symmetric m ∧ 0 < m.capacity ∧ 1 < m.capacity ∧
      (m.GetRow 1).find 1 = none := by decide!
  obtain ⟨m, hm, hs, ha, hb, h11⟩ := h0
  exact ⟨m, hm, hs, h11,
    retired_row_keeps_entries.2 m 0 1 hs (by decide) ha hb (Or.inl h11)⟩

/-- C14 (evaluation at the failing input, and the law on the other inputs).
The constructor from a graph alone, on the graph with a loop at vertex 1 and
the edge 1-2, returns a symmetric matrix in which row 1 has the self-entry 1/4
and no entry for column 0; `JoinCluster(0, 1)` on it has no result, because the
visit of column 1 writes `rows_[1][0]`, which adds a key to the row under
traversal, so that row 0 gets no diagonal entry.  For a symmetric matrix `m` and distinct
rows `a` and `b` such that row `b` has no self-entry or has an entry for `a`,
in whatever order the entries of the rows are iterated (`morder` is `m` with
its rows in any order), `JoinCluster(a, b)` returns a state in which row `a`
has a diagonal entry whose value is the former `E[a][a] + E[a][b] + E[b][b]`,
an absent entry counting as 0. -/
theorem diagonal_after_merge :
    (∃ m, init loopGraph = some m ∧ Symmetric m ∧
      (m.GetRow 1).find 1 = some (1 / 4) ∧ (m.GetRow 1).find 0 = none ∧
      JoinCluster m 0 1 = none) ∧
    ∀ (m morder : SparseClusteringMatrix) (a b : ℕ), Symmetric m →
      SameUpToOrder m morder → a ≠ b → a < m.capacity → b < m.capacity →
      ((m.GetRow b).find b = none ∨ ∃ u, (m.GetRow b).find a = some u) →
      ∃ m1, JoinCluster morder a b = some m1 ∧
        (m1.GetRow a).find a =
          some (((m.GetRow a).find a).getD 0 + ((m.GetRow a).find b).getD 0 +
            ((m.GetRow b).find b).getD 0) := by
  refine ⟨?_, ?_⟩
  · obtain ⟨m, hm, hs, _, _, h00, _, h03, _⟩ := loopGraph_matrix
    exact ⟨m, hm, hs, h00, h03, JoinCluster_hazard (by decide) m h00 h03⟩
  intro m morder a b hs hord hab ha hb hsafe
  have hs2 := symmetric_of_sameUpToOrder hs hord
  have hsafe2 : morder.cell b b = none ∨ ∃ u, morder.cell b a = some u := by
    rw [cell_eq_of_sameUpToOrder hord, cell_eq_of_sameUpToOrder hord]
    exact hsafe
  obtain ⟨m1, hm1, hdiag⟩ :=
    JoinCluster_diag hab morder hs2 (hord.1 ▸ ha) (hord.1 ▸ hb) hsafe2
  refine ⟨m1, hm1, ?_⟩
  rw [cell_eq_of_sameUpToOrder hord, cell_eq_of_sameUpToOrder hord,
    cell_eq_of_sameUpToOrder hord] at hdiag
  exact hdiag

/-- Witness for C14: row 0 holds the self-entry 1/2 and the entry 1/4 for
column 2; merging row 0 into row 2 gives the diagonal 0 + 1/4 + 1/2 of row 2,
whether column 0 or column 2 is visited first. -/
theorem diagonal_after_merge_witness :
    (∃ m1, JoinCluster selfLoopMatrix 2 0 = some m1 ∧
      (m1.GetRow 2).find 2 = some (0 + 1 / 4 + 1 / 2)) ∧
    (∃ m1, JoinCluster selfLoopMatrixReordered 2 0 = some m1 ∧
      (m1.GetRow 2).find 2 = some (0 + 1 / 4 + 1 / 2)) := by
  have hsym : Symmetric selfLoopMatrix := by decide!
  have hrefl : SameUpToOrder selfLoopMatrix selfLoopMatrix :=
    ⟨rfl, rfl, rfl, fun _ => List.Perm.refl _⟩
  have hswap : SameUpToOrder selfLoopMatrix selfLoopMatrixReordered := by
    refine ⟨rfl, rfl, rfl, ?_⟩
    intro i
    by_cases h0 : i = 0
    · subst h0
      exact List.Perm.swap _ _ _
    · by_cases h2 : i = 2
      · subst h2
        exact List.Perm.refl _
      · simp [selfLoopMatrix, selfLoopMatrixReordered, h0, h2]
  have hvals : ((selfLoopMatrix.GetRow 2).find 2).getD 0 = 0 ∧
      ((selfLoopMatrix.GetRow 2).find 0).getD 0 = 1 / 4 ∧
      ((selfLoopMatrix.GetRow 0).find 0).getD 0 = 1 / 2 := by decide!
  have hsafe : (selfLoopMatrix.GetRow 0).find 0 = none ∨
      ∃ u, (selfLoopMatrix.GetRow 0).find 2 = some u := Or.inr ⟨1 / 4, by decide!⟩
  obtain ⟨m1, hm1, hd1⟩ := diagonal_after_merge.2 selfLoopMatrix selfLoopMatrix 2 0 hsym
    hrefl (by decide) (by decide) (by decide) hsafe
  obtain ⟨m2, hm2, hd2⟩ := diagonal_after_merge.2 selfLoopMatrix selfLoopMatrixReordered 2 0
    hsym hswap (by decide) (by decide) (by decide) hsafe
  rw [hvals.1, hvals.2.1, hvals.2.2] at hd1 hd2
  exact ⟨⟨m1, hm1, hd1⟩, ⟨m2, hm2, hd2⟩⟩

/-- C15: the partition constructor uses only representative rows and columns.
For a graph and a valid partition, the constructor returns a matrix in which
every stored column key is the first listed vertex id of some group, and every
row whose index is not the first listed id of a group is empty and has the row
sum 0. -/
theorem partition_uses_representatives (g : Graph) (p : Partition)
    (hg : g.NeighborsInRange) (hp : p.Valid g) :
    ∃ m, mkWithPartition g p = some m ∧
      (∀ r s v, (m.GetRow r).find s = some v →
        ∃ c ∈ p.get_partition_vector, c.head? = some s) ∧
      (∀ r, (¬ ∃ c ∈ p.get_partition_vector, c.head? = some r) →
        (m.GetRow r).entries = [] ∧ m.GetRowSum r = 0) := by
  obtain ⟨m, hm, hrows⟩ := mkWithPartition_valid g p hg hp
  obtain ⟨_, _, hsum, _⟩ := mkWithPartition_some hm
  have hmem : ∀ r s v, (m.GetRow r).find s = some v → (r, s) ∈ repPairs g p := by
    intro r s v hv
    have hv2 : (m.rows_ r).find s = some v := hv
    rw [hrows, accumulateAll_find] at hv2
    split at hv2
    · cases hv2
    · rename_i hne
      exact List.count_pos_iff.1 (Nat.pos_of_ne_zero hne)
  refine ⟨m, hm, ?_, ?_⟩
  · intro r s v hv
    obtain ⟨i, hi, _, j, hj, hrj⟩ := (mem_repPairs g p r s).1 (hmem r s v hv)
    rw [← hrj]
    exact rep_is_head g p hp j (hg i hi j hj)
  · intro r hr
    have hempty : (m.GetRow r).entries = [] := by
      apply entries_eq_nil_of_find
      intro k
      cases hk : (m.GetRow r).find k with
      | none => rfl
      | some v =>
        exfalso
        obtain ⟨i, hi, hri, _⟩ := (mem_repPairs g p r k).1 (hmem r k v hk)
        rw [← hri] at hr
        exact hr (rep_is_head g p hp i hi)
    refine ⟨hempty, ?_⟩
    show m.row_sums_ r = 0
    rw [hsum r]
    split
    · have h2 : (m.rows_ r).entries = [] := hempty
      simp [t_row_value_map.entrySum, lsum, h2]
    · rfl

/-- Witness for C15: for the path 0-1-2 with the groups 0,1 and 2, row 1 is
empty with row sum 0 and every stored column is 0 or 2. -/
theorem partition_uses_representatives_witness :
    ∃ m, mkWithPartition path3 path3Partition = some m ∧
      (∀ r s v, (m.GetRow r).find s = some v →
        ∃ c ∈ path3Partition.get_partition_vector, c.head? = some s) ∧
      (m.GetRow 1).entries = [] ∧ m.GetRowSum 1 = 0 := by
  obtain ⟨m, hm, hcols, hrows⟩ := partition_uses_representatives path3 path3Partition
    (by decide) (by decide)
  exact ⟨m, hm, hcols, hrows 1 (by decide)⟩

/-- C16 (evaluation at the failing input, and the law on the other inputs).
The constructor from a graph alone, on the graph with a loop at vertex 1 and
the edge 1-2, returns a symmetric matrix in which row 1 has a self-entry and no
entry for column 0; on it `JoinCluster(0, 1)` has no result, and neither has
the visit of column 1, which writes `rows_[1][0]` and so adds a key to the row
under traversal: the merge is not total under the symmetry precondition.  For a
symmetric matrix and distinct rows `a` and `b` such that row `b` has no
self-entry or has an entry for `a`, `JoinCluster(a, b)` returns; and at every
visit of a column other than `b`, whatever was visited before, the loop has
returned so far, the entry for column `b` is present in the row of the visited
column when it is looked up (after the two writes of that visit), and the visit
returns. -/
theorem merge_lookups_succeed :
    (∃ m, init loopGraph = some m ∧ Symmetric m ∧
      (m.GetRow 1).find 1 = some (1 / 4) ∧ (m.GetRow 1).find 0 = none ∧
      joinStep 0 1 m 1 = none ∧ JoinCluster m 0 1 = none) ∧
    ∀ (m : SparseClusteringMatrix) (a b : ℕ), Symmetric m → a ≠ b →
      a < m.capacity → b < m.capacity →
      ((m.GetRow b).find b = none ∨ ∃ u, (m.GetRow b).find a = some u) →
      (∃ m1, JoinCluster m a b = some m1) ∧
      ∀ pre column post, (m.GetRow b).keys = pre ++ column :: post → column ≠ b →
        ∃ m2 value, joinLoop a b m pre = some m2 ∧
          (m2.GetRow b).find column = some value ∧
          (∃ w, (((m2.setCell a column (value + ((m2.GetRow a).find column).getD 0)).setCell
            column a (value + ((m2.GetRow a).find column).getD 0)).GetRow column).find b
              = some w) ∧
          ∃ m3, joinStep a b m2 column = some m3 := by
  refine ⟨?_, ?_⟩
  · obtain ⟨m, hm, hs, _, _, h00, _, h03, _⟩ := loopGraph_matrix
    exact ⟨m, hm, hs, h00, h03, joinStep_hazard (by decide) m h03,
      JoinCluster_hazard (by decide) m h00 h03⟩
  intro m a b hs hab ha hb hsafe
  have hmir := rowMirrored_of_symmetric hs hb
  constructor
  · obtain ⟨m1, hm1, _⟩ := JoinCluster_spec hab m ha hb hmir hsafe
    exact ⟨m1, hm1⟩
  · intro pre column post hkeys hcb
    have hnd : (pre ++ column :: post).Nodup := by
      rw [← hkeys]
      exact (m.rows_ b).nodup
    have hpre : ∀ c ∈ pre ++ column :: post, VisitReady a b m c := by
      intro c hc
      have hc2 : c ∈ (m.rows_ b).keys := by
        have : (m.rows_ b).keys = pre ++ column :: post := hkeys
        rw [this]
        exact hc
      exact visitReady_of_mirrored hmir hsafe c hc2
    obtain ⟨m2, hl, _, hrest⟩ := joinLoop_prefix hab pre (column :: post) m hnd hpre
    have hready := hrest column (List.mem_cons_self column post)
    obtain ⟨⟨value, hvalue⟩, hlt, hex, _⟩ := hready
    obtain ⟨w, hw⟩ := hex hcb
    obtain ⟨m3, hm3, _⟩ := joinStep_eq hab m2 column value hvalue
      (hrest column (List.mem_cons_self column post))
    refine ⟨m2, value, hl, hvalue, ⟨w, ?_⟩, m3, hm3⟩
    show ((m2.setCell a column (value + (m2.cell a column).getD 0)).setCell column a
      (value + (m2.cell a column).getD 0)).cell column b = some w
    have e1 : ¬ (column = column ∧ b = a) := fun h => hab h.2.symm
    have e2 : ¬ (column = a ∧ b = column) := fun h => hcb h.2.symm
    rw [cell_setCell, cell_setCell, if_neg e1, if_neg e2]
    exact hw

/-- Witness for C16: on the 4-cycle, `JoinCluster(0, 1)` returns, and at the
visit of column 0 (the row `a` itself) the entry `(0, 1)` is found. -/
theorem merge_lookups_succeed_witness :
    ∃ m, init cycle4 = some m ∧ Symmetric m ∧ (m.GetRow 1).find 1 = none ∧
      (∃ m1, JoinCluster m 0 1 = some m1) ∧
      ∃ m2 value, joinLoop 0 1 m [] = some m2 ∧
        (m2.GetRow 1).find 0 = some value ∧
        (∃ w, (((m2.setCell 0 0 (value + ((m2.GetRow 0).find 0).getD 0)).setCell
          0 0 (value + ((m2.GetRow 0).find 0).getD 0)).GetRow 0).find 1 = some w) ∧
        ∃ m3, joinStep 0 1 m2 0 = some m3 := by
  have h0 : ∃ m, init cycle4 = some m ∧ Symmetric m ∧ 0 < m.capacity ∧ 1 < m.capacity ∧
      (m.GetRow 1).find 1 = none ∧ (m.GetRow 1).keys = [] ++ 0 :: [2] := by decide!
  obtain ⟨m, hm, hs, ha, hb, h11, hkeys⟩ := h0
  have h := merge_lookups_succeed.2 m 0 1 hs (by decide) ha hb (Or.inl h11)
  exact ⟨m, hm, hs, h11, h.1, h.2 [] 0 [2] hkeys (by decide)⟩

/-- C17 (evaluation at the failing input, and the law on the other inputs).
The constructor from a graph alone, on the graph with a loop at vertex 1 and
the edge 1-2, returns a symmetric matrix in which row 1 has a self-entry and no
entry for column 0; `JoinCluster(0, 1)` on it has no result, because the visit
of column 1 writes `rows_[1][0]`, which adds a key to the row under traversal.  For a
symmetric matrix and distinct rows `a` and `b` such that row `b` has no
self-entry or has an entry for `a`, `JoinCluster(a, b)` returns a state that
leaves unchanged the row sum of every row other than `a` and `b`, the whole row
of every row other than `a` and `b` that is not a column of row `b`, in every
row other than `a` and `b` the entries for the columns other than `a` and `b`,
and in row `a` the entries for the columns that are neither `a` nor `b` nor a
column of row `b`. -/
theorem merge_frame :
    (∃ m, init loopGraph = some m ∧ Symmetric m ∧
      (m.GetRow 1).find 1 = some (1 / 4) ∧ (m.GetRow 1).find 0 = none ∧
      JoinCluster m 0 1 = none) ∧
    ∀ (m : SparseClusteringMatrix) (a b : ℕ), Symmetric m → a ≠ b →
      a < m.capacity → b < m.capacity →
      ((m.GetRow b).find b = none ∨ ∃ u, (m.GetRow b).find a = some u) →
      ∃ m1, JoinCluster m a b = some m1 ∧
        (∀ i, i ≠ a → i ≠ b → m1.GetRowSum i = m.GetRowSum i) ∧
        (∀ c, c ≠ a → c ≠ b → (m.GetRow b).find c = none → m1.GetRow c = m.GetRow c) ∧
        (∀ c j, c ≠ a → c ≠ b → j ≠ a → j ≠ b →
          (m1.GetRow c).find j = (m.GetRow c).find j) ∧
        (∀ j, j ≠ a → j ≠ b → (m.GetRow b).find j = none →
          (m1.GetRow a).find j = (m.GetRow a).find j) := by
  refine ⟨?_, ?_⟩
  · obtain ⟨m, hm, hs, _, _, h00, _, h03, _⟩ := loopGraph_matrix
    exact ⟨m, hm, hs, h00, h03, JoinCluster_hazard (by decide) m h00 h03⟩
  intro m a b hs hab ha hb hsafe
  obtain ⟨m1, hm1, _, _, hC, hD, _⟩ :=
    JoinCluster_spec hab m ha hb (rowMirrored_of_symmetric hs hb) hsafe
  obtain ⟨_, _, _, _, hsum⟩ := JoinCluster_frame hm1
  refine ⟨m1, hm1, ?_, ?_, ?_, ?_⟩
  · intro i hia hib
    show m1.row_sums_ i = m.row_sums_ i
    rw [hsum i, if_neg hib, if_neg hia]
  · intro c hca _ hnone
    apply JoinCluster_rows hm1 c hca
    intro hmem
    obtain ⟨v, hv⟩ := (t_row_value_map.mem_keys_iff (m.rows_ b) c).1 hmem
    have hnone2 : (m.rows_ b).find c = none := hnone
    rw [hnone2] at hv
    cases hv
  · intro c j hca hcb hja hjb
    exact hD c j hca hcb hja hjb
  · intro j hja hjb hnone
    exact (hC j hja hjb hnone).1

/-- Witness for C17: on the 4-cycle, `JoinCluster(0, 1)` leaves row 3 and its
row sum as they were, and the entries `(2, 3)` and `(0, 3)` as well. -/
theorem merge_frame_witness :
    ∃ m m1, init cycle4 = some m ∧ JoinCluster m 0 1 = some m1 ∧
      m1.GetRowSum 3 = m.GetRowSum 3 ∧
      m1.GetRow 3 = m.GetRow 3 ∧
      (m1.GetRow 2).find 3 = (m.GetRow 2).find 3 ∧
      (m1.GetRow 0).find 3 = (m.GetRow 0).find 3 := by
  have h0 : ∃ m, init cycle4 = some m ∧ Symmetric m ∧ 0 < m.capacity ∧ 1 < m.capacity ∧
      (m.GetRow 1).find 1 = none ∧ (m.GetRow 1).find 3 = none := by decide!
  obtain ⟨m, hm, hs, ha, hb, h11, h13⟩ := h0
  obtain ⟨m1, hm1, h1, h2, h3, h4⟩ := merge_frame.2 m 0 1 hs (by decide) ha hb (Or.inl h11)
  exact ⟨m, m1, hm, hm1, h1 3 (by decide) (by decide), h2 3 (by decide) (by decide) h13,
    h3 2 3 (by decide) (by decide) (by decide) (by decide),
    h4 3 (by decide) (by decide) h13⟩

/-- C18: the two constructors agree on the partition into singletons.  For a
graph with at least one edge and no duplicate in any neighbor list, both
constructors return, and the partition constructor called with the groups
`{0}, {1}, ..., {N - 1}` returns a matrix with the same rows (the same columns
with the same values, hence the same entries up to their order) and the same
row sums as the constructor from the graph alone. -/
theorem constructors_agree_on_singletons (g : Graph) (hE : 1 ≤ g.get_edge_count)
    (hg : g.NeighborsInRange) (hnd : g.NoDuplicates) :
    ∃ m0 m, init g = some m0 ∧
      mkWithPartition g (trivialPartition g.get_vertex_count) = some m ∧
      (∀ i j, (m.GetRow i).find j = (m0.GetRow i).find j) ∧
      (∀ i, (m.GetRow i).entries.Perm (m0.GetRow i).entries) ∧
      (∀ i, m.GetRowSum i = m0.GetRowSum i) ∧
      (∀ i, m.GetRowEntries i = m0.GetRowEntries i) := by
  obtain ⟨m, hm, hcell⟩ := mkWithPartition_trivial_cell g hg hnd
  rw [initvalue_getD g hE] at hcell
  obtain ⟨_, _, hsum, _⟩ := mkWithPartition_some hm
  have hperm : ∀ i, (m.GetRow i).entries.Perm
      ((initWith g (1 / (2 * (g.get_edge_count : t_value)))).GetRow i).entries :=
    fun i => entries_perm_of_find_eq _ _ (hcell i)
  refine ⟨_, m, init_of_edges g hE, hm, hcell, hperm, ?_, fun i => (hperm i).length_eq⟩
  intro i
  show m.row_sums_ i = (initWith g (1 / (2 * (g.get_edge_count : t_value)))).row_sums_ i
  rw [hsum i]
  by_cases hi : i < g.get_vertex_count
  · rw [if_pos hi, initWith_rowSumsCorrect g _ i hi]
    exact entrySum_eq_of_find_eq _ _ (hcell i)
  · rw [if_neg hi, initWith_row_sums, if_neg hi]

/-- Witness for C18: the triangle with the groups `{0}, {1}, {2}`. -/
theorem constructors_agree_on_singletons_witness :
    ∃ m0 m, init triangle = some m0 ∧
      mkWithPartition triangle (trivialPartition triangle.get_vertex_count) = some m ∧
      (∀ i j, (m.GetRow i).find j = (m0.GetRow i).find j) ∧
      (∀ i, (m.GetRow i).entries.Perm (m0.GetRow i).entries) ∧
      (∀ i, m.GetRowSum i = m0.GetRowSum i) ∧
      (∀ i, m.GetRowEntries i = m0.GetRowEntries i) :=
  constructors_agree_on_singletons triangle (by decide) (by decide) (by decide)

/-- C19 (evaluation at the failing input, and the law on the other inputs).
The constructor from a graph alone, on the graph with a loop at vertex 1 and
the edge 1-2, returns a symmetric matrix with correct row sums in which row 1
has a self-entry and no entry for column 0; `JoinCluster(0, 1)` on it has no
result, because the visit of column 1 writes `rows_[1][0]`, which adds a key to
the row under traversal.  For a symmetric matrix with correct row sums and distinct
rows `a` and `b` such that row `b` has neither an entry for column `a` nor a
self-entry, `JoinCluster(a, b)` returns a state in which the maintained row sum
of every row other than `b` equals the sum of the entries of that row, and the
entries of row `a` sum to the former row sum of `a` plus the former row sum of
`b`. -/
theorem nonadjacent_merge_row_sums :
    (∃ m, init loopGraph = some m ∧ Symmetric m ∧
      RowSumsCorrect m ∧ (m.GetRow 1).find 0 = none ∧
      (m.GetRow 1).find 1 = some (1 / 4) ∧ JoinCluster m 0 1 = none) ∧
    ∀ (m : SparseClusteringMatrix) (a b : ℕ), Symmetric m → RowSumsCorrect m → a ≠ b →
      a < m.capacity → b < m.capacity → (m.GetRow b).find a = none →
      (m.GetRow b).find b = none →
      ∃ m1, JoinCluster m a b = some m1 ∧
        (∀ i < m1.capacity, i ≠ b → m1.GetRowSum i = m1.rowEntrySum i) ∧
        m1.rowEntrySum a = m.GetRowSum a + m.GetRowSum b := by
  refine ⟨?_, ?_⟩
  · obtain ⟨m, hm, hs, hrs, _, h00, _, h03, _⟩ := loopGraph_matrix
    exact ⟨m, hm, hs, hrs, h03, h00, JoinCluster_hazard (by decide) m h00 h03⟩
  intro m a b hs hrs hab ha hb hna hnb
  obtain ⟨m1, hm1, hother, hrow⟩ := JoinCluster_row_sum_law hab m hs hrs ha hb (Or.inl hnb)
  obtain ⟨_, _, hcap, _, hsum⟩ := JoinCluster_frame hm1
  have hzero : (m.cell a b).getD 0 = 0 := by
    have hba : m.cell b a = none := hna
    rw [symmetric_cell_eq hs ha hb, hba]
    rfl
  rw [hzero, add_zero] at hrow
  refine ⟨m1, hm1, ?_, ?_⟩
  · intro i hi hib
    by_cases hia : i = a
    · subst hia
      exact hrow
    · exact hother i (hcap ▸ hi) hia hib
  · have h1 : m1.row_sums_ a = m.row_sums_ a + m.row_sums_ b := by
      rw [hsum a, if_neg hab, if_pos rfl]
    rw [← hrow]
    exact h1

/-- Witness for C19: on the 4-cycle the rows 0 and 2 are not adjacent and row 2
has no self-entry, and after `JoinCluster(0, 2)` the entries of row 0 sum to
1/4 + 1/4. -/
theorem nonadjacent_merge_row_sums_witness :
    ∃ m m1, init cycle4 = some m ∧ JoinCluster m 0 2 = some m1 ∧
      (∀ i < m1.capacity, i ≠ 2 → m1.GetRowSum i = m1.rowEntrySum i) ∧
      m1.rowEntrySum 0 = m.GetRowSum 0 + m.GetRowSum 2 ∧
      m.GetRowSum 0 + m.GetRowSum 2 = 1 / 4 + 1 / 4 := by
  have h0 : ∃ m, init cycle4 = some m ∧ Symmetric m ∧ RowSumsCorrect m ∧
      0 < m.capacity ∧ 2 < m.capacity ∧ (m.GetRow 2).find 0 = none ∧
      (m.GetRow 2).find 2 = none ∧ m.GetRowSum 0 + m.GetRowSum 2 = 1 / 4 + 1 / 4 := by
    decide!
  obtain ⟨m, hm, hs, hrs, ha, hb, h20, h22, hval⟩ := h0
  obtain ⟨m1, hm1, h1, h2⟩ :=
    nonadjacent_merge_row_sums.2 m 0 2 hs hrs (by decide) ha hb h20 h22
  exact ⟨m, m1, hm, hm1, h1, h2, hval⟩

/-- C12 (counterexample): the 4-cycle is a simple undirected graph, rows 0 and
2 are distinct and not retired, and after `JoinCluster(0, 2)` row 0 (not
retired) has 3 entries, of which only 2 are nonzero: the merge stored a
diagonal entry of value 0. -/
theorem entry_count_counts_zero_diagonal :
    cycle4.Simple ∧ ∃ m, init cycle4 = some m ∧ ∃ m1, JoinCluster m 0 2 = some m1 ∧
      ReachablePlain cycle4 m1 [2] ∧ m1.GetRowEntries 0 = 3 ∧ nonzeroColumns m1 0 = 2 ∧
      (m1.GetRow 0).find 0 = some 0 := by
  have hsome : ∃ m, init cycle4 = some m ∧ 0 < m.capacity ∧ 2 < m.capacity ∧
      ∃ m1, JoinCluster m 0 2 = some m1 ∧
        m1.GetRowEntries 0 = 3 ∧ nonzeroColumns m1 0 = 2 ∧ (m1.GetRow 0).find 0 = some 0 := by
    decide!
  obtain ⟨m, hm, ha, hb, m1, hm1, h1, h2, h3⟩ := hsome
  refine ⟨by decide, m, hm, m1, hm1, ?_, h1, h2, h3⟩
  exact ReachablePlain.join m [] 0 2 m1 (ReachablePlain.start m hm) (by decide)
    ha hb (by decide) (by decide) hm1

/-- C12 (amended): in every state reachable from the constructor on a simple
undirected graph by `JoinCluster` calls on distinct rows not yet retired, every
entry that a row `i` that is not retired stores off the diagonal is nonzero, and
`GetRowEntries(i)` is the number of columns other than `i` with a nonzero value,
plus one when row `i` stores a diagonal entry. -/
theorem entry_count_in_reachable_states (g : Graph) (hg : g.Simple)
    (m : SparseClusteringMatrix) (retired : List ℕ) (h : ReachablePlain g m retired)
    (i : ℕ) (hi : i < m.capacity) (hir : i ∉ retired) :
    (∀ j v, (m.GetRow i).find j = some v → j ≠ i → v ≠ 0) ∧
    m.GetRowEntries i =
      offDiagonalNonzeroColumns m i + (if ((m.GetRow i).find i).isSome then 1 else 0) := by
  have hpos := reachablePlain_alivePositive hg h
  have hnz : ∀ j v, (m.GetRow i).find j = some v → j ≠ i → v ≠ 0 := by
    intro j v hv hji
    exact ((hpos i hi hir j v hv).2 hji).ne'
  refine ⟨hnz, ?_⟩
  apply length_eq_offDiagonal_add i (m.rows_ i).entries (m.rows_ i).nodup
  intro e he hei
  exact hnz e.1 e.2 ((t_row_value_map.mem_entries_iff (m.rows_ i) e).1 he) hei

/-- Witness for C12 (amended): after `JoinCluster(0, 2)` on the 4-cycle, row 0
has 3 entries: the columns 1 and 3 with nonzero values, and the diagonal. -/
theorem entry_count_in_reachable_states_witness :
    ∃ m m1, init cycle4 = some m ∧ JoinCluster m 0 2 = some m1 ∧
      (∀ j v, (m1.GetRow 0).find j = some v → j ≠ 0 → v ≠ 0) ∧
      m1.GetRowEntries 0 =
        offDiagonalNonzeroColumns m1 0 + (if ((m1.GetRow 0).find 0).isSome then 1 else 0) := by
  have hsome : ∃ m, init cycle4 = some m ∧ 0 < m.capacity ∧ 2 < m.capacity ∧
      (JoinCluster m 0 2).isSome = true := by decide!
  obtain ⟨m, hm, ha, hb, hjoin⟩ := hsome
  obtain ⟨m1, hm1⟩ := Option.isSome_iff_exists.1 hjoin
  have hr : ReachablePlain cycle4 m1 [2] :=
    ReachablePlain.join m [] 0 2 m1 (ReachablePlain.start m hm) (by decide)
      ha hb (by decide) (by decide) hm1
  have hcap : m1.capacity = m.capacity := (JoinCluster_frame hm1).2.2.1
  exact ⟨m, m1, hm, hm1, entry_count_in_reachable_states cycle4 (by decide) m1 [2] hr 0
    (by rw [hcap]; exact ha) (by decide)⟩

end SparseClusteringMatrix

end CGGC
